import Mathlib

/-!
# Request evaluator (`lib/AST/Evaluator.cpp`), path remapping and derived conformances

A shallow embedding of the Swift request evaluator: the active-request stack,
the dependency map, cycle diagnosis and the two dependency printers; of the path
remapper of `include/swift/Basic/PathRemapper.h`; and of the derivability check of
`lib/Sema/DerivedConformanceValueEnumerable.cpp`.

Requests (`AnyRequest`) are an arbitrary type `α` with decidable equality; cached
values (`AnyValue`) are an arbitrary type `V`.  The LLVM containers used by the
evaluator are modelled by lists:

* `llvm::SetVector<T>`  : the list of its elements in insertion order (back = last);
* `llvm::DenseMap<K,V>` : an association list, looked up by the first matching key;
  the order of the list stands for the (unspecified) iteration order of the map;
* `llvm::DenseSet<T>`   : a list of its members.

An `llvm::raw_ostream` is modelled by the sequence of operations performed on it.
-/

namespace Swift

/-! ## LLVM containers -/

/-- Model of `llvm::SetVector<T>`: the elements, oldest first. -/
abbrev SetVector (α : Type) := List α

/-- `SetVector::insert`: appends `x` when it is not yet a member and reports whether
it did so. -/
def SetVector.insert {α : Type} [DecidableEq α] (s : SetVector α) (x : α) :
    Bool × SetVector α :=
  if x ∈ s then (false, s) else (true, s ++ [x])

/-- Model of `llvm::DenseMap<K,V>`. -/
abbrev DenseMap (κ ν : Type) := List (κ × ν)

/-- `DenseMap::find`: the value stored under `k`, `none` standing for `end()`. -/
def DenseMap.find {κ ν : Type} [DecidableEq κ] : DenseMap κ ν → κ → Option ν
  | [], _ => none
  | (k', v) :: rest, k => if k' = k then some v else DenseMap.find rest k

/-- `DenseMap::count`: 1 when `k` is a key, 0 otherwise. -/
def DenseMap.count {κ ν : Type} [DecidableEq κ] (m : DenseMap κ ν) (k : κ) : Nat :=
  match DenseMap.find m k with
  | some _ => 1
  | none => 0

/-- `m[k]` followed by a modification `f` of the referenced value: an absent key is
first entered with the value-initialised `dflt`. -/
def DenseMap.subscriptModify {κ ν : Type} [DecidableEq κ] (dflt : ν) (f : ν → ν) :
    DenseMap κ ν → κ → DenseMap κ ν
  | [], k => [(k, f dflt)]
  | (k', v) :: rest, k =>
    if k' = k then (k', f v) :: rest
    else (k', v) :: DenseMap.subscriptModify dflt f rest k

/-- `DenseMap::insert({k, v})`: enters the pair unless `k` is already a key. -/
def DenseMap.insert {κ ν : Type} [DecidableEq κ] (m : DenseMap κ ν) (k : κ) (v : ν) :
    DenseMap κ ν :=
  match DenseMap.find m k with
  | some _ => m
  | none => m ++ [(k, v)]

/-- Model of `llvm::DenseSet<T>`. -/
abbrev DenseSet (α : Type) := List α

/-- `DenseSet::insert(x)`; the Boolean is the `.second` of the returned pair. -/
def DenseSet.insert {α : Type} [DecidableEq α] (s : DenseSet α) (x : α) :
    Bool × DenseSet α :=
  if x ∈ s then (false, s) else (true, x :: s)

/-- `DenseSet::erase(x)`. -/
def DenseSet.erase {α : Type} [DecidableEq α] (s : DenseSet α) (x : α) : DenseSet α :=
  s.filter (fun y => decide (y ≠ x))

/-! ## Diagnostics and output streams -/

/-- A call of one of the two diagnostic callbacks of a request on the
`DiagnosticEngine`. -/
inductive DiagCall (α : Type) where
  | diagnoseCycle (request : α)
  | noteCycleStep (request : α)
  deriving DecidableEq, Repr

/-- The colours used by the tree printer. -/
inductive Color where
  | RED
  | GREEN
  deriving DecidableEq, Repr

/-- One operation on an `llvm::raw_ostream`. -/
inductive OutOp where
  | write (s : String)
  | changeColor (c : Color)
  | resetColor
  deriving DecidableEq, Repr

/-- An output stream, as the operations performed on it so far. -/
abbrev raw_ostream := List OutOp

/-- The characters written to a stream (colour changes carry no text). -/
def raw_ostream.text : raw_ostream → String
  | [] => ""
  | OutOp.write s :: rest => s ++ raw_ostream.text rest
  | OutOp.changeColor _ :: rest => raw_ostream.text rest
  | OutOp.resetColor :: rest => raw_ostream.text rest

/-- `s.erase(s.end() - n, s.end())` on a `std::string`. -/
def eraseTail (s : String) (n : Nat) : String :=
  ⟨s.data.take (s.data.length - n)⟩

/-! ## Evaluator state -/

/-- The members of `Evaluator`: the diagnostic engine (as the callbacks it has
received), the active requests, the cache and the recorded dependencies. -/
structure Evaluator (α V : Type) where
  diags : List (DiagCall α)
  activeRequests : SetVector α
  cache : DenseMap α V
  dependencies : DenseMap α (List α)

/-- `Evaluator::Evaluator(diags)`: all containers start empty. -/
def Evaluator.fresh {α V : Type} (diags : List (DiagCall α)) : Evaluator α V :=
  { diags := diags, activeRequests := [], cache := [], dependencies := [] }

/-! ## `diagnoseCycle` and `checkDependency` -/

/-- The loop of `Evaluator::diagnoseCycle` over `reversed(activeRequests)`;
`none` is the `llvm_unreachable` after the loop. -/
def diagnoseCycleLoop {α : Type} [DecidableEq α] (request : α) :
    List α → List (DiagCall α) → Option (List (DiagCall α))
  | [], _ => none
  | step :: rest, diags =>
    if step = request then some diags
    else diagnoseCycleLoop request rest (diags ++ [DiagCall.noteCycleStep step])

/-- `Evaluator::diagnoseCycle`. -/
def Evaluator.diagnoseCycle {α V : Type} [DecidableEq α] (e : Evaluator α V)
    (request : α) : Option (Evaluator α V) :=
  match diagnoseCycleLoop request e.activeRequests.reverse
      (e.diags ++ [DiagCall.diagnoseCycle request]) with
  | none => none
  | some diags => some { e with diags := diags }

/-- `Evaluator::checkDependency`; `true` means cyclic. -/
def Evaluator.checkDependency {α V : Type} [DecidableEq α] (e : Evaluator α V)
    (request : α) : Option (Bool × Evaluator α V) :=
  -- If there is an active request, record its dependency on this request.
  let e1 : Evaluator α V :=
    match e.activeRequests.getLast? with
    | none => e
    | some back =>
      { e with dependencies :=
          DenseMap.subscriptModify [] (fun deps => deps ++ [request]) e.dependencies back }
  -- Record this as an active request.
  match SetVector.insert e1.activeRequests request with
  | (true, active) => some (false, { e1 with activeRequests := active })
  | (false, _) =>
    match e1.diagnoseCycle request with
    | none => none
    | some e2 => some (true, e2)

/-- Successive `checkDependency` calls on the given requests, oldest first. -/
def Evaluator.checkDependencies {α V : Type} [DecidableEq α] :
    Evaluator α V → List α → Option (Evaluator α V)
  | e, [] => some e
  | e, request :: rest =>
    match e.checkDependency request with
    | none => none
    | some (_, e1) => Evaluator.checkDependencies e1 rest

/-! ## The dependency-tree printer -/

/-- What the printers need from requests, cached values and LLVM:
`simple_display(out, request)` (also the text of `AnyRequest::getAsString`),
`AnyValue::getAsString`, and the text written by `PrintEscapedString`. -/
structure Display (α V : Type) where
  simple_display : α → String
  getAsString : V → String
  PrintEscapedString : String → String

/-- The variables a recursive `printDependencies` call shares with its caller:
the stream `out`, the set `visited` and the string `prefixStr`. -/
structure PrintState (α : Type) where
  out : raw_ostream
  visited : DenseSet α
  prefixStr : String

/-- The loop `for (unsigned i : indices(dependsOn))` of `printDependencies`, `recur`
being the recursive call; `i` is the index of the head of the remaining children and
`size` is `dependsOn.size()` (at least 1 whenever the body runs, so `size - 1` is
exact). -/
def printChildren {α : Type} (recur : α → PrintState α → Bool → Option (PrintState α))
    (size : Nat) : List α → Nat → PrintState α → Option (PrintState α)
  | [], _, st => some st
  | child :: rest, i, st =>
    match recur child st (decide (i = size - 1)) with
    | none => none
    | some st1 => printChildren recur size rest (i + 1) st1

/-- The five-argument `Evaluator::printDependencies`, with a bound on the depth of
the recursion; `none` when the bound is reached. -/
def Evaluator.printDependenciesRec {α V : Type} [DecidableEq α] (d : Display α V)
    (e : Evaluator α V) : Nat → α → PrintState α → Bool → Option (PrintState α)
  | 0, _, _, _ => none
  | fuel + 1, request, st, lastChild =>
    let out := st.out ++ [OutOp.write st.prefixStr, OutOp.write " `--"]
    -- Print this node.
    let out := out ++ [OutOp.write (d.simple_display request)]
    -- Print the cached value, if known.
    let out :=
      match DenseMap.find e.cache request with
      | some cachedValue =>
        out ++ [OutOp.write " -> ",
                OutOp.write (d.PrintEscapedString (d.getAsString cachedValue))]
      | none => out
    match DenseSet.insert st.visited request with
    | (false, visited) =>
      -- We have already seen this node, so we have a cyclic dependency.
      some { out := out ++ [OutOp.changeColor Color.RED,
                            OutOp.write " (cyclic dependency)\n", OutOp.resetColor],
             visited := visited, prefixStr := st.prefixStr }
    | (true, visited) =>
      if DenseMap.count e.dependencies request = 0 then
        -- We have not seen this node before, so we don't know its dependencies.
        some { out := out ++ [OutOp.changeColor Color.GREEN,
                              OutOp.write " (dependency not evaluated)\n",
                              OutOp.resetColor],
               visited := DenseSet.erase visited request, prefixStr := st.prefixStr }
      else
        -- Print children.
        let out := out ++ [OutOp.write "\n"]
        -- Setup the prefix to print the children.
        let prefixStr := st.prefixStr ++ " "
        let prefixStr := prefixStr ++ (if lastChild then " " else "|")
        let prefixStr := prefixStr ++ "  "
        -- Print the children.
        let dependsOn := (DenseMap.find e.dependencies request).getD []
        match printChildren (Evaluator.printDependenciesRec d e fuel) dependsOn.length
            dependsOn 0 { out := out, visited := visited, prefixStr := prefixStr } with
        | none => none
        | some st1 =>
          -- Drop our changes to the prefix; remove from the visited set.
          some { out := st1.out, visited := DenseSet.erase st1.visited request,
                 prefixStr := eraseTail st1.prefixStr 4 }

/-- The two-argument `Evaluator::printDependencies`: the stream after the call.  A
path of the recursion holds distinct keys of `dependencies` followed by at most one
further request, which bounds its depth. -/
def Evaluator.printDependencies {α V : Type} [DecidableEq α] (d : Display α V)
    (e : Evaluator α V) (request : α) (out : raw_ostream) : Option raw_ostream :=
  match Evaluator.printDependenciesRec d e (e.dependencies.length + 2) request
      { out := out, visited := [], prefixStr := "" } true with
  | none => none
  | some st => some st.out

/-- The operations with which `printDependencies` starts the line of a node, before it
classifies the node: the prefix, the node marker, the display form of the request and,
when the request is a key of the cache, the cached value. -/
def nodeLineStart {α V : Type} [DecidableEq α] (d : Display α V) (cache : DenseMap α V)
    (prefixStr : String) (request : α) : raw_ostream :=
  [OutOp.write prefixStr, OutOp.write " `--", OutOp.write (d.simple_display request)] ++
    match DenseMap.find cache request with
    | some cachedValue =>
      [OutOp.write " -> ", OutOp.write (d.PrintEscapedString (d.getAsString cachedValue))]
    | none => []

/-! ## The Graphviz exporter -/

/-- The locals of `printDependenciesGraphviz` that its lambdas capture by
reference. -/
structure GraphvizState (α : Type) where
  allRequests : List α
  requestIDs : DenseMap α Nat
  nextID : Nat

/-- The comparison handed to `std::sort`: by display string, `operator<` of
`std::string` being the lexicographic comparison of the characters. -/
def displayLess {α V : Type} (d : Display α V) (lhs rhs : α) : Prop :=
  (d.simple_display lhs).data < (d.simple_display rhs).data

instance {α V : Type} (d : Display α V) (lhs rhs : α) : Decidable (displayLess d lhs rhs) :=
  inferInstanceAs (Decidable ((d.simple_display lhs).data < (d.simple_display rhs).data))

/-- `std::sort` of the requests with `displayLess`.  The result of `std::sort` is an
ascending rearrangement of its input, and the order in which it leaves requests whose
display strings are equal is not specified; the insertion sort taken here leaves them in
the order of the input, which is one of the results that `std::sort` may give.  Where the
display strings are pairwise distinct there is one ascending rearrangement only. -/
def sortRequests {α V : Type} (d : Display α V) (requests : List α) : List α :=
  requests.insertionSort (fun lhs rhs => ¬ displayLess d rhs lhs)

/-- The loop that prepopulates `requestIDs` with the known requests. -/
def prepopulate {α : Type} [DecidableEq α] :
    List α → DenseMap α Nat → Nat → DenseMap α Nat × Nat
  | [], requestIDs, nextID => (requestIDs, nextID)
  | request :: rest, requestIDs, nextID =>
    prepopulate rest (DenseMap.subscriptModify 0 (fun _ => nextID) requestIDs request)
      (nextID + 1)

/-- The lambda `getRequestID`. -/
def getRequestID {α : Type} [DecidableEq α] (st : GraphvizState α) (request : α) :
    Nat × GraphvizState α :=
  match DenseMap.find st.requestIDs request with
  | some known => (known, st)
  | none =>
    -- We discovered a new request; record its ID and add it to the list of all
    -- requests.
    (st.nextID,
     { allRequests := st.allRequests ++ [request],
       requestIDs := DenseMap.subscriptModify 0 (fun _ => st.nextID) st.requestIDs request,
       nextID := st.nextID + 1 })

/-- The lambda `getNodeName`. -/
def getNodeName {α : Type} [DecidableEq α] (st : GraphvizState α) (request : α) :
    String × GraphvizState α :=
  let (id, st1) := getRequestID st request
  ("request_" ++ toString id, st1)

/-- The inner loop of the edge emission: one statement per target. -/
def emitEdges {α : Type} [DecidableEq α] (source : α) :
    List α → GraphvizState α → raw_ostream → GraphvizState α × raw_ostream
  | [], st, out => (st, out)
  | target :: rest, st, out =>
    let (sourceName, st1) := getNodeName st source
    let (targetName, st2) := getNodeName st1 target
    emitEdges source rest st2
      (out ++ [OutOp.write "  ", OutOp.write sourceName, OutOp.write " -> ",
               OutOp.write targetName, OutOp.write ";\n"])

/-- How the edge loop of the exporter ends.  `std::vector::push_back` invalidates the
past-the-end iterator of the vector and, when it reallocates, every iterator and
reference into the vector; a loop that goes on with such an iterator has undefined
behaviour, to which C++ gives no result (`invalidatedIterator`): a run may stop with a
memory fault, write other edges, or go on as if nothing had happened. -/
inductive EdgeLoopResult (α : Type) where
  | completed (st : GraphvizState α) (out : raw_ostream)
  | assertionFailed
  | invalidatedIterator

/-- The outer loop of the edge emission, `for (const auto &source : allRequests)`, on the
requests between the iterator of the loop and the end of `allRequests`.  The body calls
`getRequestID`, which appends to `allRequests`, the vector that the loop iterates, when
it meets a request without an ID.  When the body has appended, the iterators with which
the loop would go on are invalid: `invalidatedIterator`.  `assertionFailed` is the failure
of `assert(known != dependencies.end())`. -/
def emitAllEdges {α : Type} [DecidableEq α] (dependencies : DenseMap α (List α)) :
    List α → GraphvizState α → raw_ostream → EdgeLoopResult α
  | [], st, out => EdgeLoopResult.completed st out
  | source :: rest, st, out =>
    match DenseMap.find dependencies source with
    | none => EdgeLoopResult.assertionFailed
    | some known =>
      let (st1, out1) := emitEdges source known st out
      -- `++__begin` and `__begin != __end` of the range-based `for`
      if st1.allRequests.length = st.allRequests.length then
        emitAllEdges dependencies rest st1 out1
      else EdgeLoopResult.invalidatedIterator

/-- The loop that emits the node statements. -/
def emitNodes {α V : Type} [DecidableEq α] (d : Display α V) (cache : DenseMap α V) :
    List α → GraphvizState α → raw_ostream → GraphvizState α × raw_ostream
  | [], st, out => (st, out)
  | request :: rest, st, out =>
    let (name, st1) := getNodeName st request
    let out := out ++ [OutOp.write "  ", OutOp.write name]
    let out := out ++ [OutOp.write " [label=\""]
    let out := out ++ [OutOp.write (d.PrintEscapedString (d.simple_display request))]
    let out :=
      match DenseMap.find cache request with
      | some cachedValue =>
        out ++ [OutOp.write " -> ",
                OutOp.write (d.PrintEscapedString (d.getAsString cachedValue))]
      | none => out
    emitNodes d cache rest st1 (out ++ [OutOp.write "\"];\n"])

/-- `Evaluator::printDependenciesGraphviz`: the stream after the call, `none` when the
call has no result because the edge loop fails its assertion or goes on with an
invalidated iterator.  The counter `nextID` is an `unsigned` in the source and a natural
number here. -/
def Evaluator.printDependenciesGraphviz {α V : Type} [DecidableEq α] (d : Display α V)
    (e : Evaluator α V) (out : raw_ostream) : Option raw_ostream :=
  -- Form a list of all of the requests we know about.
  let allRequests := e.dependencies.map Prod.fst
  -- Sort the list of requests based on the display strings.
  let allRequests := sortRequests d allRequests
  -- Prepopulate the known requests.
  let (requestIDs, nextID) := prepopulate allRequests [] 0
  let st : GraphvizState α :=
    { allRequests := allRequests, requestIDs := requestIDs, nextID := nextID }
  -- Emit the graph header.
  let out := out ++ [OutOp.write "digraph Dependencies \x7b\n"]
  -- Emit the edges.
  match emitAllEdges e.dependencies st.allRequests st out with
  | EdgeLoopResult.assertionFailed => none
  | EdgeLoopResult.invalidatedIterator => none
  | EdgeLoopResult.completed st1 out1 =>
    let out2 := out1 ++ [OutOp.write "\n"]
    -- Emit the nodes.
    let (_, out3) := emitNodes d e.cache st1.allRequests st1 out2
    -- Done!
    some (out3 ++ [OutOp.write "\x7d\n"])

/-- A call of one of the member functions implemented in `Evaluator.cpp`. -/
inductive MemberCall (α : Type) where
  | checkDependency (request : α)
  | diagnoseCycle (request : α)
  | printDependencies (request : α) (out : raw_ostream)
  | printDependenciesGraphviz (out : raw_ostream)

/-- The evaluator after a member call.  `checkDependency` and `diagnoseCycle` yield
their new state; the two printers are `const` member functions, which write to their
stream and hand the evaluator back as it was.  `none` is a fatal failure inside the
call. -/
def Evaluator.call {α V : Type} [DecidableEq α] (d : Display α V) (e : Evaluator α V) :
    MemberCall α → Option (Evaluator α V)
  | MemberCall.checkDependency request =>
    match e.checkDependency request with
    | none => none
    | some (_, e1) => some e1
  | MemberCall.diagnoseCycle request => e.diagnoseCycle request
  | MemberCall.printDependencies request out =>
    match e.printDependencies d request out with
    | none => none
    | some _ => some e
  | MemberCall.printDependenciesGraphviz out =>
    match e.printDependenciesGraphviz d out with
    | none => none
    | some _ => some e

/-! ## Evaluating a request

The entry point that evaluates a request lives in `Evaluator.h`, which is not part of
the sources at hand; it is modelled from the specification. -/

/-- Modelled from the spec: the evaluation logic of a request (`evaluate(engine)`,
spec §3), which is code of the concrete request types.  It runs with the evaluator as
context and is free to issue further requests: it either finishes with a result or asks
the evaluator for a dependency and goes on with the value it gets back. -/
inductive RequestLogic (α V : Type) where
  | result (value : V)
  | evaluate (dependency : α) (next : V → RequestLogic α V)

/-- Modelled from the spec: an evaluator together with the record of the requests whose
own evaluation logic has been invoked, oldest first (the record is what the
memoization property of spec §8 speaks about). -/
structure Session (α V : Type) where
  evaluator : Evaluator α V
  invoked : List α

/-- Modelled from the spec: the pop of the active stack that balances the push of a
non-cyclic `checkDependency` (spec §4.2), with the invariant assertion that the popped
entry is the request being left (spec §8, last item); `none` when it fails. -/
def Evaluator.popActive {α V : Type} [DecidableEq α] (e : Evaluator α V) (request : α) :
    Option (Evaluator α V) :=
  if e.activeRequests.getLast? = some request then
    some { e with activeRequests := e.activeRequests.dropLast }
  else none

/-- Modelled from the spec: one evaluation of `request` (the evaluation entry point of
`Evaluator.h`, absent from the sources), `runLogic` being the way the evaluation logic of
a request is run.  Following spec §2 and §4.2: `checkDependency` is consulted first; a
cyclic request gets the sentinel result `breakCycle request` (spec §7) and nothing is
cached for it; otherwise a cached result is returned as it is; otherwise the logic of the
request is invoked and its result is entered into the cache; in both non-cyclic cases the
request is popped from the active stack before returning. -/
def evaluateWith {α V : Type} [DecidableEq α] (logic : α → RequestLogic α V)
    (breakCycle : α → V)
    (runLogic : RequestLogic α V → Session α V → Option (V × Session α V))
    (s : Session α V) (request : α) : Option (V × Session α V) :=
  match s.evaluator.checkDependency request with
  | none => none
  | some (true, e1) => some (breakCycle request, { s with evaluator := e1 })
  | some (false, e1) =>
    match DenseMap.find e1.cache request with
    | some cached =>
      match e1.popActive request with
      | none => none
      | some e2 => some (cached, { s with evaluator := e2 })
    | none =>
      match runLogic (logic request)
          { evaluator := e1, invoked := s.invoked ++ [request] } with
      | none => none
      | some (value, s1) =>
        let e2 : Evaluator α V :=
          { s1.evaluator with cache := DenseMap.insert s1.evaluator.cache request value }
        match e2.popActive request with
        | none => none
        | some e3 => some (value, { s1 with evaluator := e3 })

/-- Modelled from the spec: running the evaluation logic of a request, every request it
issues being evaluated by the evaluator (recursive fan-out, spec §2).  The number bounds
the nesting; `none` when it is used up or when an evaluation fails fatally. -/
def runLogic {α V : Type} [DecidableEq α] (logic : α → RequestLogic α V)
    (breakCycle : α → V) : Nat → RequestLogic α V → Session α V → Option (V × Session α V)
  | 0, _, _ => none
  | _ + 1, RequestLogic.result value, s => some (value, s)
  | fuel + 1, RequestLogic.evaluate dependency next, s =>
    match evaluateWith logic breakCycle (runLogic logic breakCycle fuel) s dependency with
    | none => none
    | some (value, s1) => runLogic logic breakCycle fuel (next value) s1

/-- Modelled from the spec: evaluating `request` with the evaluator (the entry point of
`Evaluator.h`). -/
def evaluate {α V : Type} [DecidableEq α] (logic : α → RequestLogic α V)
    (breakCycle : α → V) (fuel : Nat) (s : Session α V) (request : α) :
    Option (V × Session α V) :=
  evaluateWith logic breakCycle (runLogic logic breakCycle fuel) s request


/-! ## The Graphviz exporter: its statements and its locals -/

/-- The edge statement between the nodes with the IDs `i` and `j`. -/
def edgeStatement (i j : Nat) : raw_ostream :=
  [OutOp.write "  ", OutOp.write ("request_" ++ toString i), OutOp.write " -> ",
   OutOp.write ("request_" ++ toString j), OutOp.write ";\n"]

/-- The node list after the requests `targets` have been asked for their ID in this
order: each one that is not yet on the list is appended. -/
def discovered {α : Type} [DecidableEq α] (allRequests targets : List α) : List α :=
  targets.foldl (fun all target => if target ∈ all then all else all ++ [target])
    allRequests

/-- The locals of the exporter agree: the node list has no duplicates, `nextID` is its
length, and `requestIDs` maps each node of the list to its position and nothing else. -/
def GraphvizState.Consistent {α : Type} [DecidableEq α] (st : GraphvizState α) : Prop :=
  st.allRequests.Nodup ∧ st.nextID = st.allRequests.length ∧
    ∀ request, DenseMap.find st.requestIDs request =
      if request ∈ st.allRequests then some (st.allRequests.indexOf request) else none

/-! ## Path remapping (`include/swift/Basic/PathRemapper.h`) -/

/-- `StringRef::startswith`. -/
def startswith (Path Start : String) : Bool :=
  Start.data.isPrefixOf Path.data

/-- `StringRef::substr(Start)`: the characters from position `Start` on. -/
def substr (Path : String) (Start : Nat) : String :=
  ⟨Path.data.drop Start⟩

/-- `PathRemapper`: its member `PathPrefixMap`, a `std::map<std::string, std::string>`,
as the list of its entries in the order in which the map is iterated. -/
structure PathRemapper where
  PathPrefixMap : List (String × String)

/-- `m[key] = value` on a `std::map` kept in ascending order of its keys, strings being
compared character by character. -/
def stdMapAssign : List (String × String) → String → String → List (String × String)
  | [], key, value => [(key, value)]
  | (k, v) :: rest, key, value =>
    if key.data < k.data then (key, value) :: (k, v) :: rest
    else if key = k then (k, value) :: rest
    else (k, v) :: stdMapAssign rest key value

/-- `PathRemapper::addMapping`. -/
def PathRemapper.addMapping (r : PathRemapper) (FromPath ToPath : String) : PathRemapper :=
  { PathPrefixMap := stdMapAssign r.PathPrefixMap FromPath ToPath }

/-- The loop of `PathRemapper::remapPath` over the entries of the map. -/
def remapPathLoop (Path : String) : List (String × String) → String
  | [] => Path
  | Entry :: rest =>
    if startswith Path Entry.1 then Entry.2 ++ substr Path Entry.1.length
    else remapPathLoop Path rest

/-- `PathRemapper::remapPath`. -/
def PathRemapper.remapPath (r : PathRemapper) (Path : String) : String :=
  remapPathLoop Path r.PathPrefixMap

/-- The remapper after the given `addMapping` calls, oldest first, on an empty one. -/
def PathRemapper.ofMappings (mappings : List (String × String)) : PathRemapper :=
  mappings.foldl (fun r m => r.addMapping m.1 m.2) { PathPrefixMap := [] }

/-! ## Deriving `ValueEnumerable` (`lib/Sema/DerivedConformanceValueEnumerable.cpp`) -/

/-- Modelled from the spec: the argument type of an enum element (declared in `Decl.h`
and `Types.h`, which are not among the sources), as `enumElementPayloadSubpattern` reads
it: a tuple of labelled or unlabelled elements, each a name and a type, or a single
parenthesised type. -/
inductive ArgumentType where
  | tuple (elements : List (String × String))
  | paren (underlying : String)
  deriving DecidableEq, Repr

/-- Modelled from the spec: an `EnumElementDecl` (declared in `Decl.h`): the name of the
case and its argument type, `none` being the null type of a case without associated
values. -/
structure EnumElementDecl where
  name : String
  argumentType : Option ArgumentType
  deriving DecidableEq, Repr

/-- Modelled from the spec: `EnumElementDecl::hasAssociatedValues` (declared in
`Decl.h`). -/
def EnumElementDecl.hasAssociatedValues (elt : EnumElementDecl) : Bool :=
  elt.argumentType.isSome

/-- Modelled from the spec: a `NominalTypeDecl` (declared in `Decl.h`): an enum with all
its elements, or a nominal type of another kind. -/
inductive NominalTypeDecl where
  | enumDecl (name : String) (allElements : List EnumElementDecl)
  | structDecl (name : String)
  | classDecl (name : String)
  | protocolDecl (name : String)
  deriving DecidableEq, Repr

/-- Modelled from the spec: `EnumDecl::hasCases` (declared in `Decl.h`): the enum has at
least one element. -/
def hasCases (allElements : List EnumElementDecl) : Bool :=
  !allElements.isEmpty

/-- Modelled from the spec: `EnumDecl::hasOnlyCasesWithoutAssociatedValues` (declared in
`Decl.h`): no element of the enum has associated values. -/
def hasOnlyCasesWithoutAssociatedValues (allElements : List EnumElementDecl) : Bool :=
  allElements.all (fun elt => !elt.hasAssociatedValues)

/-- `DerivedConformance::canDeriveValueEnumerable`.  The type checker is only asked to
validate the enum, and the requirement is not looked at. -/
def canDeriveValueEnumerable (type : NominalTypeDecl) : Bool :=
  match type with
  | NominalTypeDecl.enumDecl _ allElements =>
    -- ValueEnumerable can be synthesized for enums that have at least one case and
    -- where no case has associated values.
    hasCases allElements && hasOnlyCasesWithoutAssociatedValues allElements
  | _ =>
    -- Types other than enums are not supported.
    false

/-! ## The dependency tree, as the specification describes it -/

/-- The tree of the specification below `request`, drawn with the prefix `prefixStr`:
the line of the node; the cyclic mark when the request is among its `ancestors` on the
path from the root; otherwise the not-evaluated mark when it is not a key of
`dependencies`; otherwise the trees of its recorded dependencies in their recorded
order, with the request as one more ancestor and with the prefix grown by four spaces
when the node is the last child of its parent and by `" |  "` when it is not.  The
number bounds the depth of the tree. -/
def renderTree {α V : Type} [DecidableEq α] (d : Display α V) (e : Evaluator α V) :
    Nat → List α → α → String → Bool → raw_ostream
  | 0, _, _, _, _ => []
  | depth + 1, ancestors, request, prefixStr, lastChild =>
    nodeLineStart d e.cache prefixStr request ++
      if request ∈ ancestors then
        [OutOp.changeColor Color.RED, OutOp.write " (cyclic dependency)\n", OutOp.resetColor]
      else
        match DenseMap.find e.dependencies request with
        | none =>
          [OutOp.changeColor Color.GREEN, OutOp.write " (dependency not evaluated)\n",
           OutOp.resetColor]
        | some dependsOn =>
          OutOp.write "\n" ::
            dependsOn.enum.flatMap (fun child =>
              renderTree d e depth (request :: ancestors) child.2
                (prefixStr ++ (if lastChild then "    " else " |  "))
                (decide (child.1 = dependsOn.length - 1)))

/-! ## Deriving `Equatable` and `Hashable`
(`lib/Sema/DerivedConformanceEquatableHashable.cpp`)

The AST classes are declared in headers that are not among the sources; they are
modelled by the constructor calls that the derivation makes. -/

/-- Modelled from the spec: a `VarDecl` (declared in `Decl.h`): its name and type, and
the address that tells it from the other declarations allocated in the AST context. -/
structure VarDecl where
  address : Nat
  name : String
  type : String
  deriving DecidableEq, Repr

/-- Modelled from the spec: the `ASTContext`, as the number of variable declarations
allocated in it so far. -/
structure ASTContext where
  allocated : Nat
  deriving DecidableEq, Repr

/-- `new (C) VarDecl(..., C.getIdentifier(name), type, ...)`. -/
def ASTContext.newVarDecl (C : ASTContext) (name type : String) : VarDecl × ASTContext :=
  ({ address := C.allocated, name := name, type := type },
   { allocated := C.allocated + 1 })

/-- `APInt(numBits, value).toString(str, 10, /*signed*/ false)`: the decimal digits of
the value truncated to `numBits` bits. -/
def apIntToString (numBits value : Nat) : String :=
  toString (value % 2 ^ numBits)

/-- `indexedVarDecl`. -/
def indexedVarDecl (C : ASTContext) (prefixChar : Char) (index : Int) (type : String) :
    VarDecl × ASTContext :=
  let indexVal := ""
  -- indexVal.append(1, prefixChar)
  let indexVal := indexVal ++ String.singleton prefixChar
  -- APInt(32, 0).toString(indexVal, 10, /*signed*/ false)
  let indexVal := indexVal ++ apIntToString 32 0
  C.newVarDecl indexVal type

/-- Modelled from the spec: the patterns (declared in `Pattern.h`) that the derivation
builds. -/
inductive Pattern where
  | NamedPattern (var : VarDecl)
  | TuplePattern (elements : List (String × Pattern))
  | ParenPattern (subPattern : Pattern)
  | EnumElementPattern (elt : EnumElementDecl) (subPattern : Option Pattern)
  | AnyPattern

/-- The loop of `enumElementPayloadSubpattern` over the elements of the tuple type, each
a name and a type. -/
def tupleElementPatterns (varPrefix : Char) :
    List (String × String) → Int → ASTContext → List VarDecl → List (String × Pattern) →
      ASTContext × List VarDecl × List (String × Pattern)
  | [], _, C, boundVars, elementPatterns => (C, boundVars, elementPatterns)
  | tupleElement :: rest, index, C, boundVars, elementPatterns =>
    let (payloadVar, C1) := indexedVarDecl C varPrefix index tupleElement.2
    tupleElementPatterns varPrefix rest (index + 1) C1 (boundVars ++ [payloadVar])
      (elementPatterns ++ [(tupleElement.1, Pattern.NamedPattern payloadVar)])

/-- `enumElementPayloadSubpattern`: the pattern (`none` for `nullptr`), the array
`boundVars` after the call, and the AST context after the call. -/
def enumElementPayloadSubpattern (C : ASTContext) (enumElementDecl : EnumElementDecl)
    (varPrefix : Char) (boundVars : List VarDecl) :
    Option Pattern × List VarDecl × ASTContext :=
  match enumElementDecl.argumentType with
  | none =>
    -- No arguments, so no subpattern to match.
    (none, boundVars, C)
  | some (ArgumentType.tuple elements) =>
    -- Either multiple (labeled or unlabeled) arguments, or one labeled argument.
    let (C1, boundVars1, elementPatterns) :=
      tupleElementPatterns varPrefix elements 0 C boundVars []
    (some (Pattern.TuplePattern elementPatterns), boundVars1, C1)
  | some (ArgumentType.paren underlyingType) =>
    -- Otherwise, a one-argument unlabeled payload.
    let (payloadVar, C1) := indexedVarDecl C 'a' 0 underlyingType
    (some (Pattern.ParenPattern (Pattern.NamedPattern payloadVar)),
     boundVars ++ [payloadVar], C1)

/-- Modelled from the spec: the expressions (declared in `Expr.h`) that the derivation
builds.  A binary expression holds the name of its operator; an integer literal holds
the number that its digits denote; an assignment holds the variable it assigns to and
the assigned expression, `none` for `nullptr`. -/
inductive Expr where
  | BooleanLiteralExpr (value : Bool)
  | IntegerLiteralExpr (value : Nat)
  | DeclRefExpr (decl : VarDecl)
  | BinaryExpr (fn : String) (lhs rhs : Expr)
  | AutoClosureExpr (body : Expr) (discriminator : Nat)
  | UnresolvedDotExpr (base : Expr) (name : String)
  deriving DecidableEq, Repr

/-- Modelled from the spec: a `CaseStmt` of the derived `switch`: its label item (the
default flag and the pattern) and its body, the one assignment `result = source`, `none`
being a `nullptr` source. -/
structure CaseStmt where
  isDefault : Bool
  pattern : Pattern
  assigned : VarDecl
  source : Option Expr

/-- The loop of `deriveBodyEquatable_enum_eq` over the pairs of payload variables, which
chains their equality tests with `&&`. -/
def equalityChain : List VarDecl → List VarDecl → Option Expr → Nat → Option Expr × Nat
  | lhsVar :: lhsPayloadVars, rhsVar :: rhsPayloadVars, lastExpr, discriminator =>
    -- generate: lx == rx
    let cmpExpr := Expr.BinaryExpr "==" (Expr.DeclRefExpr lhsVar) (Expr.DeclRefExpr rhsVar)
    match lastExpr with
    | none => equalityChain lhsPayloadVars rhsPayloadVars (some cmpExpr) discriminator
    | some last =>
      -- generate: <lastExpr> && @autoclosure { lx == rx }
      equalityChain lhsPayloadVars rhsPayloadVars
        (some (Expr.BinaryExpr "&&" last (Expr.AutoClosureExpr cmpExpr discriminator)))
        (discriminator + 1)
  | _, _, lastExpr, discriminator => (lastExpr, discriminator)

/-- The locals that the loop of `deriveBodyEquatable_enum_eq` over the elements of the
enum changes. -/
structure EquatableLoop where
  C : ASTContext
  cases : List CaseStmt
  elementCount : Nat
  discriminator : Nat

/-- The body of the loop of `deriveBodyEquatable_enum_eq` for the element `elt`. -/
def equatableCase (isEqualVar : VarDecl) (st : EquatableLoop) (elt : EnumElementDecl) :
    EquatableLoop :=
  let elementCount := st.elementCount + 1
  -- generate: case (.<Case>(payload bindings), .<Case>(payload bindings)):
  let (lhsSubpattern, lhsPayloadVars, C1) := enumElementPayloadSubpattern st.C elt 'l' []
  let lhsElemPat := Pattern.EnumElementPattern elt lhsSubpattern
  let (rhsSubpattern, rhsPayloadVars, C2) := enumElementPayloadSubpattern C1 elt 'r' []
  let rhsElemPat := Pattern.EnumElementPattern elt rhsSubpattern
  let caseTuplePattern := Pattern.TuplePattern [("", lhsElemPat), ("", rhsElemPat)]
  let (lastExpr, discriminator) :=
    match elt.argumentType with
    | none =>
      -- If there aren't any associated values, we just make the result true because
      -- the cases matched.
      (some (Expr.BooleanLiteralExpr true), st.discriminator)
    | some _ =>
      -- Generate a chain of expressions that computes the AND of each associated value
      -- pair's equality test.
      equalityChain lhsPayloadVars rhsPayloadVars none st.discriminator
  -- generate: result = <lastExpr>
  { C := C2,
    cases := st.cases ++
      [{ isDefault := false, pattern := caseTuplePattern, assigned := isEqualVar,
         source := lastExpr }],
    elementCount := elementCount,
    discriminator := discriminator }

/-- The derived body `var result; switch subject (cases); return result`, as the result
variable and the cases of the switch. -/
structure DerivedBody where
  resultVar : VarDecl
  cases : List CaseStmt

/-- `deriveBodyEquatable_enum_eq`, for an enum with the elements `allElements`: the body
that it sets.  The counters `elementCount` and `discriminator` are `unsigned` in the
source and natural numbers here. -/
def deriveBodyEquatable_enum_eq (C : ASTContext) (allElements : List EnumElementDecl) :
    DerivedBody :=
  let (isEqualVar, C1) := C.newVarDecl "isEqual" "Bool"
  let st := allElements.foldl (equatableCase isEqualVar)
    { C := C1, cases := [], elementCount := 0, discriminator := 0 }
  -- generate: default: result = false
  -- We only generate this if the enum has more than one case.
  let cases :=
    if st.elementCount > 1 then
      st.cases ++
        [{ isDefault := true, pattern := Pattern.AnyPattern, assigned := isEqualVar,
           source := some (Expr.BooleanLiteralExpr false) }]
    else st.cases
  { resultVar := isEqualVar, cases := cases }

/-- `mixInHashExpr_hashValue`. -/
def mixInHashExpr_hashValue (exprSoFar exprToHash : Expr) : Expr :=
  -- generate: 31 (the hashing multiplier)
  let multiplierExpr := Expr.IntegerLiteralExpr (31 % 2 ^ 32)
  -- generate: 31 &* <exprSoFar>
  let productExpr := Expr.BinaryExpr "&*" multiplierExpr exprSoFar
  -- generate: <exprToHash>.hashValue
  let hashValueExpr := Expr.UnresolvedDotExpr exprToHash "hashValue"
  -- generate the result: <exprToHash>.hashValue &+ 31 &* <exprSoFar>
  Expr.BinaryExpr "&+" hashValueExpr productExpr

/-- The locals that the loop of `deriveBodyHashable_enum_hashValue` over the elements of
the enum changes. -/
structure HashableLoop where
  C : ASTContext
  cases : List CaseStmt
  index : Nat

/-- The body of the loop of `deriveBodyHashable_enum_hashValue` for the element `elt`. -/
def hashableCase (resultVar : VarDecl) (st : HashableLoop) (elt : EnumElementDecl) :
    HashableLoop :=
  -- generate: case .<Case>(payload bindings):
  let (payloadPattern, payloadVars, C1) := enumElementPayloadSubpattern st.C elt 'a' []
  let pat := Pattern.EnumElementPattern elt payloadPattern
  -- generate: <index>, the first term of the hash function.
  let lastExpr := Expr.IntegerLiteralExpr (st.index % 2 ^ 32)
  -- Generate a chain of expressions that mix the payload's hash values.
  let lastExpr := payloadVars.foldl
    (fun lastExpr payloadVar => mixInHashExpr_hashValue lastExpr (Expr.DeclRefExpr payloadVar))
    lastExpr
  -- generate: result = <lastExpr>
  { C := C1,
    cases := st.cases ++
      [{ isDefault := false, pattern := pat, assigned := resultVar, source := some lastExpr }],
    index := st.index + 1 }

/-- `deriveBodyHashable_enum_hashValue`, for an enum with the elements `allElements`:
the body that it sets.  The counter `index` is `unsigned` in the source and a natural
number here; the literal made from it is truncated to 32 bits as in the source. -/
def deriveBodyHashable_enum_hashValue (C : ASTContext)
    (allElements : List EnumElementDecl) : DerivedBody :=
  let (resultVar, C1) := C.newVarDecl "result" "Int"
  let st := allElements.foldl (hashableCase resultVar) { C := C1, cases := [], index := 0 }
  { resultVar := resultVar, cases := st.cases }

/-- The value of a hash expression in wrapping `w`-bit arithmetic, `hashValue` giving the
hash values of the variables: `&+` and `&*` are addition and multiplication modulo
`2 ^ w`.  Other expressions are given the value 0. -/
def evalHash (w : Nat) (hashValue : VarDecl → Nat) : Expr → Nat
  | Expr.IntegerLiteralExpr value => value % 2 ^ w
  | Expr.UnresolvedDotExpr (Expr.DeclRefExpr decl) _ => hashValue decl % 2 ^ w
  | Expr.BinaryExpr fn lhs rhs =>
    if fn = "&+" then (evalHash w hashValue lhs + evalHash w hashValue rhs) % 2 ^ w
    else if fn = "&*" then (evalHash w hashValue lhs * evalHash w hashValue rhs) % 2 ^ w
    else 0
  | _ => 0

/-! ## Containers: basic facts -/

section Lemmas

variable {α V : Type} [DecidableEq α]

theorem setVector_insert_of_mem {s : SetVector α} {x : α} (h : x ∈ s) :
    SetVector.insert s x = (false, s) := by
  simp [SetVector.insert, h]

theorem setVector_insert_of_not_mem {s : SetVector α} {x : α} (h : x ∉ s) :
    SetVector.insert s x = (true, s ++ [x]) := by
  simp [SetVector.insert, h]

theorem DenseMap.find_subscriptModify_self {ν : Type} (dflt : ν) (f : ν → ν)
    (m : DenseMap α ν) (k : α) :
    DenseMap.find (DenseMap.subscriptModify dflt f m k) k
      = some (f ((DenseMap.find m k).getD dflt)) := by
  induction m with
  | nil => simp [DenseMap.subscriptModify, DenseMap.find]
  | cons p rest ih =>
    obtain ⟨k', v⟩ := p
    by_cases hk : k' = k
    · simp [DenseMap.subscriptModify, DenseMap.find, hk]
    · simp [DenseMap.subscriptModify, DenseMap.find, hk, ih]

theorem DenseMap.find_subscriptModify_of_ne {ν : Type} (dflt : ν) (f : ν → ν)
    (m : DenseMap α ν) {k k' : α} (h : k' ≠ k) :
    DenseMap.find (DenseMap.subscriptModify dflt f m k) k' = DenseMap.find m k' := by
  induction m with
  | nil => simp [DenseMap.subscriptModify, DenseMap.find, h.symm]
  | cons p rest ih =>
    obtain ⟨k₀, v⟩ := p
    by_cases hk : k₀ = k
    · subst hk
      simp [DenseMap.subscriptModify, DenseMap.find, h.symm]
    · by_cases hk' : k₀ = k'
      · subst hk'
        simp [DenseMap.subscriptModify, DenseMap.find, hk]
      · simp [DenseMap.subscriptModify, DenseMap.find, hk, hk', ih]

/-! ## `diagnoseCycle` and `checkDependency`: basic facts -/

/-- The backward walk stops at the first entry equal to the request and has noted
every entry before it. -/
theorem diagnoseCycleLoop_found (request : α) (above rest : List α)
    (diags : List (DiagCall α)) (h : request ∉ above) :
    diagnoseCycleLoop request (above ++ request :: rest) diags
      = some (diags ++ above.map DiagCall.noteCycleStep) := by
  induction above generalizing diags with
  | nil => simp [diagnoseCycleLoop]
  | cons a above ih =>
    have ha : a ≠ request := fun h' => h (by simp [h'])
    have hr : request ∉ above := fun h' => h (by simp [h'])
    simp [diagnoseCycleLoop, ha, ih _ hr]

/-- The backward walk finds every request that is on the stack. -/
theorem diagnoseCycleLoop_of_mem (request : α) (steps : List α)
    (diags : List (DiagCall α)) (h : request ∈ steps) :
    ∃ diags1, diagnoseCycleLoop request steps diags = some diags1 := by
  induction steps generalizing diags with
  | nil => simp at h
  | cons a steps ih =>
    by_cases ha : a = request
    · exact ⟨diags, by simp [diagnoseCycleLoop, ha]⟩
    · have hr : request ∈ steps := by
        rcases List.mem_cons.mp h with h' | h'
        · exact absurd h'.symm ha
        · exact h'
      obtain ⟨d1, hd1⟩ := ih (diags ++ [DiagCall.noteCycleStep a]) hr
      exact ⟨d1, by simp [diagnoseCycleLoop, ha, hd1]⟩

/-- A request that is not active is pushed; the cache and the diagnostics stay. -/
theorem checkDependency_of_not_mem (e : Evaluator α V) (request : α)
    (h : request ∉ e.activeRequests) :
    ∃ e1, e.checkDependency request = some (false, e1) ∧
      e1.activeRequests = e.activeRequests ++ [request] ∧
      e1.cache = e.cache ∧ e1.diags = e.diags := by
  unfold Evaluator.checkDependency
  cases hb : e.activeRequests.getLast? with
  | none => simp [setVector_insert_of_not_mem h]
  | some back => simp [setVector_insert_of_not_mem h]

/-- A request that is active is diagnosed as a cycle; the stack and the cache stay. -/
theorem checkDependency_of_mem (e : Evaluator α V) (request : α)
    (h : request ∈ e.activeRequests) :
    ∃ e1, e.checkDependency request = some (true, e1) ∧
      e1.activeRequests = e.activeRequests ∧ e1.cache = e.cache ∧
      some e1.diags = diagnoseCycleLoop request e.activeRequests.reverse
        (e.diags ++ [DiagCall.diagnoseCycle request]) := by
  obtain ⟨d1, hd1⟩ := diagnoseCycleLoop_of_mem request e.activeRequests.reverse
    (e.diags ++ [DiagCall.diagnoseCycle request]) (List.mem_reverse.mpr h)
  unfold Evaluator.checkDependency
  cases hb : e.activeRequests.getLast? with
  | none => simp [setVector_insert_of_mem h, Evaluator.diagnoseCycle, hd1]
  | some back => simp [setVector_insert_of_mem h, Evaluator.diagnoseCycle, hd1]

/-- `checkDependency` returns in every state. -/
theorem checkDependency_total (e : Evaluator α V) (request : α) :
    ∃ cyclic e1, e.checkDependency request = some (cyclic, e1) ∧
      e1.cache = e.cache := by
  by_cases h : request ∈ e.activeRequests
  · obtain ⟨e1, h1, _, h2, _⟩ := checkDependency_of_mem e request h
    exact ⟨true, e1, h1, h2⟩
  · obtain ⟨e1, h1, _, h2, _⟩ := checkDependency_of_not_mem e request h
    exact ⟨false, e1, h1, h2⟩

/-- The dependencies after `checkDependency`: the list of the old top of the stack has
grown by the request, and an empty stack leaves the map alone. -/
theorem checkDependency_dependencies_eq (e : Evaluator α V) (request : α) :
    ∃ cyclic e1, e.checkDependency request = some (cyclic, e1) ∧
      (∀ back, e.activeRequests.getLast? = some back →
        e1.dependencies = DenseMap.subscriptModify [] (fun deps => deps ++ [request])
          e.dependencies back) ∧
      (e.activeRequests.getLast? = none → e1.dependencies = e.dependencies) := by
  by_cases h : request ∈ e.activeRequests
  · obtain ⟨d1, hd1⟩ := diagnoseCycleLoop_of_mem request e.activeRequests.reverse
      (e.diags ++ [DiagCall.diagnoseCycle request]) (List.mem_reverse.mpr h)
    cases hb : e.activeRequests.getLast? with
    | none =>
      exact ⟨true, { e with diags := d1 },
        by simp [Evaluator.checkDependency, hb, setVector_insert_of_mem h,
          Evaluator.diagnoseCycle, hd1],
        (fun back hback => by cases hback), fun _ => rfl⟩
    | some back =>
      exact ⟨true, { e with
          dependencies := DenseMap.subscriptModify [] (fun deps => deps ++ [request])
            e.dependencies back, diags := d1 },
        by simp [Evaluator.checkDependency, hb, setVector_insert_of_mem h,
          Evaluator.diagnoseCycle, hd1],
        (fun back' hback => by cases hback; rfl), fun hnone => by cases hnone⟩
  · cases hb : e.activeRequests.getLast? with
    | none =>
      exact ⟨false, { e with activeRequests := e.activeRequests ++ [request] },
        by simp [Evaluator.checkDependency, hb, setVector_insert_of_not_mem h],
        (fun back hback => by cases hback), fun _ => rfl⟩
    | some back =>
      exact ⟨false, { e with
          dependencies := DenseMap.subscriptModify [] (fun deps => deps ++ [request])
            e.dependencies back,
          activeRequests := e.activeRequests ++ [request] },
        by simp [Evaluator.checkDependency, hb, setVector_insert_of_not_mem h],
        (fun back' hback => by cases hback; rfl), fun hnone => by cases hnone⟩

end Lemmas


/-! ## Dependency registration and cycle check -/

section CheckDependency

variable {α V : Type} [DecidableEq α]

/-- C1: in every evaluator state `checkDependency request` returns, and it returns
`true` (cyclic) exactly when `request` was in `activeRequests` just before the call. -/
theorem checkDependency_cyclic_iff_active (e : Evaluator α V) (request : α) :
    ∃ cyclic e1, e.checkDependency request = some (cyclic, e1) ∧
      (cyclic = true ↔ request ∈ e.activeRequests) := by
  by_cases h : request ∈ e.activeRequests
  · obtain ⟨e1, h1, _⟩ := checkDependency_of_mem e request h
    exact ⟨true, e1, h1, by simp [h]⟩
  · obtain ⟨e1, h1, _⟩ := checkDependency_of_not_mem e request h
    exact ⟨false, e1, h1, by simp [h]⟩

/-- C2: when `request` is not active, `checkDependency request` pushes it once, the
stack becoming the old stack with `request` as its new top; when `request` is already
active the stack after the call is the stack before it. -/
theorem checkDependency_activeRequests (e : Evaluator α V) (request : α) :
    (request ∉ e.activeRequests →
      ∃ e1, e.checkDependency request = some (false, e1) ∧
        e1.activeRequests = e.activeRequests ++ [request]) ∧
    (request ∈ e.activeRequests →
      ∃ e1, e.checkDependency request = some (true, e1) ∧
        e1.activeRequests = e.activeRequests) := by
  constructor
  · intro h
    obtain ⟨e1, h1, h2, _⟩ := checkDependency_of_not_mem e request h
    exact ⟨e1, h1, h2⟩
  · intro h
    obtain ⟨e1, h1, h2, _⟩ := checkDependency_of_mem e request h
    exact ⟨e1, h1, h2⟩

/-- Witness of C2: a push on the empty stack and a repeated request on a stack of two. -/
theorem checkDependency_activeRequests_witness :
    (∃ e1, (Evaluator.fresh [] : Evaluator Nat Nat).checkDependency 7 = some (false, e1) ∧
        e1.activeRequests = [] ++ [7]) ∧
    (∃ e1, ({ diags := [], activeRequests := [7, 9], cache := [], dependencies := [] } :
        Evaluator Nat Nat).checkDependency 7 = some (true, e1) ∧
        e1.activeRequests = [7, 9]) :=
  ⟨(checkDependency_activeRequests (Evaluator.fresh []) 7).1 (by decide),
   (checkDependency_activeRequests
      { diags := [], activeRequests := [7, 9], cache := [], dependencies := [] } 7).2
      (by decide)⟩

/-- C3: after `checkDependency request`, if the stack was non-empty with top `top`
(taken before the push), the list of `top` in `dependencies` is its old list (empty if
`top` was not a key) with `request` appended, cyclic or not, and every other key has
its old list; if the stack was empty, `dependencies` is unchanged. -/
theorem checkDependency_dependencies (e : Evaluator α V) (request : α) :
    ∃ cyclic e1, e.checkDependency request = some (cyclic, e1) ∧
      (∀ top, e.activeRequests.getLast? = some top →
        DenseMap.find e1.dependencies top
            = some ((DenseMap.find e.dependencies top).getD [] ++ [request]) ∧
        ∀ k, k ≠ top →
          DenseMap.find e1.dependencies k = DenseMap.find e.dependencies k) ∧
      (e.activeRequests = [] → e1.dependencies = e.dependencies) := by
  by_cases h : request ∈ e.activeRequests
  · obtain ⟨d1, hd1⟩ := diagnoseCycleLoop_of_mem request e.activeRequests.reverse
      (e.diags ++ [DiagCall.diagnoseCycle request]) (List.mem_reverse.mpr h)
    cases hb : e.activeRequests.getLast? with
    | none =>
      rw [List.getLast?_eq_none_iff] at hb
      rw [hb] at h
      simp at h
    | some back =>
      refine ⟨true, { e with
        dependencies := DenseMap.subscriptModify [] (fun deps => deps ++ [request])
          e.dependencies back, diags := d1 }, ?_, ?_, ?_⟩
      · simp [Evaluator.checkDependency, hb, setVector_insert_of_mem h,
          Evaluator.diagnoseCycle, hd1]
      · intro top htop
        cases htop
        exact ⟨DenseMap.find_subscriptModify_self _ _ _ _,
          fun k hk => DenseMap.find_subscriptModify_of_ne _ _ _ hk⟩
      · intro hnil
        rw [hnil] at hb
        simp at hb
  · cases hb : e.activeRequests.getLast? with
    | none =>
      refine ⟨false, { e with activeRequests := e.activeRequests ++ [request] },
        ?_, ?_, ?_⟩
      · simp [Evaluator.checkDependency, hb, setVector_insert_of_not_mem h]
      · intro top htop
        cases htop
      · intro _
        rfl
    | some back =>
      refine ⟨false, { e with
        dependencies := DenseMap.subscriptModify [] (fun deps => deps ++ [request])
          e.dependencies back,
        activeRequests := e.activeRequests ++ [request] }, ?_, ?_, ?_⟩
      · simp [Evaluator.checkDependency, hb, setVector_insert_of_not_mem h]
      · intro top htop
        cases htop
        exact ⟨DenseMap.find_subscriptModify_self _ _ _ _,
          fun k hk => DenseMap.find_subscriptModify_of_ne _ _ _ hk⟩
      · intro hnil
        rw [hnil] at hb
        simp at hb

/-- Witness of C3: with `1` on top, `checkDependency 2` makes `[2]` the list of `1`,
and leaves the list of `5`. -/
theorem checkDependency_dependencies_witness :
    ∃ cyclic e1,
      ({ diags := [], activeRequests := [1], cache := [], dependencies := [(5, [6])] } :
        Evaluator Nat Nat).checkDependency 2 = some (cyclic, e1) ∧
      DenseMap.find e1.dependencies 1 = some ([] ++ [2]) ∧
      DenseMap.find e1.dependencies 5 = some [6] := by
  obtain ⟨cyclic, e1, h1, h2, _⟩ := checkDependency_dependencies
    ({ diags := [], activeRequests := [1], cache := [], dependencies := [(5, [6])] } :
      Evaluator Nat Nat) 2
  exact ⟨cyclic, e1, h1, (h2 1 (by decide)).1, (h2 1 (by decide)).2 5 (by decide)⟩

/-- A `checkDependency` call keeps a duplicate-free stack duplicate-free. -/
theorem checkDependency_nodup (e : Evaluator α V) (request : α) (cyclic : Bool)
    (e1 : Evaluator α V) (hnodup : e.activeRequests.Nodup)
    (hcall : e.checkDependency request = some (cyclic, e1)) :
    e1.activeRequests.Nodup := by
  by_cases h : request ∈ e.activeRequests
  · obtain ⟨e2, h1, h2, _⟩ := checkDependency_of_mem e request h
    rw [h1] at hcall
    cases hcall
    rw [h2]
    exact hnodup
  · obtain ⟨e2, h1, h2, _⟩ := checkDependency_of_not_mem e request h
    rw [h1] at hcall
    cases hcall
    rw [h2]
    exact List.Nodup.append hnodup (List.nodup_singleton _) (by simpa using h)

/-- A sequence of `checkDependency` calls never fails and keeps a duplicate-free stack
duplicate-free. -/
theorem checkDependencies_nodup (requests : List α) (e : Evaluator α V)
    (hnodup : e.activeRequests.Nodup) :
    ∃ e1, e.checkDependencies requests = some e1 ∧ e1.activeRequests.Nodup := by
  induction requests generalizing e with
  | nil => exact ⟨e, rfl, hnodup⟩
  | cons request rest ih =>
    obtain ⟨cyclic, e1, h1, _⟩ := checkDependency_total e request
    obtain ⟨e2, h2, h3⟩ := ih e1 (checkDependency_nodup e request cyclic e1 hnodup h1)
    exact ⟨e2, by simp [Evaluator.checkDependencies, h1, h2], h3⟩

/-- C4: the active stack never holds a request twice: a `checkDependency` call takes a
duplicate-free stack to a duplicate-free stack, and every sequence of `checkDependency`
calls on a fresh evaluator ends in a state with a duplicate-free stack. -/
theorem activeRequests_nodup :
    (∀ (e : Evaluator α V) (request : α) (cyclic : Bool) (e1 : Evaluator α V),
      e.activeRequests.Nodup → e.checkDependency request = some (cyclic, e1) →
      e1.activeRequests.Nodup) ∧
    (∀ (diags : List (DiagCall α)) (requests : List α),
      ∃ e1 : Evaluator α V, (Evaluator.fresh diags).checkDependencies requests = some e1 ∧
        e1.activeRequests.Nodup) :=
  ⟨checkDependency_nodup,
   fun diags requests => checkDependencies_nodup requests (Evaluator.fresh diags)
     List.nodup_nil⟩

/-- Witness of C4: the stack `[1, 2]` stays duplicate-free when `1` is asked again. -/
theorem activeRequests_nodup_witness :
    ({ diags := [DiagCall.diagnoseCycle 1, DiagCall.noteCycleStep 2],
       activeRequests := [1, 2], cache := [], dependencies := [(2, [1])] } :
      Evaluator Nat Nat).activeRequests.Nodup :=
  (@activeRequests_nodup Nat Nat _).1
    { diags := [], activeRequests := [1, 2], cache := [], dependencies := [] } 1 true
    { diags := [DiagCall.diagnoseCycle 1, DiagCall.noteCycleStep 2],
      activeRequests := [1, 2], cache := [], dependencies := [(2, [1])] }
    (by decide) rfl

end CheckDependency

/-! ## Cycle diagnosis -/

section DiagnoseCycle

variable {α V : Type} [DecidableEq α]

/-- A request on the stack has a topmost occurrence. -/
theorem exists_topmost_occurrence (request : α) (stack : List α) (h : request ∈ stack) :
    ∃ below above, stack = below ++ request :: above ∧ request ∉ above := by
  induction stack with
  | nil => simp at h
  | cons a rest ih =>
    by_cases hrest : request ∈ rest
    · obtain ⟨below, above, hstack, habove⟩ := ih hrest
      exact ⟨a :: below, above, by simp [hstack], habove⟩
    · have ha : request = a := by
        rcases List.mem_cons.mp h with h' | h'
        · exact h'
        · exact absurd h' hrest
      exact ⟨[], rest, by simp [ha], hrest⟩

/-- C5: when `request` occurs in the active stack, the stack splits at the (topmost)
occurrence of `request` into the entries `below` and the entries `above` it, and for
every such split `diagnoseCycle request` emits `request.diagnoseCycle` once and then
`noteCycleStep` on the entries of `above` from the top of the stack downwards, nothing
for `request` itself or the entries below it, and changes nothing else; when `request`
is the top of the stack no `noteCycleStep` is emitted. -/
theorem diagnoseCycle_callbacks (e : Evaluator α V) (request : α)
    (hmem : request ∈ e.activeRequests) :
    (∃ below above, e.activeRequests = below ++ request :: above ∧ request ∉ above) ∧
    ∀ below above, e.activeRequests = below ++ request :: above → request ∉ above →
      e.diagnoseCycle request
          = some { e with diags := e.diags ++ DiagCall.diagnoseCycle request ::
                     above.reverse.map DiagCall.noteCycleStep } ∧
        (above = [] →
          e.diagnoseCycle request
            = some { e with diags := e.diags ++ [DiagCall.diagnoseCycle request] }) := by
  refine ⟨exists_topmost_occurrence request e.activeRequests hmem, ?_⟩
  intro below above hstack habove
  have hrev : e.activeRequests.reverse = above.reverse ++ request :: below.reverse := by
    simp [hstack]
  have hloop := diagnoseCycleLoop_found request above.reverse below.reverse
    (e.diags ++ [DiagCall.diagnoseCycle request]) (by simpa using habove)
  have hmain : e.diagnoseCycle request
      = some { e with diags := e.diags ++ DiagCall.diagnoseCycle request ::
                 above.reverse.map DiagCall.noteCycleStep } := by
    simp [Evaluator.diagnoseCycle, hrev, hloop]
  refine ⟨hmain, ?_⟩
  intro hnil
  rw [hmain, hnil]
  rfl

/-- Witness of C5: on the stack `[1, 2, 3, 4]`, diagnosing `2` notes `4` and then `3`. -/
theorem diagnoseCycle_callbacks_witness :
    ({ diags := [], activeRequests := [1, 2, 3, 4], cache := [], dependencies := [] } :
      Evaluator Nat Nat).diagnoseCycle 2
      = some { diags := [DiagCall.diagnoseCycle 2, DiagCall.noteCycleStep 4,
                         DiagCall.noteCycleStep 3],
               activeRequests := [1, 2, 3, 4], cache := [], dependencies := [] } :=
  ((diagnoseCycle_callbacks
    ({ diags := [], activeRequests := [1, 2, 3, 4], cache := [], dependencies := [] } :
      Evaluator Nat Nat) 2 (by decide)).2 [1] [3, 4] rfl (by decide)).1

/-- C6: direct 2-cycle.  From a state with an empty active stack and for distinct `r1`
and `r2`, the calls `checkDependency r1`, `checkDependency r2`, `checkDependency r1`
return not cyclic, not cyclic, cyclic; the first two emit no diagnostics, and the third
emits `r1.diagnoseCycle` and then `r2.noteCycleStep`, once each and nothing else. -/
theorem checkDependency_direct_two_cycle (e : Evaluator α V) (r1 r2 : α)
    (hempty : e.activeRequests = []) (hne : r1 ≠ r2) :
    ∃ e1 e2 e3, e.checkDependency r1 = some (false, e1) ∧
      e1.checkDependency r2 = some (false, e2) ∧
      e2.checkDependency r1 = some (true, e3) ∧
      e1.diags = e.diags ∧ e2.diags = e.diags ∧
      e3.diags = e.diags ++ [DiagCall.diagnoseCycle r1, DiagCall.noteCycleStep r2] := by
  obtain ⟨e1, h1, ha1, _, hd1⟩ := checkDependency_of_not_mem e r1 (by simp [hempty])
  rw [hempty] at ha1
  obtain ⟨e2, h2, ha2, _, hd2⟩ := checkDependency_of_not_mem e1 r2
    (by simpa [ha1] using hne.symm)
  rw [ha1] at ha2
  obtain ⟨e3, h3, _, _, hd3⟩ := checkDependency_of_mem e2 r1 (by simp [ha2])
  refine ⟨e1, e2, e3, h1, h2, h3, hd1, hd2.trans hd1, ?_⟩
  rw [ha2, hd2, hd1] at hd3
  have hloop := diagnoseCycleLoop_found r1 [r2] []
    (e.diags ++ [DiagCall.diagnoseCycle r1]) (by simpa using hne)
  simp only [List.nil_append, List.singleton_append, List.reverse_cons, List.reverse_nil,
    List.cons_append] at hd3 hloop
  rw [hloop] at hd3
  simpa using hd3

/-- Witness of C6: the requests `1` and `2` on a fresh evaluator. -/
theorem checkDependency_direct_two_cycle_witness :
    ∃ e1 e2 e3 : Evaluator Nat Nat,
      (Evaluator.fresh [] : Evaluator Nat Nat).checkDependency 1 = some (false, e1) ∧
      e1.checkDependency 2 = some (false, e2) ∧
      e2.checkDependency 1 = some (true, e3) ∧
      e1.diags = [] ∧ e2.diags = [] ∧
      e3.diags = [] ++ [DiagCall.diagnoseCycle 1, DiagCall.noteCycleStep 2] :=
  checkDependency_direct_two_cycle (Evaluator.fresh []) 1 2 rfl (by decide)

end DiagnoseCycle


/-! ## The cache is not touched -/

section Frame

variable {α V : Type} [DecidableEq α]

/-- C8: no member function implemented in `Evaluator.cpp` shrinks or alters the cache:
after a call of `checkDependency`, `diagnoseCycle`, `printDependencies` or
`printDependenciesGraphviz` the cache is what it was before the call. -/
theorem call_cache_unchanged (d : Display α V) (e e1 : Evaluator α V)
    (c : MemberCall α) (hcall : e.call d c = some e1) : e1.cache = e.cache := by
  cases c with
  | checkDependency request =>
    obtain ⟨cyclic, e2, h2, hc⟩ := checkDependency_total e request
    simp only [Evaluator.call, h2] at hcall
    cases hcall
    exact hc
  | diagnoseCycle request =>
    simp only [Evaluator.call, Evaluator.diagnoseCycle] at hcall
    split at hcall
    · cases hcall
    · cases hcall
      rfl
  | printDependencies request out =>
    simp only [Evaluator.call] at hcall
    split at hcall
    · cases hcall
    · cases hcall
      rfl
  | printDependenciesGraphviz out =>
    simp only [Evaluator.call] at hcall
    split at hcall
    · cases hcall
    · cases hcall
      rfl

/-- Witness of C8: a cyclic `checkDependency` on an evaluator with one cached value. -/
theorem call_cache_unchanged_witness :
    ({ diags := [DiagCall.diagnoseCycle 1], activeRequests := [1], cache := [(3, 4)],
       dependencies := [(1, [1])] } : Evaluator Nat Nat).cache = [(3, 4)] :=
  call_cache_unchanged
    { simple_display := toString, getAsString := toString, PrintEscapedString := id }
    { diags := [], activeRequests := [1], cache := [(3, 4)], dependencies := [] }
    { diags := [DiagCall.diagnoseCycle 1], activeRequests := [1], cache := [(3, 4)],
      dependencies := [(1, [1])] }
    (MemberCall.checkDependency 1) rfl

end Frame


/-! ## The dependency-tree printer -/

section TreePrinter

variable {α V : Type} [DecidableEq α]

theorem raw_ostream.text_append (a b : raw_ostream) :
    raw_ostream.text (a ++ b) = raw_ostream.text a ++ raw_ostream.text b := by
  induction a with
  | nil => simp [raw_ostream.text]
  | cons op a ih =>
    cases op <;> simp [raw_ostream.text, ih, String.append_assoc]

theorem denseSet_insert_of_not_mem {s : DenseSet α} {x : α} (h : x ∉ s) :
    DenseSet.insert s x = (true, x :: s) := by
  simp [DenseSet.insert, h]

theorem denseSet_insert_of_mem {s : DenseSet α} {x : α} (h : x ∈ s) :
    DenseSet.insert s x = (false, s) := by
  simp [DenseSet.insert, h]

theorem DenseSet.erase_cons_self {s : DenseSet α} {x : α} (h : x ∉ s) :
    DenseSet.erase (x :: s) x = s := by
  simp only [DenseSet.erase, ne_eq, decide_not, List.filter_cons, decide_True, Bool.not_true,
    Bool.false_eq_true, if_false]
  rw [List.filter_eq_self]
  intro y hy
  have : y ≠ x := fun hyx => h (hyx ▸ hy)
  simp [this]

/-- The first part of a `printDependencies` call: the line of the node up to its
marking. -/
theorem printDependenciesRec_succ_eq (d : Display α V) (e : Evaluator α V) (fuel : Nat)
    (request : α) (st : PrintState α) (lastChild : Bool) :
    e.printDependenciesRec d (fuel + 1) request st lastChild =
      match DenseSet.insert st.visited request with
      | (false, visited) =>
        some { out := st.out ++ nodeLineStart d e.cache st.prefixStr request ++
                 [OutOp.changeColor Color.RED, OutOp.write " (cyclic dependency)\n",
                  OutOp.resetColor],
               visited := visited, prefixStr := st.prefixStr }
      | (true, visited) =>
        if DenseMap.count e.dependencies request = 0 then
          some { out := st.out ++ nodeLineStart d e.cache st.prefixStr request ++
                   [OutOp.changeColor Color.GREEN,
                    OutOp.write " (dependency not evaluated)\n", OutOp.resetColor],
                 visited := DenseSet.erase visited request, prefixStr := st.prefixStr }
        else
          match printChildren (e.printDependenciesRec d fuel)
              ((DenseMap.find e.dependencies request).getD []).length
              ((DenseMap.find e.dependencies request).getD []) 0
              { out := st.out ++ nodeLineStart d e.cache st.prefixStr request ++
                  [OutOp.write "\n"],
                visited := visited,
                prefixStr := st.prefixStr ++ " " ++ (if lastChild then " " else "|")
                  ++ "  " } with
          | none => none
          | some st1 =>
            some { out := st1.out, visited := DenseSet.erase st1.visited request,
                   prefixStr := eraseTail st1.prefixStr 4 } := by
  rw [Evaluator.printDependenciesRec]
  cases hc : DenseMap.find e.cache request <;> simp [nodeLineStart, hc]

theorem eraseTail_append (p t : String) (n : Nat) (h : t.data.length = n) :
    eraseTail (p ++ t) n = p := by
  apply String.ext
  show (p.data ++ t.data).take ((p.data ++ t.data).length - n) = p.data
  rw [List.length_append, h, Nat.add_sub_cancel, List.take_left']
  rfl

/-- C10: a request reached by `printDependencies` that is not on the current path and
is not a key of `dependencies` gets one line, which ends with
`" (dependency not evaluated)"`; nothing is printed under it, the visited set and the
prefix are handed back as they were, and the loop over the children of its parent goes
on with the next sibling. -/
theorem printDependencies_not_evaluated (d : Display α V) (e : Evaluator α V)
    (fuel : Nat) (request : α) (st : PrintState α) (lastChild : Bool)
    (hpath : request ∉ st.visited)
    (hkey : DenseMap.find e.dependencies request = none) :
    e.printDependenciesRec d (fuel + 1) request st lastChild
        = some { st with out := st.out ++ nodeLineStart d e.cache st.prefixStr request ++
                   [OutOp.changeColor Color.GREEN,
                    OutOp.write " (dependency not evaluated)\n", OutOp.resetColor] } ∧
      raw_ostream.text (st.out ++ nodeLineStart d e.cache st.prefixStr request ++
          [OutOp.changeColor Color.GREEN, OutOp.write " (dependency not evaluated)\n",
           OutOp.resetColor])
        = raw_ostream.text st.out ++
            raw_ostream.text (nodeLineStart d e.cache st.prefixStr request) ++
            " (dependency not evaluated)\n" ∧
      ∀ (size i : Nat) (rest : List α),
        printChildren (e.printDependenciesRec d (fuel + 1)) size (request :: rest) i st
          = printChildren (e.printDependenciesRec d (fuel + 1)) size rest (i + 1)
              { st with out := st.out ++ nodeLineStart d e.cache st.prefixStr request ++
                  [OutOp.changeColor Color.GREEN,
                   OutOp.write " (dependency not evaluated)\n", OutOp.resetColor] } := by
  have hcall : ∀ b : Bool, e.printDependenciesRec d (fuel + 1) request st b
      = some { st with out := st.out ++ nodeLineStart d e.cache st.prefixStr request ++
                 [OutOp.changeColor Color.GREEN,
                  OutOp.write " (dependency not evaluated)\n", OutOp.resetColor] } := by
    intro b
    rw [printDependenciesRec_succ_eq, denseSet_insert_of_not_mem hpath]
    simp [DenseMap.count, hkey, DenseSet.erase_cons_self hpath]
  refine ⟨hcall lastChild, ?_, ?_⟩
  · simp [raw_ostream.text_append, raw_ostream.text, String.append_assoc]
  · intro size i rest
    rw [printChildren, hcall]

/-- Witness of C10: with `1 -> [2, 3]` recorded and `2` never evaluated, the call for
the child `2` prints its line with the mark and nothing else. -/
theorem printDependencies_not_evaluated_witness :
    ({ diags := [], activeRequests := [], cache := [], dependencies := [(1, [2, 3])] } :
        Evaluator Nat Nat).printDependenciesRec
        { simple_display := toString, getAsString := toString, PrintEscapedString := id }
        (0 + 1) 2 { out := [], visited := [1], prefixStr := "    " } false
      = some { out := [OutOp.write "    ", OutOp.write " `--", OutOp.write "2",
                       OutOp.changeColor Color.GREEN,
                       OutOp.write " (dependency not evaluated)\n", OutOp.resetColor],
               visited := [1], prefixStr := "    " } :=
  (printDependencies_not_evaluated
    { simple_display := toString, getAsString := toString, PrintEscapedString := id }
    { diags := [], activeRequests := [], cache := [], dependencies := [(1, [2, 3])] }
    0 2 { out := [], visited := [1], prefixStr := "    " } false
    (by decide) rfl).1

/-- Two distinct keys need a map of at least two entries. -/
theorem DenseMap.two_le_length_of_find {ν : Type} (m : DenseMap α ν) (k1 k2 : α)
    (v1 v2 : ν) (hne : k1 ≠ k2) (h1 : DenseMap.find m k1 = some v1)
    (h2 : DenseMap.find m k2 = some v2) : 2 ≤ m.length := by
  match m, h1, h2 with
  | [], h1, _ => simp [DenseMap.find] at h1
  | [(k, v)], h1, h2 =>
    by_cases hk1 : k = k1
    · have hk2 : k ≠ k2 := fun h => hne (hk1.symm.trans h)
      simp [DenseMap.find, hk2] at h2
    · simp [DenseMap.find, hk1] at h1
  | _ :: _ :: _, _, _ => simp

/-- C9: the tree printer on a 2-cycle.  With `r1 -> [r2]` and `r2 -> [r1]` recorded for
distinct `r1`, `r2` and an empty cache, `printDependencies r1` writes three lines and
stops: the display of `r1`, the display of `r2` as its child, and the display of `r1`
followed by `" (cyclic dependency)"` as the child of `r2`. -/
theorem printDependencies_two_cycle (d : Display α V) (e : Evaluator α V) (r1 r2 : α)
    (out : raw_ostream) (hne : r1 ≠ r2)
    (h1 : DenseMap.find e.dependencies r1 = some [r2])
    (h2 : DenseMap.find e.dependencies r2 = some [r1]) (hcache : e.cache = []) :
    ∃ out1, e.printDependencies d r1 out = some out1 ∧
      out1 = out ++
        [OutOp.write "", OutOp.write " `--", OutOp.write (d.simple_display r1),
         OutOp.write "\n",
         OutOp.write "    ", OutOp.write " `--", OutOp.write (d.simple_display r2),
         OutOp.write "\n",
         OutOp.write "        ", OutOp.write " `--", OutOp.write (d.simple_display r1),
         OutOp.changeColor Color.RED, OutOp.write " (cyclic dependency)\n",
         OutOp.resetColor] ∧
      raw_ostream.text out1 = raw_ostream.text out ++
        (" `--" ++ d.simple_display r1 ++ "\n" ++
         "     `--" ++ d.simple_display r2 ++ "\n" ++
         "         `--" ++ d.simple_display r1 ++ " (cyclic dependency)\n") := by
  obtain ⟨n, hn⟩ : ∃ n, e.dependencies.length = n + 2 :=
    ⟨e.dependencies.length - 2, by
      have := DenseMap.two_le_length_of_find e.dependencies r1 r2 _ _ hne h1 h2
      omega⟩
  have hr21 : r2 ∉ [r1] := by simpa using hne.symm
  have hcall : e.printDependencies d r1 out = some (out ++
      [OutOp.write "", OutOp.write " `--", OutOp.write (d.simple_display r1),
       OutOp.write "\n",
       OutOp.write "    ", OutOp.write " `--", OutOp.write (d.simple_display r2),
       OutOp.write "\n",
       OutOp.write "        ", OutOp.write " `--", OutOp.write (d.simple_display r1),
       OutOp.changeColor Color.RED, OutOp.write " (cyclic dependency)\n",
       OutOp.resetColor]) := by
    have hfuel : e.dependencies.length + 2 = (n + 2 + 1) + 1 := by omega
    have hprefix1 : ("" : String) ++ " " ++ " " ++ "  " = "    " := by decide
    have hprefix2 : ("    " : String) ++ " " ++ " " ++ "  " = "        " := by decide
    simp only [Evaluator.printDependencies, hfuel, printDependenciesRec_succ_eq,
      denseSet_insert_of_not_mem (List.not_mem_nil r1), DenseMap.count, h1, h2,
      Option.getD_some, List.length_singleton, printChildren,
      denseSet_insert_of_not_mem hr21,
      denseSet_insert_of_mem (List.mem_cons_of_mem r2 (List.mem_singleton_self r1)),
      nodeLineStart, hcache, DenseMap.find, if_true, hprefix1, hprefix2]
    simp
  refine ⟨_, hcall, rfl, ?_⟩
  simp only [raw_ostream.text_append, raw_ostream.text, String.append_assoc,
    String.append_empty, String.empty_append]
  rfl

/-- Witness of C9: the requests `1` and `2`, displayed as their numerals. -/
theorem printDependencies_two_cycle_witness :
    ∃ out1, ({ diags := [], activeRequests := [], cache := [],
               dependencies := [(1, [2]), (2, [1])] } : Evaluator Nat Nat).printDependencies
        { simple_display := toString, getAsString := toString, PrintEscapedString := id }
        1 [] = some out1 ∧
      out1 = [] ++
        [OutOp.write "", OutOp.write " `--", OutOp.write "1", OutOp.write "\n",
         OutOp.write "    ", OutOp.write " `--", OutOp.write "2", OutOp.write "\n",
         OutOp.write "        ", OutOp.write " `--", OutOp.write "1",
         OutOp.changeColor Color.RED, OutOp.write " (cyclic dependency)\n",
         OutOp.resetColor] ∧
      raw_ostream.text out1 = raw_ostream.text [] ++
        (" `--" ++ "1" ++ "\n" ++ "     `--" ++ "2" ++ "\n" ++
         "         `--" ++ "1" ++ " (cyclic dependency)\n") :=
  printDependencies_two_cycle
    { simple_display := toString, getAsString := toString, PrintEscapedString := id }
    { diags := [], activeRequests := [], cache := [],
      dependencies := [(1, [2]), (2, [1])] } 1 2 [] (by decide) rfl rfl rfl

end TreePrinter


/-! ## Memoization -/

section Memoization

variable {α V : Type} [DecidableEq α]

theorem DenseMap.find_append_of_ne {ν : Type} (m : DenseMap α ν) {k k' : α} (v : ν)
    (h : k' ≠ k) : DenseMap.find (m ++ [(k, v)]) k' = DenseMap.find m k' := by
  induction m with
  | nil => simp [DenseMap.find, h.symm]
  | cons p rest ih =>
    obtain ⟨k₀, v₀⟩ := p
    by_cases hk : k₀ = k'
    · simp [DenseMap.find, hk]
    · simp [DenseMap.find, hk, ih]

theorem DenseMap.find_append_self {ν : Type} (m : DenseMap α ν) (k : α) (v : ν)
    (h : DenseMap.find m k = none) : DenseMap.find (m ++ [(k, v)]) k = some v := by
  induction m with
  | nil => simp [DenseMap.find]
  | cons p rest ih =>
    obtain ⟨k₀, v₀⟩ := p
    by_cases hk : k₀ = k
    · simp [DenseMap.find, hk] at h
    · simp only [DenseMap.find, hk, if_false] at h
      simp [DenseMap.find, hk, ih h]

theorem DenseMap.find_insert_of_ne {ν : Type} (m : DenseMap α ν) {k k' : α} (v : ν)
    (h : k' ≠ k) : DenseMap.find (DenseMap.insert m k v) k' = DenseMap.find m k' := by
  unfold DenseMap.insert
  split
  · rfl
  · exact DenseMap.find_append_of_ne m v h

theorem DenseMap.find_insert_self {ν : Type} (m : DenseMap α ν) (k : α) (v : ν)
    (h : DenseMap.find m k = none) :
    DenseMap.find (DenseMap.insert m k v) k = some v := by
  simp only [DenseMap.insert, h]
  exact DenseMap.find_append_self m k v h

theorem popActive_push (e : Evaluator α V) (request : α) (stack : List α)
    (h : e.activeRequests = stack ++ [request]) :
    e.popActive request = some { e with activeRequests := stack } := by
  simp [Evaluator.popActive, h]

/-- One evaluation hands the active stack back as it was and leaves the cache lookups
of the active requests alone, when the way logic is run does. -/
theorem evaluateWith_stack_cache (logic : α → RequestLogic α V) (breakCycle : α → V)
    (run : RequestLogic α V → Session α V → Option (V × Session α V))
    (hrun : ∀ p s v s1, run p s = some (v, s1) →
      s1.evaluator.activeRequests = s.evaluator.activeRequests ∧
      ∀ k ∈ s.evaluator.activeRequests,
        DenseMap.find s1.evaluator.cache k = DenseMap.find s.evaluator.cache k)
    (s : Session α V) (request : α) (value : V) (s1 : Session α V)
    (h : evaluateWith logic breakCycle run s request = some (value, s1)) :
    s1.evaluator.activeRequests = s.evaluator.activeRequests ∧
      ∀ k ∈ s.evaluator.activeRequests,
        DenseMap.find s1.evaluator.cache k = DenseMap.find s.evaluator.cache k := by
  by_cases hmem : request ∈ s.evaluator.activeRequests
  · obtain ⟨e1, h1, ha, hc, _⟩ := checkDependency_of_mem s.evaluator request hmem
    simp only [evaluateWith, h1, Option.some.injEq, Prod.mk.injEq] at h
    obtain ⟨_, rfl⟩ := h
    exact ⟨ha, fun k _ => by rw [show ({ s with evaluator := e1 } : Session α V).evaluator
      = e1 from rfl, hc]⟩
  · obtain ⟨e1, h1, ha, hc, _⟩ := checkDependency_of_not_mem s.evaluator request hmem
    simp only [evaluateWith, h1] at h
    cases hfind : DenseMap.find e1.cache request with
    | some cached =>
      simp only [hfind, popActive_push e1 request _ ha, Option.some.injEq,
        Prod.mk.injEq] at h
      obtain ⟨_, rfl⟩ := h
      exact ⟨rfl, fun k _ => by
        show DenseMap.find e1.cache k = DenseMap.find s.evaluator.cache k
        rw [hc]⟩
    | none =>
      simp only [hfind] at h
      cases hr : run (logic request)
          { evaluator := e1, invoked := s.invoked ++ [request] } with
      | none => simp [hr] at h
      | some res =>
        obtain ⟨value1, s2⟩ := res
        obtain ⟨hs2a, hs2c⟩ := hrun _ _ _ _ hr
        simp only at hs2a hs2c
        rw [ha] at hs2a
        simp only [hr, popActive_push
          ({ s2.evaluator with
              cache := DenseMap.insert s2.evaluator.cache request value1 } :
            Evaluator α V) request _ hs2a, Option.some.injEq, Prod.mk.injEq] at h
        obtain ⟨_, rfl⟩ := h
        refine ⟨rfl, fun k hk => ?_⟩
        show DenseMap.find (DenseMap.insert s2.evaluator.cache request value1) k
          = DenseMap.find s.evaluator.cache k
        have hne : k ≠ request := fun hkr => hmem (hkr ▸ hk)
        rw [DenseMap.find_insert_of_ne _ _ hne, hs2c k (by rw [ha]; simp [hk]), hc]

/-- Running logic hands the active stack back as it was and leaves the cache lookups of
the active requests alone. -/
theorem runLogic_stack_cache (logic : α → RequestLogic α V) (breakCycle : α → V)
    (fuel : Nat) (p : RequestLogic α V) (s : Session α V) (value : V) (s1 : Session α V)
    (h : runLogic logic breakCycle fuel p s = some (value, s1)) :
    s1.evaluator.activeRequests = s.evaluator.activeRequests ∧
      ∀ k ∈ s.evaluator.activeRequests,
        DenseMap.find s1.evaluator.cache k = DenseMap.find s.evaluator.cache k := by
  induction fuel generalizing p s value s1 with
  | zero => simp [runLogic] at h
  | succ fuel ih =>
    cases p with
    | result v =>
      simp only [runLogic, Option.some.injEq, Prod.mk.injEq] at h
      obtain ⟨_, rfl⟩ := h
      exact ⟨rfl, fun _ _ => rfl⟩
    | evaluate dependency next =>
      simp only [runLogic] at h
      cases he : evaluateWith logic breakCycle (runLogic logic breakCycle fuel) s
          dependency with
      | none => simp [he] at h
      | some res =>
        obtain ⟨v1, s2⟩ := res
        simp only [he] at h
        obtain ⟨ha2, hc2⟩ := evaluateWith_stack_cache logic breakCycle _
          (fun p s v s1 h => ih p s v s1 h) s dependency v1 s2 he
        obtain ⟨ha1, hc1⟩ := ih _ _ _ _ h
        exact ⟨ha1.trans ha2, fun k hk => (hc1 k (by rw [ha2]; exact hk)).trans (hc2 k hk)⟩

/-- C7: memoization.  When an evaluation of `request` has returned `value`, evaluating
`request` again in the state it left returns `value` again, whatever the bound, without
invoking the evaluation logic of any request (the record of invocations stays as it is)
and without touching the cache; and unless the first evaluation found `request` active
(a cycle), `value` is what the cache holds for `request` after the first evaluation. -/
theorem evaluate_memoized (logic : α → RequestLogic α V) (breakCycle : α → V)
    (fuel : Nat) (s : Session α V) (request : α) (value : V) (s1 : Session α V)
    (hfirst : evaluate logic breakCycle fuel s request = some (value, s1)) :
    (∀ fuel2, ∃ s2, evaluate logic breakCycle fuel2 s1 request = some (value, s2) ∧
        s2.invoked = s1.invoked ∧ s2.evaluator.cache = s1.evaluator.cache) ∧
      (request ∉ s.evaluator.activeRequests →
        DenseMap.find s1.evaluator.cache request = some value) := by
  obtain ⟨hstack, _⟩ := evaluateWith_stack_cache logic breakCycle _
    (runLogic_stack_cache logic breakCycle fuel) s request value s1 hfirst
  by_cases hmem : request ∈ s.evaluator.activeRequests
  · refine ⟨fun fuel2 => ?_, fun h => absurd hmem h⟩
    obtain ⟨e1, h1, _⟩ := checkDependency_of_mem s.evaluator request hmem
    simp only [evaluate, evaluateWith, h1, Option.some.injEq, Prod.mk.injEq] at hfirst
    obtain ⟨hv, _⟩ := hfirst
    obtain ⟨e2, h2, _, hc2, _⟩ := checkDependency_of_mem s1.evaluator request
      (by rw [hstack]; exact hmem)
    exact ⟨{ s1 with evaluator := e2 }, by simp [evaluate, evaluateWith, h2, hv], rfl, hc2⟩
  · have hcached : DenseMap.find s1.evaluator.cache request = some value := by
      obtain ⟨e1, h1, ha, hc, _⟩ := checkDependency_of_not_mem s.evaluator request hmem
      simp only [evaluate, evaluateWith, h1] at hfirst
      cases hfind : DenseMap.find e1.cache request with
      | some cached =>
        simp only [hfind, popActive_push e1 request _ ha, Option.some.injEq,
          Prod.mk.injEq] at hfirst
        obtain ⟨rfl, rfl⟩ := hfirst
        exact hfind
      | none =>
        simp only [hfind] at hfirst
        cases hr : runLogic logic breakCycle fuel (logic request)
            { evaluator := e1, invoked := s.invoked ++ [request] } with
        | none => simp [hr] at hfirst
        | some res =>
          obtain ⟨value1, s2⟩ := res
          obtain ⟨hs2a, hs2c⟩ := runLogic_stack_cache logic breakCycle fuel _ _ _ _ hr
          simp only at hs2a hs2c
          have hkept := hs2c request (by rw [ha]; simp)
          rw [ha] at hs2a
          simp only [hr, popActive_push
            ({ s2.evaluator with
                cache := DenseMap.insert s2.evaluator.cache request value1 } :
              Evaluator α V) request _ hs2a, Option.some.injEq, Prod.mk.injEq] at hfirst
          obtain ⟨rfl, rfl⟩ := hfirst
          show DenseMap.find (DenseMap.insert s2.evaluator.cache request value1) request
            = some value1
          exact DenseMap.find_insert_self _ _ _ (hkept.trans hfind)
    refine ⟨fun fuel2 => ?_, fun _ => hcached⟩
    obtain ⟨e2, h2, ha2, hc2, _⟩ := checkDependency_of_not_mem s1.evaluator request
      (by rw [hstack]; exact hmem)
    refine ⟨{ s1 with evaluator := { e2 with activeRequests := s1.evaluator.activeRequests } },
      ?_, rfl, hc2⟩
    simp [evaluate, evaluateWith, h2, hc2, hcached, popActive_push e2 request _ ha2]

/-- Witness of C7: request `1` asks for request `2` and adds one to its value `10`; a
second evaluation of `1` returns the cached `11` and invokes nothing. -/
theorem evaluate_memoized_witness :
    ∃ s2 : Session Nat Nat,
      evaluate
        (fun r => if r = 1 then RequestLogic.evaluate 2 (fun v => RequestLogic.result (v + 1))
                  else RequestLogic.result 10)
        (fun _ => 0) 0
        { evaluator := { diags := [], activeRequests := [], cache := [(2, 10), (1, 11)],
                         dependencies := [(1, [2])] },
          invoked := [1, 2] } 1 = some (11, s2) ∧
      s2.invoked = [1, 2] ∧ s2.evaluator.cache = [(2, 10), (1, 11)] :=
  (evaluate_memoized
    (fun r => if r = 1 then RequestLogic.evaluate 2 (fun v => RequestLogic.result (v + 1))
              else RequestLogic.result 10)
    (fun _ => 0) 3
    { evaluator := Evaluator.fresh [], invoked := [] } 1 11
    { evaluator := { diags := [], activeRequests := [], cache := [(2, 10), (1, 11)],
                     dependencies := [(1, [2])] },
      invoked := [1, 2] }
    (by rfl)).1 0

end Memoization


/-! ## The fatal branch of `diagnoseCycle` -/

section Unreachable

variable {α V : Type} [DecidableEq α]

/-- The backward walk falls off the stack exactly when the request is not on it. -/
theorem diagnoseCycleLoop_eq_none_iff (request : α) (steps : List α)
    (diags : List (DiagCall α)) :
    diagnoseCycleLoop request steps diags = none ↔ request ∉ steps := by
  induction steps generalizing diags with
  | nil => simp [diagnoseCycleLoop]
  | cons a steps ih =>
    by_cases ha : a = request
    · simp [diagnoseCycleLoop, ha]
    · have hne : ¬ request = a := fun h => ha h.symm
      simp [diagnoseCycleLoop, ha, hne, ih]

/-- C20: `diagnoseCycle request` reaches its `llvm_unreachable` exactly when `request`
does not occur in the active stack; and `checkDependency`, which diagnoses a cycle only
after the insertion into the active set has failed, reaches it in no state. -/
theorem diagnoseCycle_unreachable_iff :
    (∀ (e : Evaluator α V) (request : α),
      e.diagnoseCycle request = none ↔ request ∉ e.activeRequests) ∧
    (∀ (e : Evaluator α V) (request : α), e.checkDependency request ≠ none) := by
  constructor
  · intro e request
    have h := diagnoseCycleLoop_eq_none_iff request e.activeRequests.reverse
      (e.diags ++ [DiagCall.diagnoseCycle request])
    rw [List.mem_reverse] at h
    rw [← h]
    unfold Evaluator.diagnoseCycle
    split <;> simp_all
  · intro e request hnone
    obtain ⟨cyclic, e1, h1, _⟩ := checkDependency_total e request
    rw [h1] at hnone
    cases hnone

/-- Witness of C20: diagnosing `3` on the stack `[1, 2]` is fatal, diagnosing `2` is
not, and `checkDependency 2` returns. -/
theorem diagnoseCycle_unreachable_iff_witness :
    ({ diags := [], activeRequests := [1, 2], cache := [], dependencies := [] } :
        Evaluator Nat Nat).diagnoseCycle 3 = none ∧
    ({ diags := [], activeRequests := [1, 2], cache := [], dependencies := [] } :
        Evaluator Nat Nat).checkDependency 2 ≠ none :=
  ⟨((@diagnoseCycle_unreachable_iff Nat Nat _).1 _ 3).2 (by decide),
   (@diagnoseCycle_unreachable_iff Nat Nat _).2 _ 2⟩

end Unreachable

/-! ## The dependency-tree printer: the cached value -/

section TreePrinterCache

variable {α V : Type} [DecidableEq α]

/-- The loop over the children only appends to the stream when the recursive call
does. -/
theorem printChildren_out_extends {β : Type}
    (recur : β → PrintState β → Bool → Option (PrintState β))
    (hrecur : ∀ c st b st1, recur c st b = some st1 → ∃ ops, st1.out = st.out ++ ops)
    (size : Nat) (children : List β) (i : Nat) (st st1 : PrintState β)
    (h : printChildren recur size children i st = some st1) :
    ∃ ops, st1.out = st.out ++ ops := by
  induction children generalizing i st with
  | nil =>
    simp only [printChildren, Option.some.injEq] at h
    exact ⟨[], by simp [h]⟩
  | cons c rest ih =>
    simp only [printChildren] at h
    cases hc : recur c st (decide (i = size - 1)) with
    | none => simp [hc] at h
    | some st2 =>
      simp only [hc] at h
      obtain ⟨ops1, h1⟩ := hrecur _ _ _ _ hc
      obtain ⟨ops2, h2⟩ := ih _ _ h
      exact ⟨ops1 ++ ops2, by rw [h2, h1, List.append_assoc]⟩

/-- A `printDependencies` call only appends to the stream. -/
theorem printDependenciesRec_out_extends (d : Display α V) (e : Evaluator α V)
    (fuel : Nat) (request : α) (st st1 : PrintState α) (lastChild : Bool)
    (h : e.printDependenciesRec d fuel request st lastChild = some st1) :
    ∃ ops, st1.out = st.out ++ ops := by
  induction fuel generalizing request st st1 lastChild with
  | zero => simp [Evaluator.printDependenciesRec] at h
  | succ fuel ih =>
    rw [printDependenciesRec_succ_eq] at h
    by_cases hv : request ∈ st.visited
    · rw [denseSet_insert_of_mem hv] at h
      simp only [Option.some.injEq] at h
      subst h
      exact ⟨_, List.append_assoc _ _ _⟩
    · rw [denseSet_insert_of_not_mem hv] at h
      simp only at h
      split at h
      · simp only [Option.some.injEq] at h
        subst h
        exact ⟨_, List.append_assoc _ _ _⟩
      · split at h
        · cases h
        · rename_i st2 hchildren
          simp only [Option.some.injEq] at h
          subst h
          obtain ⟨ops, hops⟩ := printChildren_out_extends _
            (fun c st b st1 hc => ih c st st1 b hc) _ _ _ _ _ hchildren
          refine ⟨nodeLineStart d e.cache st.prefixStr request ++ [OutOp.write "\n"] ++ ops,
            ?_⟩
          show st2.out = _
          rw [hops]
          simp only [List.append_assoc]

/-- C11: the line that a `printDependencies` call writes for its node holds, directly
after the display form of the request, `" -> "` and the escaped display of the cached
value when the request is a key of the cache, and nothing when it is not: what follows
is the marking of the node, which is the cyclic mark, the not-evaluated mark or the end
of the line before the children.  So cached nodes are annotated whatever their
marking. -/
theorem printDependencies_cached_value (d : Display α V) (e : Evaluator α V)
    (fuel : Nat) (request : α) (st st1 : PrintState α) (lastChild : Bool)
    (hcall : e.printDependenciesRec d (fuel + 1) request st lastChild = some st1) :
    ∃ valueOps marking,
      st1.out = st.out ++
        [OutOp.write st.prefixStr, OutOp.write " `--",
         OutOp.write (d.simple_display request)] ++ valueOps ++ marking ∧
      (∀ cachedValue, DenseMap.find e.cache request = some cachedValue →
        valueOps = [OutOp.write " -> ",
                      OutOp.write (d.PrintEscapedString (d.getAsString cachedValue))]) ∧
      (DenseMap.find e.cache request = none → valueOps = []) ∧
      (request ∈ st.visited →
        marking = [OutOp.changeColor Color.RED, OutOp.write " (cyclic dependency)\n",
                   OutOp.resetColor]) ∧
      (request ∉ st.visited → DenseMap.find e.dependencies request = none →
        marking = [OutOp.changeColor Color.GREEN,
                   OutOp.write " (dependency not evaluated)\n", OutOp.resetColor]) ∧
      (request ∉ st.visited → DenseMap.find e.dependencies request ≠ none →
        ∃ children, marking = OutOp.write "\n" :: children) := by
  rw [printDependenciesRec_succ_eq] at hcall
  refine ⟨match DenseMap.find e.cache request with
      | some cachedValue =>
        [OutOp.write " -> ", OutOp.write (d.PrintEscapedString (d.getAsString cachedValue))]
      | none => [], ?_⟩
  have hann : (∀ cachedValue, DenseMap.find e.cache request = some cachedValue →
        (match DenseMap.find e.cache request with
          | some cachedValue =>
            [OutOp.write " -> ",
             OutOp.write (d.PrintEscapedString (d.getAsString cachedValue))]
          | none => []) = [OutOp.write " -> ",
                      OutOp.write (d.PrintEscapedString (d.getAsString cachedValue))]) ∧
      (DenseMap.find e.cache request = none →
        (match DenseMap.find e.cache request with
          | some cachedValue =>
            [OutOp.write " -> ",
             OutOp.write (d.PrintEscapedString (d.getAsString cachedValue))]
          | none => []) = []) := by
    constructor
    · intro v hv
      simp [hv]
    · intro hv
      simp [hv]
  by_cases hv : request ∈ st.visited
  · rw [denseSet_insert_of_mem hv] at hcall
    simp only [Option.some.injEq] at hcall
    subst hcall
    exact ⟨_, by simp [nodeLineStart], hann.1, hann.2, fun _ => rfl,
      fun h => absurd hv h, fun h => absurd hv h⟩
  · rw [denseSet_insert_of_not_mem hv] at hcall
    simp only at hcall
    by_cases hkey : DenseMap.find e.dependencies request = none
    · simp only [DenseMap.count, hkey, if_true, Option.some.injEq] at hcall
      subst hcall
      exact ⟨_, by simp [nodeLineStart], hann.1, hann.2, fun h => absurd h hv,
        fun _ _ => rfl, fun _ h => absurd hkey h⟩
    · obtain ⟨deps, hdeps⟩ := Option.ne_none_iff_exists'.mp hkey
      simp only [DenseMap.count, hdeps, Nat.succ_ne_zero, if_false] at hcall
      split at hcall
      · cases hcall
      · rename_i st2 hchildren
        simp only [Option.some.injEq] at hcall
        subst hcall
        obtain ⟨ops, hops⟩ := printChildren_out_extends _
          (fun c st b st1 hc => printDependenciesRec_out_extends d e fuel c st st1 b hc)
          _ _ _ _ _ hchildren
        refine ⟨OutOp.write "\n" :: ops, ?_, hann.1, hann.2, fun h => absurd h hv,
          fun _ h => absurd h hkey, fun _ _ => ⟨ops, rfl⟩⟩
        show st2.out = _
        rw [hops]
        simp [nodeLineStart]

/-- Witness of C11: the request `2`, cached with the value `5` and never evaluated, is
printed with its value before the mark. -/
theorem printDependencies_cached_value_witness :
    ∃ valueOps marking : raw_ostream,
      [OutOp.write "    ", OutOp.write " `--", OutOp.write "2", OutOp.write " -> ",
       OutOp.write "5", OutOp.changeColor Color.GREEN,
       OutOp.write " (dependency not evaluated)\n", OutOp.resetColor]
        = [] ++ [OutOp.write "    ", OutOp.write " `--", OutOp.write "2"] ++ valueOps ++
            marking ∧
      valueOps = [OutOp.write " -> ", OutOp.write "5"] := by
  obtain ⟨valueOps, marking, h1, h2, _⟩ := printDependencies_cached_value
    { simple_display := toString, getAsString := toString, PrintEscapedString := id }
    ({ diags := [], activeRequests := [], cache := [(2, 5)], dependencies := [(1, [2])] } :
      Evaluator Nat Nat)
    0 2 { out := [], visited := [1], prefixStr := "    " }
    { out := [OutOp.write "    ", OutOp.write " `--", OutOp.write "2", OutOp.write " -> ",
              OutOp.write "5", OutOp.changeColor Color.GREEN,
              OutOp.write " (dependency not evaluated)\n", OutOp.resetColor],
      visited := [1], prefixStr := "    " } false (by rfl)
  exact ⟨valueOps, marking, h1, h2 5 rfl⟩

end TreePrinterCache

/-! ## Path remapping -/

section PathRemapping

theorem startswith_iff (Path Start : String) :
    startswith Path Start = true ↔ Start.data <+: Path.data := by
  simp [startswith]

/-- The loop returns the path when no entry matches, and otherwise remaps it with an
entry that matches. -/
theorem remapPathLoop_spec (Path : String) (entries : List (String × String)) :
    ((∀ entry ∈ entries, ¬ entry.1.data <+: Path.data) →
      remapPathLoop Path entries = Path) ∧
    ((∃ entry ∈ entries, entry.1.data <+: Path.data) →
      ∃ entry ∈ entries, entry.1.data <+: Path.data ∧
        remapPathLoop Path entries = entry.2 ++ ⟨Path.data.drop entry.1.data.length⟩) := by
  induction entries with
  | nil => simp [remapPathLoop]
  | cons entry rest ih =>
    by_cases hstart : entry.1.data <+: Path.data
    · constructor
      · intro hnone
        exact absurd hstart (hnone entry (List.mem_cons_self _ _))
      · intro _
        refine ⟨entry, List.mem_cons_self _ _, hstart, ?_⟩
        simp only [remapPathLoop, (startswith_iff Path entry.1).mpr hstart, if_true, substr]
        rfl
    · have hfalse : startswith Path entry.1 = false := by
        rw [← Bool.not_eq_true, startswith_iff]
        exact hstart
      constructor
      · intro hnone
        simp only [remapPathLoop, hfalse]
        exact ih.1 (fun en hen => hnone en (List.mem_cons_of_mem _ hen))
      · rintro ⟨en, hen, hpre⟩
        have hen' : en ∈ rest := by
          rcases List.mem_cons.mp hen with h | h
          · exact absurd (h ▸ hpre) hstart
          · exact h
        obtain ⟨en2, hen2, hpre2, hres⟩ := ih.2 ⟨en, hen', hpre⟩
        refine ⟨en2, List.mem_cons_of_mem _ hen2, hpre2, ?_⟩
        simp only [remapPathLoop, hfalse]
        exact hres

/-- C17: `remapPath` returns the path unchanged when no registered source prefix is a
prefix of it, in particular for a remapper without mappings; otherwise it returns, for a
registered mapping whose source prefix is a prefix of the path, the target prefix
followed by the path without its first characters, as many as the source prefix has. -/
theorem remapPath_spec (r : PathRemapper) (Path : String) :
    ((∀ entry ∈ r.PathPrefixMap, ¬ entry.1.data <+: Path.data) →
      r.remapPath Path = Path) ∧
    ((∃ entry ∈ r.PathPrefixMap, entry.1.data <+: Path.data) →
      ∃ entry ∈ r.PathPrefixMap, entry.1.data <+: Path.data ∧
        r.remapPath Path = entry.2 ++ ⟨Path.data.drop entry.1.data.length⟩) ∧
    (PathRemapper.ofMappings []).remapPath Path = Path :=
  ⟨(remapPathLoop_spec Path r.PathPrefixMap).1, (remapPathLoop_spec Path r.PathPrefixMap).2,
   rfl⟩

/-- Witness of C17: `/src/a.swift` is left alone by the mapping of `/old`, and remapped by
the mapping of `/src` to `/dst`. -/
theorem remapPath_spec_witness :
    (PathRemapper.ofMappings [("/old", "/new")]).remapPath "/src/a.swift" = "/src/a.swift" ∧
    ∃ entry ∈ (PathRemapper.ofMappings [("/old", "/new"), ("/src", "/dst")]).PathPrefixMap,
      entry.1.data <+: "/src/a.swift".data ∧
      (PathRemapper.ofMappings [("/old", "/new"), ("/src", "/dst")]).remapPath "/src/a.swift"
        = entry.2 ++ ⟨"/src/a.swift".data.drop entry.1.data.length⟩ :=
  ⟨(remapPath_spec (PathRemapper.ofMappings [("/old", "/new")]) "/src/a.swift").1
      (by decide),
   (remapPath_spec (PathRemapper.ofMappings [("/old", "/new"), ("/src", "/dst")])
      "/src/a.swift").2.1 ⟨("/src", "/dst"), by decide, by decide⟩⟩

/-- At most one entry matches a path when no source prefix is a strict prefix of
another one and the keys are distinct. -/
theorem matching_entry_unique (m : List (String × String)) (Path : String)
    (hkeys : (m.map Prod.fst).Nodup)
    (hassume : ∀ a ∈ m.map Prod.fst, ∀ b ∈ m.map Prod.fst, a.data <+: b.data → a = b)
    (e1 e2 : String × String) (h1 : e1 ∈ m) (h2 : e2 ∈ m)
    (hp1 : e1.1.data <+: Path.data) (hp2 : e2.1.data <+: Path.data) : e1 = e2 := by
  have hk1 : e1.1 ∈ m.map Prod.fst := List.mem_map_of_mem _ h1
  have hk2 : e2.1 ∈ m.map Prod.fst := List.mem_map_of_mem _ h2
  have hkey : e1.1 = e2.1 := by
    rcases List.prefix_or_prefix_of_prefix hp1 hp2 with h | h
    · exact hassume _ hk1 _ hk2 h
    · exact (hassume _ hk2 _ hk1 h).symm
  exact List.inj_on_of_nodup_map hkeys h1 h2 hkey

/-- Two enumerations of the same entries remap every path alike, under the same
assumptions. -/
theorem remapPathLoop_perm (m1 m2 : List (String × String)) (Path : String)
    (hperm : m1.Perm m2) (hkeys : (m1.map Prod.fst).Nodup)
    (hassume : ∀ a ∈ m1.map Prod.fst, ∀ b ∈ m1.map Prod.fst, a.data <+: b.data → a = b) :
    remapPathLoop Path m1 = remapPathLoop Path m2 := by
  by_cases hmatch : ∃ entry ∈ m1, entry.1.data <+: Path.data
  · obtain ⟨en1, hen1, hp1, hres1⟩ := (remapPathLoop_spec Path m1).2 hmatch
    obtain ⟨en, hen, hp⟩ := hmatch
    obtain ⟨en2, hen2, hp2, hres2⟩ := (remapPathLoop_spec Path m2).2
      ⟨en, hperm.mem_iff.mp hen, hp⟩
    have heq : en1 = en2 := matching_entry_unique m1 Path hkeys hassume en1 en2 hen1
      (hperm.mem_iff.mpr hen2) hp1 hp2
    rw [hres1, hres2, heq]
  · have hnone1 : ∀ entry ∈ m1, ¬ entry.1.data <+: Path.data :=
      fun entry hen hp => hmatch ⟨entry, hen, hp⟩
    have hnone2 : ∀ entry ∈ m2, ¬ entry.1.data <+: Path.data :=
      fun entry hen hp => hmatch ⟨entry, hperm.mem_iff.mpr hen, hp⟩
    rw [(remapPathLoop_spec Path m1).1 hnone1, (remapPathLoop_spec Path m2).1 hnone2]

/-- Assigning to a key that the map does not hold adds one entry. -/
theorem stdMapAssign_perm (m : List (String × String)) (key value : String)
    (hkey : key ∉ m.map Prod.fst) : (stdMapAssign m key value).Perm ((key, value) :: m) := by
  induction m with
  | nil => simp [stdMapAssign]
  | cons entry rest ih =>
    obtain ⟨k, v⟩ := entry
    have hne : key ≠ k := fun h => hkey (by simp [h])
    have hrest : key ∉ rest.map Prod.fst := fun h => hkey (by simp at h ⊢; exact Or.inr h)
    by_cases hlt : key.data < k.data
    · simp only [stdMapAssign, hlt, if_true]
      exact List.Perm.refl _
    · simp only [stdMapAssign, hlt, if_false, hne]
      exact ((ih hrest).cons (k, v)).trans (List.Perm.swap _ _ _)

/-- Adding mappings with distinct source prefixes, none of them registered yet,
registers exactly these mappings. -/
theorem foldl_addMapping_perm (adds acc : List (String × String))
    (hkeys : (acc.map Prod.fst ++ adds.map Prod.fst).Nodup) :
    (adds.foldl (fun r m => r.addMapping m.1 m.2)
      ({ PathPrefixMap := acc } : PathRemapper)).PathPrefixMap.Perm (acc ++ adds) := by
  induction adds generalizing acc with
  | nil => simp
  | cons m rest ih =>
    have hm : m.1 ∉ acc.map Prod.fst := by
      intro h
      have := (List.nodup_append.mp hkeys).2.2
      exact this h (by simp)
    have hstep := stdMapAssign_perm acc m.1 m.2 hm
    have hkeys' : ((stdMapAssign acc m.1 m.2).map Prod.fst ++ rest.map Prod.fst).Nodup := by
      have hp : ((stdMapAssign acc m.1 m.2).map Prod.fst ++ rest.map Prod.fst).Perm
          (acc.map Prod.fst ++ (m :: rest).map Prod.fst) := by
        refine ((hstep.map Prod.fst).append_right _).trans ?_
        simp only [List.map_cons, List.cons_append]
        exact List.perm_middle.symm
      exact hp.nodup_iff.mpr hkeys
    have := ih (stdMapAssign acc m.1 m.2) hkeys'
    simp only [List.foldl_cons, PathRemapper.addMapping]
    refine this.trans ?_
    refine (hstep.append_right rest).trans ?_
    simp only [List.cons_append]
    exact List.perm_middle.symm

/-- C18: when no registered source prefix is a strict prefix of another one, at most
one registered mapping has a source prefix that is a prefix of a given path, so the
result of `remapPath` does not depend on the order in which the mappings are examined,
nor on the order in which they were added. -/
theorem remapPath_order_independent (m1 m2 : List (String × String)) (Path : String)
    (hperm : m1.Perm m2) (hkeys : (m1.map Prod.fst).Nodup)
    (hassume : ∀ a ∈ m1.map Prod.fst, ∀ b ∈ m1.map Prod.fst, a.data <+: b.data → a = b) :
    (∀ e1 ∈ m1, ∀ e2 ∈ m1, e1.1.data <+: Path.data → e2.1.data <+: Path.data → e1 = e2) ∧
    ({ PathPrefixMap := m1 } : PathRemapper).remapPath Path
      = ({ PathPrefixMap := m2 } : PathRemapper).remapPath Path ∧
    (PathRemapper.ofMappings m1).remapPath Path
      = (PathRemapper.ofMappings m2).remapPath Path := by
  refine ⟨fun e1 h1 e2 h2 => matching_entry_unique m1 Path hkeys hassume e1 e2 h1 h2,
    remapPathLoop_perm m1 m2 Path hperm hkeys hassume, ?_⟩
  have hkeys2 : (m2.map Prod.fst).Nodup := (hperm.map Prod.fst).nodup_iff.mp hkeys
  have hp1 : (PathRemapper.ofMappings m1).PathPrefixMap.Perm m1 := by
    simpa using foldl_addMapping_perm m1 [] (by simpa using hkeys)
  have hp2 : (PathRemapper.ofMappings m2).PathPrefixMap.Perm m2 := by
    simpa using foldl_addMapping_perm m2 [] (by simpa using hkeys2)
  have hpm : ∀ a, a ∈ (PathRemapper.ofMappings m1).PathPrefixMap.map Prod.fst ↔
      a ∈ m1.map Prod.fst := fun a => (hp1.map Prod.fst).mem_iff
  exact remapPathLoop_perm _ _ Path (hp1.trans (hperm.trans hp2.symm))
    ((hp1.map Prod.fst).nodup_iff.mpr hkeys)
    (fun a ha b hb => hassume a ((hpm a).mp ha) b ((hpm b).mp hb))

/-- Witness of C18: the mappings of `/a` and `/b`, in both orders. -/
theorem remapPath_order_independent_witness :
    (PathRemapper.ofMappings [("/a", "/x"), ("/b", "/y")]).remapPath "/b/c"
      = (PathRemapper.ofMappings [("/b", "/y"), ("/a", "/x")]).remapPath "/b/c" :=
  (remapPath_order_independent [("/a", "/x"), ("/b", "/y")] [("/b", "/y"), ("/a", "/x")]
    "/b/c" (List.Perm.swap _ _ _) (by decide) (by decide)).2.2

end PathRemapping

/-! ## Deriving `ValueEnumerable` -/

section ValueEnumerable

/-- C19: `canDeriveValueEnumerable` returns `true` exactly for an enum that has at least
one case and none of whose cases has associated values; for every type that is not an
enum it returns `false`. -/
theorem canDeriveValueEnumerable_iff (type : NominalTypeDecl) :
    (canDeriveValueEnumerable type = true ↔
      ∃ name allElements, type = NominalTypeDecl.enumDecl name allElements ∧
        allElements ≠ [] ∧ ∀ elt ∈ allElements, elt.hasAssociatedValues = false) ∧
    ((∀ name allElements, type ≠ NominalTypeDecl.enumDecl name allElements) →
      canDeriveValueEnumerable type = false) := by
  cases type with
  | enumDecl name allElements =>
    constructor
    · constructor
      · intro h
        simp only [canDeriveValueEnumerable, hasCases, hasOnlyCasesWithoutAssociatedValues,
          Bool.and_eq_true, Bool.not_eq_true', List.isEmpty_eq_false, List.all_eq_true]
          at h
        exact ⟨name, allElements, rfl, by simpa using h.1, h.2⟩
      · rintro ⟨name', allElements', heq, hne, hall⟩
        cases heq
        simp only [canDeriveValueEnumerable, hasCases, hasOnlyCasesWithoutAssociatedValues,
          Bool.and_eq_true, Bool.not_eq_true', List.all_eq_true]
        exact ⟨by simpa using hne, hall⟩
    · intro h
      exact absurd rfl (h name allElements)
  | structDecl name => simp [canDeriveValueEnumerable]
  | classDecl name => simp [canDeriveValueEnumerable]
  | protocolDecl name => simp [canDeriveValueEnumerable]

/-- Witness of C19: a struct cannot derive `ValueEnumerable`. -/
theorem canDeriveValueEnumerable_iff_witness :
    canDeriveValueEnumerable (NominalTypeDecl.structDecl "S") = false :=
  (canDeriveValueEnumerable_iff (NominalTypeDecl.structDecl "S")).2
    (fun _ _ h => by cases h)

end ValueEnumerable


/-! ## The Graphviz exporter: node IDs -/

section GraphvizIDs

variable {α V : Type} [DecidableEq α]

theorem indexOf_of_prefix {A F : List α} (h : A <+: F) {r : α} (hr : r ∈ A) :
    F.indexOf r = A.indexOf r := by
  obtain ⟨B, rfl⟩ := h
  exact List.indexOf_append_of_mem hr

theorem discovered_cons (A : List α) (t : α) (T : List α) :
    discovered A (t :: T) = discovered (if t ∈ A then A else A ++ [t]) T := rfl

theorem discovered_append (A T1 T2 : List α) :
    discovered A (T1 ++ T2) = discovered (discovered A T1) T2 := by
  simp [discovered, List.foldl_append]

theorem prefix_discovered (A T : List α) : A <+: discovered A T := by
  induction T generalizing A with
  | nil => exact List.prefix_refl _
  | cons t T ih =>
    rw [discovered_cons]
    by_cases ht : t ∈ A
    · simpa [ht] using ih A
    · simp only [ht, if_false]
      exact (List.prefix_append A [t]).trans (ih _)

/-- Entering a request that is not on the list keeps the locals in agreement. -/
theorem consistent_push (st : GraphvizState α) (request : α) (h : st.Consistent)
    (hnew : request ∉ st.allRequests) :
    GraphvizState.Consistent
      { allRequests := st.allRequests ++ [request],
        requestIDs := DenseMap.subscriptModify 0 (fun _ => st.nextID) st.requestIDs request,
        nextID := st.nextID + 1 } := by
  obtain ⟨hnodup, hnext, hids⟩ := h
  refine ⟨?_, ?_, ?_⟩
  · exact List.Nodup.append hnodup (List.nodup_singleton _) (by simpa using hnew)
  · simp [hnext]
  · intro r
    by_cases hr : r = request
    · subst hr
      simp only [DenseMap.find_subscriptModify_self, List.mem_append, List.mem_singleton,
        or_true, if_true]
      rw [List.indexOf_append_of_not_mem hnew, hnext]
      simp
    · simp only [DenseMap.find_subscriptModify_of_ne _ _ _ hr, hids r, List.mem_append,
        List.mem_singleton, hr, or_false]
      by_cases hmem : r ∈ st.allRequests
      · simp [hmem, List.indexOf_append_of_mem hmem]
      · simp [hmem]

/-- `getRequestID` on a request that is on the list. -/
theorem getRequestID_of_mem (st : GraphvizState α) (request : α) (h : st.Consistent)
    (hmem : request ∈ st.allRequests) :
    getRequestID st request = (st.allRequests.indexOf request, st) := by
  simp [getRequestID, h.2.2 request, hmem]

/-- `getRequestID` on a request that is not on the list. -/
theorem getRequestID_of_not_mem (st : GraphvizState α) (request : α) (h : st.Consistent)
    (hnew : request ∉ st.allRequests) :
    getRequestID st request =
      (st.allRequests.length,
       { allRequests := st.allRequests ++ [request],
         requestIDs := DenseMap.subscriptModify 0 (fun _ => st.nextID) st.requestIDs request,
         nextID := st.nextID + 1 }) := by
  simp [getRequestID, h.2.2 request, hnew, h.2.1]

/-- `getRequestID` in general: the request is looked up or appended, and its ID is its
position on the resulting list. -/
theorem getRequestID_spec (st : GraphvizState α) (request : α) (h : st.Consistent) :
    ∃ st1, getRequestID st request = (st1.allRequests.indexOf request, st1) ∧
      st1.Consistent ∧ st1.allRequests = discovered st.allRequests [request] := by
  by_cases hmem : request ∈ st.allRequests
  · exact ⟨st, getRequestID_of_mem st request h hmem, h, by simp [discovered, hmem]⟩
  · refine ⟨_, ?_, consistent_push st request h hmem, by simp [discovered, hmem]⟩
    rw [getRequestID_of_not_mem st request h hmem]
    simp [List.indexOf_append_of_not_mem hmem]

/-- The edges of one source: the statements use the final positions of the requests,
whatever requests are appended later. -/
theorem emitEdges_spec (source : α) (targets : List α) (st : GraphvizState α)
    (out : raw_ostream) (h : st.Consistent) (hsource : source ∈ st.allRequests) :
    ∃ st1, st1.Consistent ∧ st1.allRequests = discovered st.allRequests targets ∧
      ∀ F, st1.allRequests <+: F →
        emitEdges source targets st out =
          (st1, out ++ targets.flatMap
            (fun target => edgeStatement (F.indexOf source) (F.indexOf target))) := by
  induction targets generalizing st out with
  | nil => exact ⟨st, h, rfl, fun F _ => by simp [emitEdges]⟩
  | cons target rest ih =>
    obtain ⟨st2, hget, hcons2, hall2⟩ := getRequestID_spec st target h
    have hpre2 : st.allRequests <+: st2.allRequests := by
      rw [hall2]
      exact prefix_discovered _ _
    have hsource2 : source ∈ st2.allRequests := hpre2.mem hsource
    obtain ⟨st1, hcons1, hall1, hout⟩ := ih st2
      (out ++ edgeStatement (st.allRequests.indexOf source)
        (st2.allRequests.indexOf target)) hcons2 hsource2
    refine ⟨st1, hcons1, ?_, ?_⟩
    · rw [hall1, hall2]
      exact (discovered_append st.allRequests [target] rest).symm
    · intro F hF
      have hpre1 : st2.allRequests <+: st1.allRequests := by
        rw [hall1]
        exact prefix_discovered _ _
      have htarget : target ∈ st2.allRequests := by
        rw [hall2]
        by_cases ht : target ∈ st.allRequests <;> simp [discovered, ht]
      have hidxs : F.indexOf source = st.allRequests.indexOf source :=
        indexOf_of_prefix ((hpre2.trans hpre1).trans hF) hsource
      have hidxt : F.indexOf target = st2.allRequests.indexOf target :=
        indexOf_of_prefix (hpre1.trans hF) htarget
      simp only [emitEdges, getNodeName, getRequestID_of_mem st source h hsource, hget]
      show emitEdges source rest st2 (out ++ edgeStatement (st.allRequests.indexOf source)
        (st2.allRequests.indexOf target)) = _
      rw [hout F hF]
      simp [List.flatMap_cons, hidxs, hidxt]

/-- The loop that prepopulates the IDs, started on locals that agree. -/
theorem prepopulate_consistent (known : List α) (st : GraphvizState α) (h : st.Consistent)
    (hnodup : (st.allRequests ++ known).Nodup) :
    GraphvizState.Consistent
      { allRequests := st.allRequests ++ known,
        requestIDs := (prepopulate known st.requestIDs st.nextID).1,
        nextID := (prepopulate known st.requestIDs st.nextID).2 } := by
  induction known generalizing st with
  | nil => simpa [prepopulate] using h
  | cons request rest ih =>
    have hnew : request ∉ st.allRequests := by
      intro hmem
      exact (List.nodup_append.mp hnodup).2.2 hmem (by simp)
    have hstep := consistent_push st request h hnew
    have := ih _ hstep (by simpa using hnodup)
    simpa [prepopulate] using this

/-- After the prepopulation the known requests hold the IDs `0, 1, ...` in their
order. -/
theorem prepopulate_spec (known : List α) (hnodup : known.Nodup) :
    GraphvizState.Consistent
      { allRequests := known,
        requestIDs := (prepopulate known [] 0).1,
        nextID := (prepopulate known [] 0).2 } := by
  have h0 : GraphvizState.Consistent
      ({ allRequests := [], requestIDs := [], nextID := 0 } : GraphvizState α) :=
    ⟨List.nodup_nil, rfl, fun r => by simp [DenseMap.find]⟩
  simpa using prepopulate_consistent known _ h0 (by simpa using hnodup)

/-! ### The sorted keys -/

theorem sortRequests_perm {β W : Type} (d : Display β W) (requests : List β) :
    (sortRequests d requests).Perm requests :=
  List.perm_insertionSort _ requests

/-- The sorted requests ascend by display string. -/
theorem sortRequests_sorted {β W : Type} (d : Display β W) (requests : List β) :
    (sortRequests d requests).Pairwise
      (fun lhs rhs => (d.simple_display lhs).data ≤ (d.simple_display rhs).data) := by
  haveI : IsTotal β (fun lhs rhs => ¬ displayLess d rhs lhs) :=
    ⟨fun a b => by
      simp only [displayLess, not_lt]
      exact le_total _ _⟩
  haveI : IsTrans β (fun lhs rhs => ¬ displayLess d rhs lhs) :=
    ⟨fun a b c hab hbc => by
      simp only [displayLess, not_lt] at hab hbc ⊢
      exact le_trans hab hbc⟩
  have h := List.sorted_insertionSort (fun lhs rhs => ¬ displayLess d rhs lhs) requests
  exact List.Pairwise.imp (fun hab => by simpa [displayLess] using hab) h

theorem DenseMap.find_ne_none_of_mem_keys {ν : Type} (m : DenseMap α ν) (k : α)
    (h : k ∈ m.map Prod.fst) : DenseMap.find m k ≠ none := by
  induction m with
  | nil => simp at h
  | cons p rest ih =>
    obtain ⟨k', v⟩ := p
    by_cases hk : k' = k
    · simp [DenseMap.find, hk]
    · have : k ∈ rest.map Prod.fst := by
        simp only [List.map_cons, List.mem_cons] at h
        rcases h with h | h
        · exact absurd h.symm hk
        · exact h
      simp [DenseMap.find, hk, ih this]

theorem DenseMap.find_of_mem {ν : Type} (m : DenseMap α ν) (k : α) (v : ν)
    (hkeys : (m.map Prod.fst).Nodup) (h : (k, v) ∈ m) : DenseMap.find m k = some v := by
  induction m with
  | nil => simp at h
  | cons p rest ih =>
    obtain ⟨k', v'⟩ := p
    simp only [List.map_cons, List.nodup_cons] at hkeys
    rcases List.mem_cons.mp h with h | h
    · cases h
      simp [DenseMap.find]
    · have hne : k' ≠ k := by
        intro hk
        exact hkeys.1 (hk ▸ List.mem_map_of_mem Prod.fst h)
      simp [DenseMap.find, hne, ih hkeys.2 h]

end GraphvizIDs

/-! ## The Graphviz exporter: the output -/

section GraphvizOutput

variable {α V : Type} [DecidableEq α]

/-! ### The keys stay distinct -/

theorem DenseMap.keys_subscriptModify {ν : Type} (dflt : ν) (f : ν → ν) (m : DenseMap α ν)
    (k : α) :
    (DenseMap.subscriptModify dflt f m k).map Prod.fst
      = if k ∈ m.map Prod.fst then m.map Prod.fst else m.map Prod.fst ++ [k] := by
  induction m with
  | nil => simp [DenseMap.subscriptModify]
  | cons p rest ih =>
    obtain ⟨k', v⟩ := p
    by_cases hk : k' = k
    · simp [DenseMap.subscriptModify, hk]
    · have hne : ¬ k = k' := fun h => hk h.symm
      by_cases hmem : k ∈ rest.map Prod.fst
      · simp only [DenseMap.subscriptModify, hk, if_false, List.map_cons, ih, hmem, if_true,
          List.mem_cons, or_true]
      · simp only [DenseMap.subscriptModify, hk, if_false, List.map_cons, ih, hmem,
          List.mem_cons, hne, or_self, List.cons_append]

/-- The keys of `dependencies` stay distinct under `checkDependency`, as they are in a
`DenseMap`. -/
theorem checkDependency_keys_nodup (e e1 : Evaluator α V) (request : α) (cyclic : Bool)
    (hkeys : (e.dependencies.map Prod.fst).Nodup)
    (hcall : e.checkDependency request = some (cyclic, e1)) :
    (e1.dependencies.map Prod.fst).Nodup := by
  obtain ⟨cyclic2, e2, h2, hdeps, hempty⟩ := checkDependency_dependencies_eq e request
  rw [h2] at hcall
  cases hcall
  cases hb : e.activeRequests.getLast? with
  | none =>
    rw [hempty hb]
    exact hkeys
  | some back =>
    rw [hdeps back hb, DenseMap.keys_subscriptModify]
    split
    · exact hkeys
    · rename_i hnew
      exact List.Nodup.append hkeys (List.nodup_singleton _) (by simpa using hnew)

/-! ### The iteration order of the map -/

theorem DenseMap.find_eq_none_of_not_mem_keys {ν : Type} (m : DenseMap α ν) (k : α)
    (h : k ∉ m.map Prod.fst) : DenseMap.find m k = none := by
  induction m with
  | nil => rfl
  | cons p rest ih =>
    obtain ⟨k', v⟩ := p
    simp only [List.map_cons, List.mem_cons, not_or] at h
    have hne : k' ≠ k := fun hk => h.1 hk.symm
    simp [DenseMap.find, hne, ih h.2]

/-- C14: the text of `printDependenciesGraphviz` is not the same for every enumeration of
a dependencies map.  The requests `1` and `2` have the same display string `x`, and
`1 -> [2]` and `2 -> []` are recorded: when the map is iterated with `1` first the edge is
`request_0 -> request_1`, and when it is iterated with `2` first the edge is
`request_1 -> request_0`. -/
theorem graphviz_text_depends_on_enumeration :
    ([(1, [2]), (2, [])] : DenseMap Nat (List Nat)).Perm [(2, []), (1, [2])] ∧
    (({ diags := [], activeRequests := [], cache := [],
        dependencies := [(1, [2]), (2, [])] } : Evaluator Nat Nat).printDependenciesGraphviz
        { simple_display := fun _ => "x", getAsString := toString, PrintEscapedString := id }
        []).map raw_ostream.text
      = some ("digraph Dependencies \x7b\n" ++ "  request_0 -> request_1;\n" ++ "\n" ++
          "  request_0 [label=\"x\"];\n" ++ "  request_1 [label=\"x\"];\n" ++ "\x7d\n") ∧
    (({ diags := [], activeRequests := [], cache := [],
        dependencies := [(2, []), (1, [2])] } : Evaluator Nat Nat).printDependenciesGraphviz
        { simple_display := fun _ => "x", getAsString := toString, PrintEscapedString := id }
        []).map raw_ostream.text
      = some ("digraph Dependencies \x7b\n" ++ "  request_1 -> request_0;\n" ++ "\n" ++
          "  request_0 [label=\"x\"];\n" ++ "  request_1 [label=\"x\"];\n" ++ "\x7d\n") ∧
    (({ diags := [], activeRequests := [], cache := [],
        dependencies := [(1, [2]), (2, [])] } : Evaluator Nat Nat).printDependenciesGraphviz
        { simple_display := fun _ => "x", getAsString := toString, PrintEscapedString := id }
        []).map raw_ostream.text
      ≠ (({ diags := [], activeRequests := [], cache := [],
            dependencies := [(2, []), (1, [2])] } : Evaluator Nat Nat).printDependenciesGraphviz
        { simple_display := fun _ => "x", getAsString := toString, PrintEscapedString := id }
        []).map raw_ostream.text := by
  refine ⟨List.Perm.swap _ _ _, by decide, by decide, by decide⟩

end GraphvizOutput


/-! ## The dependency-tree printer: the tree -/

section TreePrinterTree

variable {α V : Type} [DecidableEq α]

theorem prefix_grown (prefixStr : String) (lastChild : Bool) :
    prefixStr ++ " " ++ (if lastChild = true then " " else "|") ++ "  "
      = prefixStr ++ (if lastChild = true then "    " else " |  ") := by
  cases lastChild
  · simp only [Bool.false_eq_true, if_false, String.append_assoc]
    rfl
  · simp only [if_true, String.append_assoc]
    rfl

/-- The loop over the children writes the trees of the children in order, when the
recursive call writes the tree of its request and hands the visited set and the prefix
back. -/
theorem printChildren_eq_render {β : Type}
    (recur : β → PrintState β → Bool → Option (PrintState β))
    (render : List β → β → String → Bool → raw_ostream)
    (hrecur : ∀ c st b st1, recur c st b = some st1 →
      st1 = { out := st.out ++ render st.visited c st.prefixStr b, visited := st.visited,
              prefixStr := st.prefixStr })
    (size : Nat) (children : List β) (i : Nat) (st st1 : PrintState β)
    (h : printChildren recur size children i st = some st1) :
    st1 = { out := st.out ++ (children.enumFrom i).flatMap
                (fun child =>
                  render st.visited child.2 st.prefixStr (decide (child.1 = size - 1))),
            visited := st.visited, prefixStr := st.prefixStr } := by
  induction children generalizing i st with
  | nil =>
    simp only [printChildren, Option.some.injEq] at h
    subst h
    simp
  | cons c rest ih =>
    simp only [printChildren] at h
    cases hc : recur c st (decide (i = size - 1)) with
    | none => simp [hc] at h
    | some st2 =>
      simp only [hc] at h
      have h2 := hrecur _ _ _ _ hc
      have h1 := ih _ _ h
      rw [h1, h2]
      simp [List.enumFrom_cons, List.flatMap_cons]

/-- A `printDependencies` call that returns has written the tree of its request, with
the visited set as the ancestors, and hands the visited set and the prefix back as they
were. -/
theorem printDependenciesRec_eq_renderTree (d : Display α V) (e : Evaluator α V)
    (fuel : Nat) (request : α) (st st1 : PrintState α) (lastChild : Bool)
    (h : e.printDependenciesRec d fuel request st lastChild = some st1) :
    st1 = { out := st.out ++ renderTree d e fuel st.visited request st.prefixStr lastChild,
            visited := st.visited, prefixStr := st.prefixStr } := by
  induction fuel generalizing request st st1 lastChild with
  | zero => simp [Evaluator.printDependenciesRec] at h
  | succ fuel ih =>
    rw [printDependenciesRec_succ_eq] at h
    by_cases hv : request ∈ st.visited
    · rw [denseSet_insert_of_mem hv] at h
      simp only [Option.some.injEq] at h
      subst h
      simp [renderTree, hv]
    · rw [denseSet_insert_of_not_mem hv] at h
      simp only at h
      cases hkey : DenseMap.find e.dependencies request with
      | none =>
        simp only [DenseMap.count, hkey, if_true, Option.some.injEq] at h
        subst h
        simp [renderTree, hv, hkey, DenseSet.erase_cons_self hv]
      | some dependsOn =>
        simp only [DenseMap.count, hkey, Nat.succ_ne_zero, if_false, Option.getD_some] at h
        split at h
        · cases h
        · rename_i st2 hchildren
          simp only [Option.some.injEq] at h
          subst h
          have h2 := printChildren_eq_render _ (renderTree d e fuel)
            (fun c st b st1 hc => ih c st st1 b hc) _ _ _ _ _ hchildren
          rw [h2]
          simp only [prefix_grown, eraseTail_append st.prefixStr
            (if lastChild = true then "    " else " |  ") 4 (by cases lastChild <;> rfl),
            DenseSet.erase_cons_self hv]
          simp [renderTree, hv, hkey, List.enum]

theorem DenseMap.mem_keys_of_find {ν : Type} (m : DenseMap α ν) (k : α) (v : ν)
    (h : DenseMap.find m k = some v) : k ∈ m.map Prod.fst := by
  by_contra hk
  rw [DenseMap.find_eq_none_of_not_mem_keys m k hk] at h
  cases h

/-- Entering a key that is not on the path leaves fewer keys off the path. -/
theorem length_filter_not_mem_cons_lt (keys visited : List α) (request : α)
    (hkey : request ∈ keys) (hv : request ∉ visited) :
    (keys.filter (fun k => decide (k ∉ request :: visited))).length
      < (keys.filter (fun k => decide (k ∉ visited))).length := by
  have heq : keys.filter (fun k => decide (k ∉ request :: visited))
      = (keys.filter (fun k => decide (k ∉ visited))).filter (fun k => decide (k ≠ request)) := by
    rw [List.filter_filter]
    apply List.filter_congr
    intro x _
    by_cases hx : x = request <;> simp [hx]
  rw [heq, List.length_filter_lt_length_iff_exists]
  exact ⟨request, List.mem_filter.mpr ⟨hkey, by simpa using hv⟩, by simp⟩

/-- The loop over the children returns when the recursive call returns in every state
with the visited set of the loop. -/
theorem printChildren_isSome {β : Type}
    (recur : β → PrintState β → Bool → Option (PrintState β)) (visited : List β)
    (hrecur : ∀ c st b, st.visited = visited →
      ∃ st1, recur c st b = some st1 ∧ st1.visited = visited)
    (size : Nat) (children : List β) (i : Nat) (st : PrintState β)
    (hst : st.visited = visited) :
    ∃ st1, printChildren recur size children i st = some st1 := by
  induction children generalizing i st with
  | nil => exact ⟨st, rfl⟩
  | cons c rest ih =>
    obtain ⟨st2, h2, hv2⟩ := hrecur c st (decide (i = size - 1)) hst
    obtain ⟨st1, h1⟩ := ih (i + 1) st2 hv2
    exact ⟨st1, by simp [printChildren, h2, h1]⟩

/-- A `printDependencies` call returns when its bound exceeds the number of keys that
are not on the path. -/
theorem printDependenciesRec_isSome (d : Display α V) (e : Evaluator α V) (fuel : Nat)
    (request : α) (st : PrintState α) (lastChild : Bool)
    (hfuel : ((e.dependencies.map Prod.fst).filter
      (fun k => decide (k ∉ st.visited))).length + 1 ≤ fuel) :
    ∃ st1, e.printDependenciesRec d fuel request st lastChild = some st1 := by
  induction fuel generalizing request st lastChild with
  | zero => omega
  | succ fuel ih =>
    rw [printDependenciesRec_succ_eq]
    by_cases hv : request ∈ st.visited
    · rw [denseSet_insert_of_mem hv]
      exact ⟨_, rfl⟩
    · rw [denseSet_insert_of_not_mem hv]
      cases hkey : DenseMap.find e.dependencies request with
      | none =>
        simp only [DenseMap.count, hkey, if_true]
        exact ⟨_, rfl⟩
      | some dependsOn =>
        simp only [DenseMap.count, hkey, Nat.succ_ne_zero, if_false, Option.getD_some]
        have hlt := length_filter_not_mem_cons_lt (e.dependencies.map Prod.fst) st.visited
          request (DenseMap.mem_keys_of_find _ _ _ hkey) hv
        obtain ⟨st2, h2⟩ := printChildren_isSome (e.printDependenciesRec d fuel)
          (request :: st.visited)
          (fun c st' b hst' => by
            obtain ⟨st1, h1⟩ := ih c st' b (by rw [hst']; omega)
            refine ⟨st1, h1, ?_⟩
            rw [printDependenciesRec_eq_renderTree d e fuel c st' st1 b h1]
            exact hst')
          dependsOn.length dependsOn 0
          { out := st.out ++ nodeLineStart d e.cache st.prefixStr request ++ [OutOp.write "\n"],
            visited := request :: st.visited,
            prefixStr := st.prefixStr ++ " " ++ (if lastChild = true then " " else "|")
              ++ "  " } rfl
        rw [h2]
        exact ⟨_, rfl⟩

/-- A larger bound does not change what a `printDependencies` call returns. -/
theorem printDependenciesRec_succ_of_some (d : Display α V) (e : Evaluator α V)
    (fuel : Nat) (request : α) (st st1 : PrintState α) (lastChild : Bool)
    (h : e.printDependenciesRec d fuel request st lastChild = some st1) :
    e.printDependenciesRec d (fuel + 1) request st lastChild = some st1 := by
  induction fuel generalizing request st st1 lastChild with
  | zero => simp [Evaluator.printDependenciesRec] at h
  | succ fuel ih =>
    have hchildren : ∀ (size : Nat) (children : List α) (i : Nat) (s s1 : PrintState α),
        printChildren (e.printDependenciesRec d fuel) size children i s = some s1 →
        printChildren (e.printDependenciesRec d (fuel + 1)) size children i s = some s1 := by
      intro size children
      induction children with
      | nil => intro i s s1 hs; simpa [printChildren] using hs
      | cons c rest ihc =>
        intro i s s1 hs
        simp only [printChildren] at hs ⊢
        cases hc : e.printDependenciesRec d fuel c s (decide (i = size - 1)) with
        | none => simp [hc] at hs
        | some s2 =>
          simp only [hc] at hs
          rw [ih c s s2 _ hc]
          exact ihc _ _ _ hs
    rw [printDependenciesRec_succ_eq] at h ⊢
    by_cases hv : request ∈ st.visited
    · rw [denseSet_insert_of_mem hv] at h ⊢
      exact h
    · rw [denseSet_insert_of_not_mem hv] at h ⊢
      simp only at h ⊢
      split
      · rename_i hcount
        simpa [hcount] using h
      · rename_i hcount
        simp only [hcount, if_false] at h
        split at h
        · cases h
        · rename_i s2 hs2
          rw [hchildren _ _ _ _ _ hs2]
          exact h

theorem printDependenciesRec_mono (d : Display α V) (e : Evaluator α V)
    (fuel k : Nat) (request : α) (st st1 : PrintState α) (lastChild : Bool)
    (h : e.printDependenciesRec d fuel request st lastChild = some st1) :
    e.printDependenciesRec d (fuel + k) request st lastChild = some st1 := by
  induction k with
  | zero => exact h
  | succ k ih => exact printDependenciesRec_succ_of_some d e (fuel + k) request st st1 _ ih

/-- C21: `printDependencies` terminates for every request and every dependencies map,
cycles included.  A call returns as soon as the bound on its recursion depth exceeds the
number of keys of `dependencies` that are not in the visited set, because it descends
only from a key that it has just added to the visited set; so the depth is at most the
number of keys plus one, a larger bound does not change the result, and the two-argument
`printDependencies` always returns. -/
theorem printDependencies_terminates (d : Display α V) (e : Evaluator α V) :
    (∀ (request : α) (out : raw_ostream),
      ∃ out1, e.printDependencies d request out = some out1) ∧
    (∀ (fuel : Nat) (request : α) (st : PrintState α) (lastChild : Bool),
      ((e.dependencies.map Prod.fst).filter
        (fun k => decide (k ∉ st.visited))).length + 1 ≤ fuel →
      ∃ st1, e.printDependenciesRec d fuel request st lastChild = some st1 ∧
        ∀ k, e.printDependenciesRec d (fuel + k) request st lastChild = some st1) ∧
    (∀ (request : α) (out : raw_ostream) (prefixStr : String) (lastChild : Bool),
      ∃ st1, e.printDependenciesRec d (e.dependencies.length + 1) request
        { out := out, visited := [], prefixStr := prefixStr } lastChild = some st1) := by
  have hfilter : ∀ visited : List α,
      ((e.dependencies.map Prod.fst).filter (fun k => decide (k ∉ visited))).length
        ≤ e.dependencies.length := fun visited =>
    (List.length_filter_le _ _).trans (by simp)
  refine ⟨?_, ?_, ?_⟩
  · intro request out
    obtain ⟨st1, h1⟩ := printDependenciesRec_isSome d e (e.dependencies.length + 2) request
      { out := out, visited := [], prefixStr := "" } true
      (by have := hfilter []; simp only at this ⊢; omega)
    exact ⟨st1.out, by simp [Evaluator.printDependencies, h1]⟩
  · intro fuel request st lastChild hfuel
    obtain ⟨st1, h1⟩ := printDependenciesRec_isSome d e fuel request st lastChild hfuel
    exact ⟨st1, h1, fun k => printDependenciesRec_mono d e fuel k request st st1 lastChild h1⟩
  · intro request out prefixStr lastChild
    exact printDependenciesRec_isSome d e _ request _ lastChild
      (by have := hfilter []; simp only at this ⊢; omega)

/-- Witness of C21: with the cycle `1 -> [2]`, `2 -> [1]` recorded, a depth of three is
enough for the call on `1`. -/
theorem printDependencies_terminates_witness :
    ∃ st1, ({ diags := [], activeRequests := [], cache := [],
              dependencies := [(1, [2]), (2, [1])] } :
          Evaluator Nat Nat).printDependenciesRec
        { simple_display := toString, getAsString := toString, PrintEscapedString := id }
        3 1 { out := [], visited := [], prefixStr := "" } true = some st1 := by
  obtain ⟨st1, h1, _⟩ := (printDependencies_terminates
    ({ simple_display := toString, getAsString := toString, PrintEscapedString := id } :
      Display Nat Nat)
    ({ diags := [], activeRequests := [], cache := [],
       dependencies := [(1, [2]), (2, [1])] } : Evaluator Nat Nat)).2.1
    3 1 { out := [], visited := [], prefixStr := "" } true (by decide)
  exact ⟨st1, h1⟩

/-- The two-argument `printDependencies` writes the tree of the specification below the
root. -/
theorem printDependencies_eq_renderTree (d : Display α V) (e : Evaluator α V)
    (root : α) (out : raw_ostream) :
    e.printDependencies d root out
      = some (out ++ renderTree d e (e.dependencies.length + 2) [] root "" true) := by
  obtain ⟨st1, h1⟩ := printDependenciesRec_isSome d e (e.dependencies.length + 2) root
    { out := out, visited := [], prefixStr := "" } true
    (by
      have : ((e.dependencies.map Prod.fst).filter (fun k => decide (k ∉ ([] : List α)))).length
          ≤ e.dependencies.length := (List.length_filter_le _ _).trans (by simp)
      simp only at this ⊢
      omega)
  have h2 := printDependenciesRec_eq_renderTree d e _ root _ st1 true h1
  simp [Evaluator.printDependencies, h1, h2]

/-- Without a cycle below the request, no line of its tree is marked cyclic. -/
theorem renderTree_no_cyclic_mark (d : Display α V) (e : Evaluator α V)
    (reachable : α → Prop) (rank : α → Nat)
    (hstep : ∀ k dependsOn, reachable k → DenseMap.find e.dependencies k = some dependsOn →
      ∀ c ∈ dependsOn, reachable c ∧ rank c < rank k)
    (depth : Nat) (ancestors : List α) (request : α) (prefixStr : String)
    (lastChild : Bool) (hreach : reachable request)
    (hanc : ∀ a ∈ ancestors, rank request < rank a) :
    OutOp.changeColor Color.RED ∉ renderTree d e depth ancestors request prefixStr lastChild := by
  induction depth generalizing ancestors request prefixStr lastChild with
  | zero => simp [renderTree]
  | succ depth ih =>
    have hnot : request ∉ ancestors := fun h => Nat.lt_irrefl _ (hanc request h)
    have hstart : OutOp.changeColor Color.RED ∉ nodeLineStart d e.cache prefixStr request := by
      unfold nodeLineStart
      cases DenseMap.find e.cache request <;> simp
    cases hkey : DenseMap.find e.dependencies request with
    | none => simpa [renderTree, hnot, hkey] using hstart
    | some dependsOn =>
      simp only [renderTree, hnot, hkey, if_false, List.mem_append, List.mem_cons,
        List.mem_flatMap, not_or, not_exists, not_and]
      refine ⟨hstart, by simp, ?_⟩
      intro child hchild
      have hmem : child.2 ∈ dependsOn := by
        have := List.mem_enum hchild
        rw [this.2]
        exact List.getElem_mem _
      obtain ⟨hr, hlt⟩ := hstep request dependsOn hreach hkey child.2 hmem
      apply ih
      · exact hr
      · intro a ha
        rcases List.mem_cons.mp ha with rfl | ha
        · exact hlt
        · exact Nat.lt_trans hlt (hanc a ha)

/-- C22: the tree that `printDependencies` writes is the tree of the specification, in
which the visited set of every call is the list of the ancestors of its request: a
call hands the visited set back as it was, a request is marked `(cyclic dependency)`
exactly when it is among its ancestors, every child of an expanded request is drawn
with the request as one more ancestor whatever its siblings are (so a request on two
branches is expanded on each), and when no cycle is reachable from the root no line is
marked cyclic. -/
theorem printDependencies_cyclic_iff_ancestor (d : Display α V) (e : Evaluator α V) :
    (∀ (root : α) (out : raw_ostream),
      e.printDependencies d root out
        = some (out ++ renderTree d e (e.dependencies.length + 2) [] root "" true)) ∧
    (∀ (fuel : Nat) (request : α) (st st1 : PrintState α) (lastChild : Bool),
      e.printDependenciesRec d fuel request st lastChild = some st1 →
      st1.visited = st.visited ∧
      st1.out = st.out ++ renderTree d e fuel st.visited request st.prefixStr lastChild) ∧
    (∀ (depth : Nat) (ancestors : List α) (request : α) (prefixStr : String)
        (lastChild : Bool), request ∈ ancestors →
      renderTree d e (depth + 1) ancestors request prefixStr lastChild
        = nodeLineStart d e.cache prefixStr request ++
            [OutOp.changeColor Color.RED, OutOp.write " (cyclic dependency)\n",
             OutOp.resetColor]) ∧
    (∀ (depth : Nat) (ancestors : List α) (request : α) (prefixStr : String)
        (lastChild : Bool), request ∉ ancestors →
      DenseMap.find e.dependencies request = none →
      renderTree d e (depth + 1) ancestors request prefixStr lastChild
        = nodeLineStart d e.cache prefixStr request ++
            [OutOp.changeColor Color.GREEN, OutOp.write " (dependency not evaluated)\n",
             OutOp.resetColor]) ∧
    (∀ (depth : Nat) (ancestors : List α) (request : α) (prefixStr : String)
        (lastChild : Bool) (dependsOn : List α), request ∉ ancestors →
      DenseMap.find e.dependencies request = some dependsOn →
      renderTree d e (depth + 1) ancestors request prefixStr lastChild
        = nodeLineStart d e.cache prefixStr request ++
            OutOp.write "\n" ::
              dependsOn.enum.flatMap (fun child =>
                renderTree d e depth (request :: ancestors) child.2
                  (prefixStr ++ (if lastChild then "    " else " |  "))
                  (decide (child.1 = dependsOn.length - 1)))) ∧
    (∀ (reachable : α → Prop) (rank : α → Nat) (root : α), reachable root →
      (∀ k dependsOn, reachable k → DenseMap.find e.dependencies k = some dependsOn →
        ∀ c ∈ dependsOn, reachable c ∧ rank c < rank k) →
      OutOp.changeColor Color.RED
        ∉ renderTree d e (e.dependencies.length + 2) [] root "" true) := by
  refine ⟨printDependencies_eq_renderTree d e, ?_, ?_, ?_, ?_, ?_⟩
  · intro fuel request st st1 lastChild h
    have := printDependenciesRec_eq_renderTree d e fuel request st st1 lastChild h
    rw [this]
    exact ⟨rfl, rfl⟩
  · intro depth ancestors request prefixStr lastChild hmem
    simp [renderTree, hmem]
  · intro depth ancestors request prefixStr lastChild hmem hkey
    simp [renderTree, hmem, hkey]
  · intro depth ancestors request prefixStr lastChild dependsOn hmem hkey
    simp [renderTree, hmem, hkey]
  · intro reachable rank root hroot hstep
    exact renderTree_no_cyclic_mark d e reachable rank hstep _ [] root "" true hroot
      (fun a ha => by cases ha)

/-- Witness of C22: in the diamond `1 -> [2, 3]`, `2 -> [4]`, `3 -> [4]`, `4 -> []` the
request `4` is expanded on both branches and nothing is marked cyclic. -/
theorem printDependencies_cyclic_iff_ancestor_witness :
    (({ diags := [], activeRequests := [], cache := [],
        dependencies := [(1, [2, 3]), (2, [4]), (3, [4]), (4, [])] } :
          Evaluator Nat Nat).printDependencies
        { simple_display := toString, getAsString := toString, PrintEscapedString := id }
        1 []).map raw_ostream.text
      = some (" `--1\n" ++ "     `--2\n" ++ "     |   `--4\n" ++ "     `--3\n" ++
          "         `--4\n") ∧
    OutOp.changeColor Color.RED
      ∉ renderTree
          ({ simple_display := toString, getAsString := toString, PrintEscapedString := id } :
            Display Nat Nat)
          ({ diags := [], activeRequests := [], cache := [],
             dependencies := [(1, [2, 3]), (2, [4]), (3, [4]), (4, [])] } : Evaluator Nat Nat)
          (4 + 2) [] 1 "" true :=
  ⟨by decide,
   (printDependencies_cyclic_iff_ancestor
      ({ simple_display := toString, getAsString := toString, PrintEscapedString := id } :
        Display Nat Nat)
      ({ diags := [], activeRequests := [], cache := [],
         dependencies := [(1, [2, 3]), (2, [4]), (3, [4]), (4, [])] } :
        Evaluator Nat Nat)).2.2.2.2.2
      (fun _ => True) (fun k => 5 - k) 1 trivial
      (by
        intro k dependsOn _ hfind c hc
        refine ⟨trivial, ?_⟩
        simp only [DenseMap.find] at hfind
        split_ifs at hfind <;> simp_all
        all_goals (subst hfind; simp at hc; omega))⟩

/-- A call that expands a request with at least one child has descended once more. -/
theorem printDependenciesRec_children_fuel (d : Display α V) (e : Evaluator α V)
    (fuel : Nat) (request : α) (st st1 : PrintState α) (lastChild : Bool)
    (dependsOn : List α)
    (h : e.printDependenciesRec d (fuel + 1) request st lastChild = some st1)
    (hv : request ∉ st.visited)
    (hkey : DenseMap.find e.dependencies request = some dependsOn)
    (hne : dependsOn ≠ []) : ∃ depth, fuel = depth + 1 := by
  cases fuel with
  | succ depth => exact ⟨depth, rfl⟩
  | zero =>
    exfalso
    rw [printDependenciesRec_succ_eq, denseSet_insert_of_not_mem hv] at h
    simp only [DenseMap.count, hkey, Nat.succ_ne_zero, if_false, Option.getD_some] at h
    cases dependsOn with
    | nil => exact hne rfl
    | cons child rest => simp [printChildren, Evaluator.printDependenciesRec] at h

/-- The line of a request starts with the prefix, the node marker and the display form
of the request. -/
theorem renderTree_succ_start (d : Display α V) (e : Evaluator α V) (depth : Nat)
    (ancestors : List α) (request : α) (prefixStr : String) (lastChild : Bool) :
    ∃ rest, renderTree d e (depth + 1) ancestors request prefixStr lastChild
      = OutOp.write prefixStr :: OutOp.write " `--" ::
          OutOp.write (d.simple_display request) :: rest := by
  simp only [renderTree, nodeLineStart, List.cons_append, List.nil_append, List.cons.injEq,
    true_and]
  exact ⟨_, rfl⟩

/-- C23: every call of `printDependencies` that returns has started the line of its
request with the current prefix followed by the node marker, and hands the prefix back
as it was on entry.  When it expands the request, the lines below are those of the
recorded dependencies in their recorded order, each drawn with the prefix of the request
extended by four characters: four spaces when the request is the last child of its
parent, a space, a bar and two spaces otherwise; the last of the children, and only it,
is drawn as a last child.  The root is drawn as a last child with the empty prefix. -/
theorem printDependencies_tree_prefixes (d : Display α V) (e : Evaluator α V) :
    (∀ (fuel : Nat) (request : α) (st st1 : PrintState α) (lastChild : Bool),
      e.printDependenciesRec d fuel request st lastChild = some st1 →
      st1.prefixStr = st.prefixStr ∧
      ∃ rest, st1.out = st.out ++ OutOp.write st.prefixStr :: OutOp.write " `--" ::
        OutOp.write (d.simple_display request) :: rest) ∧
    (∀ (fuel : Nat) (request : α) (st st1 : PrintState α) (lastChild : Bool)
        (dependsOn : List α),
      e.printDependenciesRec d (fuel + 1) request st lastChild = some st1 →
      request ∉ st.visited →
      DenseMap.find e.dependencies request = some dependsOn →
      st1.out = st.out ++ nodeLineStart d e.cache st.prefixStr request ++
        OutOp.write "\n" ::
          dependsOn.enum.flatMap (fun child =>
            renderTree d e fuel (request :: st.visited) child.2
              (st.prefixStr ++ " " ++ (if lastChild then " " else "|") ++ "  ")
              (decide (child.1 = dependsOn.length - 1))) ∧
      ∀ child ∈ dependsOn.enum, ∃ rest,
        renderTree d e fuel (request :: st.visited) child.2
            (st.prefixStr ++ " " ++ (if lastChild then " " else "|") ++ "  ")
            (decide (child.1 = dependsOn.length - 1))
          = OutOp.write (st.prefixStr ++ " " ++ (if lastChild then " " else "|") ++ "  ") ::
              OutOp.write " `--" :: OutOp.write (d.simple_display child.2) :: rest) ∧
    (∀ (prefixStr : String) (lastChild : Bool),
      prefixStr ++ " " ++ (if lastChild then " " else "|") ++ "  "
        = prefixStr ++ (if lastChild then "    " else " |  ") ∧
      (prefixStr ++ " " ++ (if lastChild then " " else "|") ++ "  ").length
        = prefixStr.length + 4) ∧
    (∀ (root : α) (out : raw_ostream),
      e.printDependencies d root out
        = (e.printDependenciesRec d (e.dependencies.length + 2) root
            { out := out, visited := [], prefixStr := "" } true).map (fun st => st.out)) := by
  refine ⟨?_, ?_, ?_, ?_⟩
  · intro fuel request st st1 lastChild h
    have h1 := printDependenciesRec_eq_renderTree d e fuel request st st1 lastChild h
    cases fuel with
    | zero => simp [Evaluator.printDependenciesRec] at h
    | succ depth =>
      obtain ⟨rest, hrest⟩ :=
        renderTree_succ_start d e depth st.visited request st.prefixStr lastChild
      rw [h1, hrest]
      exact ⟨rfl, rest, rfl⟩
  · intro fuel request st st1 lastChild dependsOn h hv hkey
    have h1 := printDependenciesRec_eq_renderTree d e (fuel + 1) request st st1 lastChild h
    refine ⟨?_, ?_⟩
    · rw [h1]
      simp [renderTree, hv, hkey, prefix_grown]
    · intro child hchild
      have hne : dependsOn ≠ [] := by
        intro hnil
        subst hnil
        simp at hchild
      obtain ⟨depth, rfl⟩ :=
        printDependenciesRec_children_fuel d e fuel request st st1 lastChild dependsOn h hv
          hkey hne
      exact renderTree_succ_start d e depth _ _ _ _
  · intro prefixStr lastChild
    refine ⟨prefix_grown prefixStr lastChild, ?_⟩
    cases lastChild <;>
      simp only [Bool.false_eq_true, if_false, if_true, String.length_append] <;> rfl
  · intro root out
    simp only [Evaluator.printDependencies]
    cases e.printDependenciesRec d (e.dependencies.length + 2) root
      { out := out, visited := [], prefixStr := "" } true <;> rfl

/-- Witness of C23: with `1 -> [2, 3]`, `2 -> [4]` recorded, the child `2` of the root is
drawn before `3`, its own child with a bar in the prefix, and the prefix is handed
back. -/
theorem printDependencies_tree_prefixes_witness :
    (({ diags := [], activeRequests := [], cache := [],
        dependencies := [(1, [2, 3]), (2, [4])] } : Evaluator Nat Nat).printDependenciesRec
        { simple_display := toString, getAsString := toString, PrintEscapedString := id }
        4 1 { out := [], visited := [], prefixStr := "" } true).map
        (fun st => (raw_ostream.text st.out, st.prefixStr))
      = some (" `--1\n" ++ "     `--2\n" ++ "     |   `--4 (dependency not evaluated)\n" ++
          "     `--3 (dependency not evaluated)\n", "") ∧
    ∀ st1, ({ diags := [], activeRequests := [], cache := [],
              dependencies := [(1, [2, 3]), (2, [4])] } :
          Evaluator Nat Nat).printDependenciesRec
        { simple_display := toString, getAsString := toString, PrintEscapedString := id }
        4 1 { out := [], visited := [], prefixStr := "" } true = some st1 →
      st1.prefixStr = "" :=
  ⟨by decide, fun st1 h =>
    ((printDependencies_tree_prefixes
      ({ simple_display := toString, getAsString := toString, PrintEscapedString := id } :
        Display Nat Nat)
      ({ diags := [], activeRequests := [], cache := [],
         dependencies := [(1, [2, 3]), (2, [4])] } : Evaluator Nat Nat)).1
      4 1 { out := [], visited := [], prefixStr := "" } st1 true h).1⟩

end TreePrinterTree

/-! ## The Graphviz exporter: requests discovered during the edge loop -/

section GraphvizDiscovery

variable {α V : Type} [DecidableEq α]

/-- Asking requests for their ID leaves the node list as long as it was exactly when all
of them are on the list already. -/
theorem length_discovered_eq_iff (A T : List α) :
    (discovered A T).length = A.length ↔ ∀ t ∈ T, t ∈ A := by
  induction T generalizing A with
  | nil => simp [discovered]
  | cons t T ih =>
    rw [discovered_cons]
    by_cases ht : t ∈ A
    · simp [ht, ih]
    · have hlen : (A ++ [t]).length ≤ (discovered (A ++ [t]) T).length :=
        (prefix_discovered (A ++ [t]) T).length_le
      simp only [ht, if_false, List.mem_cons, forall_eq_or_imp, false_and, iff_false]
      simp only [List.length_append, List.length_singleton] at hlen
      omega

/-- The edge loop on locals that agree: it completes, with the node list as it was, when
every recorded dependency of its sources is on the node list already, and it goes on
with an invalidated iterator when one of them is not. -/
theorem emitAllEdges_spec (dependencies : DenseMap α (List α)) (sources : List α)
    (st : GraphvizState α) (out : raw_ostream) (h : st.Consistent)
    (hsources : ∀ source ∈ sources, source ∈ st.allRequests)
    (hkeys : ∀ source ∈ sources, DenseMap.find dependencies source ≠ none) :
    ((∀ source ∈ sources, ∀ known, DenseMap.find dependencies source = some known →
        ∀ target ∈ known, target ∈ st.allRequests) →
      ∃ st1 out1, emitAllEdges dependencies sources st out
          = EdgeLoopResult.completed st1 out1 ∧
        st1.Consistent ∧ st1.allRequests = st.allRequests) ∧
    ((∃ source ∈ sources, ∃ known, DenseMap.find dependencies source = some known ∧
        ∃ target ∈ known, target ∉ st.allRequests) →
      emitAllEdges dependencies sources st out = EdgeLoopResult.invalidatedIterator) := by
  induction sources generalizing st out with
  | nil =>
    refine ⟨fun _ => ⟨st, out, rfl, h, rfl⟩, ?_⟩
    rintro ⟨source, hsource, _⟩
    simp at hsource
  | cons source rest ih =>
    obtain ⟨known, hknown⟩ := Option.ne_none_iff_exists'.mp (hkeys source (by simp))
    obtain ⟨st1, hcons1, hall1, hout1⟩ := emitEdges_spec source known st out h
      (hsources source (by simp))
    have hemit := hout1 st1.allRequests (List.prefix_refl _)
    by_cases hin : ∀ target ∈ known, target ∈ st.allRequests
    · have hlen : st1.allRequests.length = st.allRequests.length := by
        rw [hall1]
        exact (length_discovered_eq_iff _ _).mpr hin
      have hsame : st1.allRequests = st.allRequests := by
        have hpre : st.allRequests <+: st1.allRequests := by
          rw [hall1]
          exact prefix_discovered _ _
        exact (hpre.eq_of_length hlen.symm).symm
      obtain ⟨ih1, ih2⟩ := ih st1
        (out ++ known.flatMap (fun target =>
          edgeStatement (st1.allRequests.indexOf source) (st1.allRequests.indexOf target)))
        hcons1
        (fun s hs => hsame ▸ hsources s (List.mem_cons_of_mem _ hs))
        (fun s hs => hkeys s (List.mem_cons_of_mem _ hs))
      have hstep : emitAllEdges dependencies (source :: rest) st out
          = emitAllEdges dependencies rest st1
              (out ++ known.flatMap (fun target =>
                edgeStatement (st1.allRequests.indexOf source)
                  (st1.allRequests.indexOf target))) := by
        simp only [emitAllEdges, hknown, hemit, hlen, if_true]
      rw [hstep]
      constructor
      · intro hclosed
        obtain ⟨st2, out2, hres, hcons2, hall2⟩ := ih1
          (fun s hs known1 hk t ht =>
            hsame ▸ hclosed s (List.mem_cons_of_mem _ hs) known1 hk t ht)
        exact ⟨st2, out2, hres, hcons2, hall2.trans hsame⟩
      · rintro ⟨s, hs, known1, hk, t, ht, hnot⟩
        rcases List.mem_cons.mp hs with rfl | hs
        · rw [hknown] at hk
          cases hk
          exact absurd (hin t ht) hnot
        · exact ih2 ⟨s, hs, known1, hk, t, ht, hsame ▸ hnot⟩
    · have hlen : st1.allRequests.length ≠ st.allRequests.length := by
        rw [hall1]
        exact fun hl => hin ((length_discovered_eq_iff _ _).mp hl)
      have hstep : emitAllEdges dependencies (source :: rest) st out
          = EdgeLoopResult.invalidatedIterator := by
        simp only [emitAllEdges, hknown, hemit, hlen, if_false]
      constructor
      · intro hclosed
        exact absurd (hclosed source (by simp) known hknown) hin
      · intro _
        exact hstep

/-- The exporter has a result exactly when every recorded dependency is itself a key of
`dependencies`, so that the edge loop appends nothing to the node list. -/
theorem printDependenciesGraphviz_eq_none_iff (d : Display α V) (e : Evaluator α V)
    (out : raw_ostream) (hkeys : (e.dependencies.map Prod.fst).Nodup) :
    e.printDependenciesGraphviz d out = none
      ↔ ∃ source known target, DenseMap.find e.dependencies source = some known ∧
          target ∈ known ∧ DenseMap.find e.dependencies target = none := by
  have hperm := sortRequests_perm d (e.dependencies.map Prod.fst)
  have hsorted : (sortRequests d (e.dependencies.map Prod.fst)).Nodup :=
    hperm.nodup_iff.mpr hkeys
  have hcons0 := prepopulate_spec (sortRequests d (e.dependencies.map Prod.fst)) hsorted
  obtain ⟨hclosed, hopen⟩ := emitAllEdges_spec e.dependencies
    (sortRequests d (e.dependencies.map Prod.fst)) _
    (out ++ [OutOp.write "digraph Dependencies \x7b\n"]) hcons0 (fun s hs => hs)
    (fun s hs => DenseMap.find_ne_none_of_mem_keys _ _ (hperm.mem_iff.mp hs))
  constructor
  · intro hnone
    by_contra hno
    obtain ⟨st1, out1, hres, _, _⟩ := hclosed (by
      intro source _ known hknown target htarget
      by_contra hnot
      apply hno
      refine ⟨source, known, target, hknown, htarget,
        DenseMap.find_eq_none_of_not_mem_keys _ _ ?_⟩
      exact fun hmem => hnot (hperm.mem_iff.mpr hmem))
    simp [Evaluator.printDependenciesGraphviz, hres] at hnone
  · rintro ⟨source, known, target, hknown, htarget, hfind⟩
    have hres := hopen ⟨source,
      hperm.mem_iff.mpr (DenseMap.mem_keys_of_find _ _ _ hknown), known, hknown, target,
      htarget, fun hmem => DenseMap.find_ne_none_of_mem_keys _ _ (hperm.mem_iff.mp hmem) hfind⟩
    simp [Evaluator.printDependenciesGraphviz, hres]

/-- C12: with `1 -> [2, 3]` recorded and requests displayed as their numerals, the key
`1` gets the ID 0.  The target `2` has no ID when its edge is written: `getRequestID`
gives it the next free ID 1 and appends it to `allRequests`, the vector that the edge
loop is iterating.  The loop then goes on with an invalidated iterator and the exporter
has no result, so the target `3` is not given the ID 2 in any output. -/
theorem graphviz_discovered_target_id :
    prepopulate
        (sortRequests
          ({ simple_display := toString, getAsString := toString, PrintEscapedString := id } :
            Display Nat Nat)
          ([(1, [2, 3])].map Prod.fst)) [] 0
      = ([(1, 0)], 1) ∧
    getRequestID { allRequests := [1], requestIDs := [(1, 0)], nextID := 1 } 2
      = (1, { allRequests := [1, 2], requestIDs := [(1, 0), (2, 1)], nextID := 2 }) ∧
    emitAllEdges [(1, [2, 3])] [1]
        { allRequests := [1], requestIDs := [(1, 0)], nextID := 1 }
        [OutOp.write "digraph Dependencies \x7b\n"]
      = EdgeLoopResult.invalidatedIterator ∧
    ({ diags := [], activeRequests := [], cache := [], dependencies := [(1, [2, 3])] } :
        Evaluator Nat Nat).printDependenciesGraphviz
        { simple_display := toString, getAsString := toString, PrintEscapedString := id } []
      = none :=
  ⟨by rfl, by rfl, by rfl, by rfl⟩

/-- C13: with `1 -> [7, 9]` and `2 -> [9, 1]` recorded, the request `9` is a dependency of
both sources and no key.  While the edges of the source `1` are written, the target `7`
is appended to `allRequests`; the loop goes on to the source `2` with an invalidated
iterator, and the exporter has no result: no node statement is written, and the edge from
`2` to `9` is not written with the ID of `9`.  With `1 -> [2]` and `2 -> [1]` recorded,
where both dependencies are keys, each request has one ID and one node statement. -/
theorem graphviz_shared_target_unreached :
    getRequestID { allRequests := [1, 2], requestIDs := [(1, 0), (2, 1)], nextID := 2 } 7
      = (2, { allRequests := [1, 2, 7], requestIDs := [(1, 0), (2, 1), (7, 2)],
              nextID := 3 }) ∧
    emitAllEdges [(1, [7, 9]), (2, [9, 1])] [1, 2]
        { allRequests := [1, 2], requestIDs := [(1, 0), (2, 1)], nextID := 2 }
        [OutOp.write "digraph Dependencies \x7b\n"]
      = EdgeLoopResult.invalidatedIterator ∧
    ({ diags := [], activeRequests := [], cache := [],
       dependencies := [(1, [7, 9]), (2, [9, 1])] } :
        Evaluator Nat Nat).printDependenciesGraphviz
        { simple_display := toString, getAsString := toString, PrintEscapedString := id } []
      = none ∧
    (({ diags := [], activeRequests := [], cache := [],
        dependencies := [(1, [2]), (2, [1])] } :
        Evaluator Nat Nat).printDependenciesGraphviz
        { simple_display := toString, getAsString := toString, PrintEscapedString := id }
        []).map raw_ostream.text
      = some ("digraph Dependencies \x7b\n" ++ "  request_0 -> request_1;\n" ++
          "  request_1 -> request_0;\n" ++ "\n" ++ "  request_0 [label=\"1\"];\n" ++
          "  request_1 [label=\"2\"];\n" ++ "\x7d\n") :=
  ⟨by rfl, by rfl, by rfl, by decide⟩

/-- C15: with `1 -> [2, 3]` recorded there are two (source, recorded dependency) pairs,
but the exporter has no result with two edge statements: the first edge appends the
target `2` to `allRequests`, the vector under iteration, and the edge loop goes on with an
invalidated iterator.  With `1 -> [2, 2]` and `2 -> []` recorded, where the dependencies are
keys, one edge statement is written for each pair, the repeated pair included. -/
theorem graphviz_edges_after_discovery :
    (([(1, [2, 3])] : DenseMap Nat (List Nat)).map (fun entry => entry.2.length)).sum = 2 ∧
    (emitEdges 1 [2] { allRequests := [1], requestIDs := [(1, 0)], nextID := 1 } []).1.allRequests
      = [1, 2] ∧
    emitAllEdges [(1, [2, 3])] [1]
        { allRequests := [1], requestIDs := [(1, 0)], nextID := 1 } []
      = EdgeLoopResult.invalidatedIterator ∧
    (({ diags := [], activeRequests := [], cache := [], dependencies := [(1, [2, 3])] } :
        Evaluator Nat Nat).printDependenciesGraphviz
        { simple_display := toString, getAsString := toString, PrintEscapedString := id }
        []).map raw_ostream.text
      = none ∧
    (({ diags := [], activeRequests := [], cache := [],
        dependencies := [(1, [2, 2]), (2, [])] } :
        Evaluator Nat Nat).printDependenciesGraphviz
        { simple_display := toString, getAsString := toString, PrintEscapedString := id }
        []).map raw_ostream.text
      = some ("digraph Dependencies \x7b\n" ++ "  request_0 -> request_1;\n" ++
          "  request_0 -> request_1;\n" ++ "\n" ++ "  request_0 [label=\"1\"];\n" ++
          "  request_1 [label=\"2\"];\n" ++ "\x7d\n") :=
  ⟨by decide, by rfl, by rfl, by decide, by decide⟩

/-- C16: with `1 -> [7, 9]` and `2 -> [9, 1]` recorded and the value `5` cached for `7`,
the exporter writes no text of the stated form: the edge loop appends the target `7` to
the vector that it iterates and goes on with an invalidated iterator, so the call has no
result.  For an evaluator with no recorded dependencies the text is the header, the empty
line and the closing brace; with `1 -> [2]` and `2 -> []` recorded and the value `5` cached
for `2`, the text has the stated form. -/
theorem graphviz_text_after_discovery :
    (({ diags := [], activeRequests := [], cache := [(7, 5)],
        dependencies := [(1, [7, 9]), (2, [9, 1])] } :
        Evaluator Nat Nat).printDependenciesGraphviz
        { simple_display := toString, getAsString := toString, PrintEscapedString := id }
        []).map raw_ostream.text
      = none ∧
    (({ diags := [], activeRequests := [], cache := [], dependencies := [] } :
        Evaluator Nat Nat).printDependenciesGraphviz
        { simple_display := toString, getAsString := toString, PrintEscapedString := id }
        []).map raw_ostream.text
      = some ("digraph Dependencies \x7b\n" ++ "\n" ++ "\x7d\n") ∧
    (({ diags := [], activeRequests := [], cache := [(2, 5)],
        dependencies := [(1, [2]), (2, [])] } :
        Evaluator Nat Nat).printDependenciesGraphviz
        { simple_display := toString, getAsString := toString, PrintEscapedString := id }
        []).map raw_ostream.text
      = some ("digraph Dependencies \x7b\n" ++ "  request_0 -> request_1;\n" ++ "\n" ++
          "  request_0 [label=\"1\"];\n" ++ "  request_1 [label=\"2 -> 5\"];\n" ++ "\x7d\n") :=
  ⟨by decide, by decide, by decide⟩

/-- C24: with `1 -> [7, 9]` and `2 -> [9, 1]` recorded, the edge loop does not reach its
second source by a valid iterator: the edges of the source `1` append to `allRequests`,
the vector under iteration, and the request that the loop takes next, on which the
assertion is evaluated, is read through an invalidated iterator.  This is so for every map
with distinct keys in which some recorded dependency is not a key: the exporter has a
result exactly when every recorded dependency is a key. -/
theorem graphviz_edge_loop_invalidated :
    emitAllEdges [(1, [7, 9]), (2, [9, 1])] [1, 2]
        { allRequests := [1, 2], requestIDs := [(1, 0), (2, 1)], nextID := 2 } []
      = EdgeLoopResult.invalidatedIterator ∧
    ({ diags := [], activeRequests := [], cache := [],
       dependencies := [(1, [7, 9]), (2, [9, 1])] } :
        Evaluator Nat Nat).printDependenciesGraphviz
        { simple_display := toString, getAsString := toString, PrintEscapedString := id } []
      = none ∧
    (∀ (d : Display α V) (e : Evaluator α V) (out : raw_ostream),
      (e.dependencies.map Prod.fst).Nodup →
      (e.printDependenciesGraphviz d out = none
        ↔ ∃ source known target, DenseMap.find e.dependencies source = some known ∧
            target ∈ known ∧ DenseMap.find e.dependencies target = none)) :=
  ⟨by rfl, by rfl, fun d e out hkeys => printDependenciesGraphviz_eq_none_iff d e out hkeys⟩

end GraphvizDiscovery

/-! ## Deriving `Equatable` and `Hashable`: the payload variables -/

section PayloadVariables

/-- C25: the name that `indexedVarDecl` gives to its variable is the prefix character
followed by `0` whatever the index is.  For the prefix `l` and the index 1 the name is
`l0`, not `l1`, and it is the name given for the index 0. -/
theorem indexedVarDecl_name_ignores_index :
    (indexedVarDecl { allocated := 0 } 'l' 1 "Int").1.name = "l0" ∧
    (indexedVarDecl { allocated := 0 } 'l' 1 "Int").1.name ≠ "l1" ∧
    (indexedVarDecl { allocated := 0 } 'l' 1 "Int").1.name
      = (indexedVarDecl { allocated := 0 } 'l' 0 "Int").1.name ∧
    (∀ (C : ASTContext) (prefixChar : Char) (index : Int) (type : String),
      (indexedVarDecl C prefixChar index type).1.name = String.singleton prefixChar ++ "0") ∧
    (∀ (C : ASTContext) (prefixChar : Char) (index index2 : Int) (type : String),
      (indexedVarDecl C prefixChar index type).1.name
        = (indexedVarDecl C prefixChar index2 type).1.name) :=
  ⟨by decide, by decide, by decide, fun _ _ _ _ => rfl, fun _ _ _ _ _ => rfl⟩

/-- C26: for the element `b(Int)`, whose payload is a single unlabeled argument, the
variable that `enumElementPayloadSubpattern` binds under the prefix `l` is named `a0`,
and so is the one it binds under the prefix `r`; the derived `==` compares two distinct
variables of the same name `a0`.  For a tuple payload the names do start with the given
prefix. -/
theorem enumElementPayloadSubpattern_paren_name :
    (enumElementPayloadSubpattern { allocated := 0 }
      { name := "b", argumentType := some (ArgumentType.paren "Int") } 'l' []).2.1.map
        VarDecl.name = ["a0"] ∧
    (enumElementPayloadSubpattern { allocated := 0 }
      { name := "b", argumentType := some (ArgumentType.paren "Int") } 'r' []).2.1.map
        VarDecl.name = ["a0"] ∧
    (deriveBodyEquatable_enum_eq { allocated := 0 }
      [{ name := "b", argumentType := some (ArgumentType.paren "Int") }]).cases.map
        (fun c => c.source)
      = [some (Expr.BinaryExpr "=="
          (Expr.DeclRefExpr { address := 1, name := "a0", type := "Int" })
          (Expr.DeclRefExpr { address := 2, name := "a0", type := "Int" }))] ∧
    (enumElementPayloadSubpattern { allocated := 0 }
      { name := "c", argumentType := some (ArgumentType.tuple [("", "String"), ("", "Int")]) }
      'l' []).2.1.map VarDecl.name = ["l0", "l0"] ∧
    (∀ (C : ASTContext) (underlying : String) (name : String) (varPrefix : Char)
        (boundVars : List VarDecl),
      (enumElementPayloadSubpattern C
        { name := name, argumentType := some (ArgumentType.paren underlying) }
        varPrefix boundVars).2.1
        = boundVars ++ [{ address := C.allocated, name := "a0", type := underlying }]) :=
  ⟨by decide, by decide, by decide, by decide, fun _ _ _ _ _ => rfl⟩

end PayloadVariables

/-! ## Deriving `Equatable`: the cases of the switch -/

section EquatableCases

/-- The body of the loop appends one case, which matches the element on both sides and
assigns to the result variable, and counts the element. -/
theorem equatableCase_spec (isEqualVar : VarDecl) (st : EquatableLoop)
    (elt : EnumElementDecl) :
    (equatableCase isEqualVar st elt).elementCount = st.elementCount + 1 ∧
    ∃ lhsSubpattern rhsSubpattern source,
      (equatableCase isEqualVar st elt).cases = st.cases ++
        [{ isDefault := false,
           pattern := Pattern.TuplePattern
             [("", Pattern.EnumElementPattern elt lhsSubpattern),
              ("", Pattern.EnumElementPattern elt rhsSubpattern)],
           assigned := isEqualVar, source := source }] := by
  unfold equatableCase
  rcases enumElementPayloadSubpattern st.C elt 'l' [] with ⟨lhsSubpattern, lhsVars, C1⟩
  simp only
  rcases enumElementPayloadSubpattern C1 elt 'r' [] with ⟨rhsSubpattern, rhsVars, C2⟩
  simp only
  cases elt.argumentType with
  | none => exact ⟨trivial, _, _, _, rfl⟩
  | some argumentType =>
    simp only
    rcases equalityChain lhsVars rhsVars none st.discriminator with ⟨lastExpr, discriminator⟩
    exact ⟨trivial, _, _, _, rfl⟩

/-- The loop over the elements appends one case per element, in order, each matching the
element on both sides and assigning to the result variable, and counts the elements. -/
theorem foldl_equatableCase (isEqualVar : VarDecl) (allElements : List EnumElementDecl)
    (st : EquatableLoop) :
    (allElements.foldl (equatableCase isEqualVar) st).elementCount
      = st.elementCount + allElements.length ∧
    ∃ sameCases : List CaseStmt,
      (allElements.foldl (equatableCase isEqualVar) st).cases = st.cases ++ sameCases ∧
      List.Forall₂
        (fun (elt : EnumElementDecl) (c : CaseStmt) =>
          ∃ lhsSubpattern rhsSubpattern source,
            c = { isDefault := false,
                  pattern := Pattern.TuplePattern
                    [("", Pattern.EnumElementPattern elt lhsSubpattern),
                     ("", Pattern.EnumElementPattern elt rhsSubpattern)],
                  assigned := isEqualVar, source := source })
        allElements sameCases := by
  induction allElements generalizing st with
  | nil => exact ⟨rfl, [], by simp, List.Forall₂.nil⟩
  | cons elt rest ih =>
    obtain ⟨hcount, sameCases, hcases, hall⟩ := ih (equatableCase isEqualVar st elt)
    obtain ⟨hcount1, lhsSubpattern, rhsSubpattern, source, hcase⟩ :=
      equatableCase_spec isEqualVar st elt
    refine ⟨?_, ?_⟩
    · rw [List.foldl_cons, hcount, hcount1, List.length_cons]
      omega
    · refine ⟨_ :: sameCases, ?_,
        List.Forall₂.cons ⟨lhsSubpattern, rhsSubpattern, source, rfl⟩ hall⟩
      rw [List.foldl_cons, hcases, hcase, List.append_assoc]
      rfl

/-- C27: the cases of the switch that `deriveBodyEquatable_enum_eq` generates for an enum
with the elements `allElements` are one case per element, in the order of the elements,
that matches the element on both sides and assigns to `isEqual`, followed by the default
case `isEqual = false` exactly when there is more than one element: `n + 1` cases for
`n > 1` elements and `n` cases otherwise, so one case for one element. -/
theorem deriveBodyEquatable_enum_eq_cases (C : ASTContext)
    (allElements : List EnumElementDecl) :
    (deriveBodyEquatable_enum_eq C allElements).resultVar
      = { address := C.allocated, name := "isEqual", type := "Bool" } ∧
    (∃ sameCases : List CaseStmt,
      List.Forall₂
        (fun (elt : EnumElementDecl) (c : CaseStmt) =>
          ∃ lhsSubpattern rhsSubpattern source,
            c = { isDefault := false,
                  pattern := Pattern.TuplePattern
                    [("", Pattern.EnumElementPattern elt lhsSubpattern),
                     ("", Pattern.EnumElementPattern elt rhsSubpattern)],
                  assigned := (deriveBodyEquatable_enum_eq C allElements).resultVar,
                  source := source })
        allElements sameCases ∧
      (deriveBodyEquatable_enum_eq C allElements).cases
        = sameCases ++
          if allElements.length > 1 then
            [{ isDefault := true, pattern := Pattern.AnyPattern,
               assigned := (deriveBodyEquatable_enum_eq C allElements).resultVar,
               source := some (Expr.BooleanLiteralExpr false) }]
          else []) ∧
    (deriveBodyEquatable_enum_eq C allElements).cases.length
      = (if allElements.length > 1 then allElements.length + 1 else allElements.length) ∧
    (allElements.length = 1 → (deriveBodyEquatable_enum_eq C allElements).cases.length = 1) ∧
    ((∃ c ∈ (deriveBodyEquatable_enum_eq C allElements).cases, c.isDefault = true)
      ↔ allElements.length > 1) := by
  obtain ⟨hcount, sameCases, hcases, hall⟩ := foldl_equatableCase
    { address := C.allocated, name := "isEqual", type := "Bool" } allElements
    { C := { allocated := C.allocated + 1 }, cases := [], elementCount := 0,
      discriminator := 0 }
  have hlen : sameCases.length = allElements.length := hall.length_eq.symm
  have hnot : ∀ c ∈ sameCases, c.isDefault = false := by
    intro c hc
    obtain ⟨i, hi, rfl⟩ := List.mem_iff_getElem.mp hc
    obtain ⟨_, _, _, heq⟩ := hall.get (by omega) hi
    have : sameCases[i] = sameCases.get ⟨i, hi⟩ := rfl
    rw [this, heq]
  have hbody : (deriveBodyEquatable_enum_eq C allElements).cases
      = sameCases ++
          if allElements.length > 1 then
            [{ isDefault := true, pattern := Pattern.AnyPattern,
               assigned := { address := C.allocated, name := "isEqual", type := "Bool" },
               source := some (Expr.BooleanLiteralExpr false) }]
          else [] := by
    simp only [deriveBodyEquatable_enum_eq, ASTContext.newVarDecl, hcount, hcases,
      Nat.zero_add, List.nil_append]
    split_ifs <;> simp
  refine ⟨rfl, ⟨sameCases, hall, hbody⟩, ?_, ?_, ?_⟩
  · rw [hbody]
    split_ifs <;> simp [hlen]
  · intro h1
    rw [hbody]
    simp [hlen, h1]
  · rw [hbody]
    constructor
    · rintro ⟨c, hc, hdef⟩
      by_contra hle
      simp only [hle, if_false, List.append_nil] at hc
      rw [hnot c hc] at hdef
      cases hdef
    · intro hgt
      simp only [hgt, if_true]
      exact ⟨_, List.mem_append_right _ (List.mem_singleton_self _), rfl⟩

/-- Witness of C27: an enum with the one element `A` gets one case and no default; the
enum `A, B(Int), C(String, Int)` gets four cases, the last one the default. -/
theorem deriveBodyEquatable_enum_eq_cases_witness :
    (deriveBodyEquatable_enum_eq { allocated := 0 }
      [{ name := "A", argumentType := none }]).cases.length = 1 ∧
    (deriveBodyEquatable_enum_eq { allocated := 0 }
      [{ name := "A", argumentType := none },
       { name := "B", argumentType := some (ArgumentType.paren "Int") },
       { name := "C", argumentType := some (ArgumentType.tuple [("", "String"), ("", "Int")]) }]
      ).cases.map (fun c => c.isDefault) = [false, false, false, true] :=
  ⟨(deriveBodyEquatable_enum_eq_cases { allocated := 0 }
      [{ name := "A", argumentType := none }]).2.2.2.1 rfl,
   by decide⟩

end EquatableCases

/-! ## Deriving `Hashable`: the hash expressions -/

section HashExpressions

/-- C28: for the enum `A, B(Int), C(String, Int)` the derived `hashValue` body assigns
the literal `0` in the case of `A`, `a0.hashValue &+ 31 &* 1` in the case of `B` and
`a1.hashValue &+ 31 &* (a0.hashValue &+ 31 &* 2)` in the case of `C` (whose two variables
are both named `a0`): the ordinal is the innermost operand, not the outermost addend, and
it is not asked for its `hashValue`. -/
theorem deriveBodyHashable_enum_hashValue_example :
    (deriveBodyHashable_enum_hashValue { allocated := 0 }
      [{ name := "A", argumentType := none },
       { name := "B", argumentType := some (ArgumentType.paren "Int") },
       { name := "C", argumentType := some (ArgumentType.tuple [("", "String"), ("", "Int")]) }]
      ).cases.map (fun c => c.source)
      = [some (Expr.IntegerLiteralExpr 0),
         some (Expr.BinaryExpr "&+"
           (Expr.UnresolvedDotExpr
             (Expr.DeclRefExpr { address := 1, name := "a0", type := "Int" }) "hashValue")
           (Expr.BinaryExpr "&*" (Expr.IntegerLiteralExpr 31) (Expr.IntegerLiteralExpr 1))),
         some (Expr.BinaryExpr "&+"
           (Expr.UnresolvedDotExpr
             (Expr.DeclRefExpr { address := 3, name := "a0", type := "Int" }) "hashValue")
           (Expr.BinaryExpr "&*" (Expr.IntegerLiteralExpr 31)
             (Expr.BinaryExpr "&+"
               (Expr.UnresolvedDotExpr
                 (Expr.DeclRefExpr { address := 2, name := "a0", type := "String" })
                 "hashValue")
               (Expr.BinaryExpr "&*" (Expr.IntegerLiteralExpr 31)
                 (Expr.IntegerLiteralExpr 2)))))] ∧
    (deriveBodyHashable_enum_hashValue { allocated := 0 }
      [{ name := "A", argumentType := none },
       { name := "B", argumentType := some (ArgumentType.paren "Int") }]
      ).cases.map (fun c => c.source)
      ≠ [some (Expr.UnresolvedDotExpr (Expr.IntegerLiteralExpr 0) "hashValue"),
         some (Expr.BinaryExpr "&+"
           (Expr.UnresolvedDotExpr (Expr.IntegerLiteralExpr 1) "hashValue")
           (Expr.BinaryExpr "&*" (Expr.IntegerLiteralExpr 31)
             (Expr.UnresolvedDotExpr
               (Expr.DeclRefExpr { address := 1, name := "a0", type := "Int" })
               "hashValue")))] :=
  ⟨by decide, by decide⟩

/-- Mixing one more hash value in multiplies the value so far by 31 and adds the hash
value, modulo `2 ^ w`. -/
theorem evalHash_mixIn (w : Nat) (hashValue : VarDecl → Nat) (exprSoFar : Expr)
    (payloadVar : VarDecl) :
    evalHash w hashValue (mixInHashExpr_hashValue exprSoFar (Expr.DeclRefExpr payloadVar))
      = (hashValue payloadVar + 31 * evalHash w hashValue exprSoFar) % 2 ^ w := by
  have h31 : 31 % 2 ^ 32 = 31 := by norm_num
  simp only [mixInHashExpr_hashValue, evalHash, h31]
  simp only [if_true, show ("&*" = "&+") = False from by decide, if_false]
  exact Nat.ModEq.add (Nat.mod_modEq _ _)
    ((Nat.mod_modEq _ _).trans (Nat.ModEq.mul_right _ (Nat.mod_modEq _ _)))

/-- The value of the chain that mixes the hash values of the payload variables into the
literal `i`. -/
theorem evalHash_foldl_mixIn (w : Nat) (hashValue : VarDecl → Nat)
    (payloadVars : List VarDecl) (i : Nat) :
    evalHash w hashValue
        (payloadVars.foldl
          (fun lastExpr payloadVar =>
            mixInHashExpr_hashValue lastExpr (Expr.DeclRefExpr payloadVar))
          (Expr.IntegerLiteralExpr i))
      = (i * 31 ^ payloadVars.length +
          ∑ j ∈ Finset.range payloadVars.length,
            ((payloadVars[j]?).map hashValue).getD 0 * 31 ^ (payloadVars.length - 1 - j))
        % 2 ^ w := by
  induction payloadVars using List.reverseRecOn with
  | nil => simp [evalHash]
  | append_singleton payloadVars payloadVar ih =>
    rw [List.foldl_append, List.foldl_cons, List.foldl_nil, evalHash_mixIn, ih,
      List.length_append, List.length_singleton, Finset.sum_range_succ]
    have hlast : (((payloadVars ++ [payloadVar])[payloadVars.length]?).map hashValue).getD 0
        = hashValue payloadVar := by simp
    have hsum : ∑ j ∈ Finset.range payloadVars.length,
          (((payloadVars ++ [payloadVar])[j]?).map hashValue).getD 0
            * 31 ^ (payloadVars.length + 1 - 1 - j)
        = 31 * ∑ j ∈ Finset.range payloadVars.length,
            ((payloadVars[j]?).map hashValue).getD 0 * 31 ^ (payloadVars.length - 1 - j) := by
      rw [Finset.mul_sum]
      apply Finset.sum_congr rfl
      intro j hj
      have hlt : j < payloadVars.length := Finset.mem_range.mp hj
      rw [List.getElem?_append_left hlt,
        show payloadVars.length + 1 - 1 - j = (payloadVars.length - 1 - j) + 1 from by omega,
        pow_succ]
      ring
    rw [hlast, hsum, Nat.add_mod, Nat.mul_mod, Nat.mod_mod, ← Nat.mul_mod, ← Nat.add_mod]
    congr 1
    simp only [Nat.add_sub_cancel, Nat.sub_self, pow_zero, Nat.mul_one]
    ring

/-- The body of the loop appends the case of the element: its pattern binds the payload
variables, and its expression mixes their hash values, in order, into the literal of the
current index. -/
theorem hashableCase_spec (resultVar : VarDecl) (st : HashableLoop) (elt : EnumElementDecl) :
    (hashableCase resultVar st elt).index = st.index + 1 ∧
    (hashableCase resultVar st elt).cases = st.cases ++
      [{ isDefault := false,
         pattern := Pattern.EnumElementPattern elt
           (enumElementPayloadSubpattern st.C elt 'a' []).1,
         assigned := resultVar,
         source := some ((enumElementPayloadSubpattern st.C elt 'a' []).2.1.foldl
           (fun lastExpr payloadVar =>
             mixInHashExpr_hashValue lastExpr (Expr.DeclRefExpr payloadVar))
           (Expr.IntegerLiteralExpr (st.index % 2 ^ 32))) }] :=
  ⟨rfl, rfl⟩

/-- The loop over the elements appends the case of each element, in order, the element
at position `j` getting the index `st.index + j`. -/
theorem foldl_hashableCase (resultVar : VarDecl) (allElements : List EnumElementDecl)
    (st : HashableLoop) :
    ∃ newCases : List CaseStmt,
      (allElements.foldl (hashableCase resultVar) st).cases = st.cases ++ newCases ∧
      newCases.length = allElements.length ∧
      ∀ (j : Nat) (hj : j < allElements.length), ∃ Cj : ASTContext,
        newCases[j]? = some
          { isDefault := false,
            pattern := Pattern.EnumElementPattern allElements[j]
              (enumElementPayloadSubpattern Cj allElements[j] 'a' []).1,
            assigned := resultVar,
            source := some ((enumElementPayloadSubpattern Cj allElements[j] 'a' []).2.1.foldl
              (fun lastExpr payloadVar =>
                mixInHashExpr_hashValue lastExpr (Expr.DeclRefExpr payloadVar))
              (Expr.IntegerLiteralExpr ((st.index + j) % 2 ^ 32))) } := by
  induction allElements generalizing st with
  | nil => exact ⟨[], by simp, rfl, fun j hj => by simp at hj⟩
  | cons elt rest ih =>
    obtain ⟨newCases, hcases, hlen, hget⟩ := ih (hashableCase resultVar st elt)
    obtain ⟨hindex, hcase⟩ := hashableCase_spec resultVar st elt
    refine ⟨({ isDefault := false,
                pattern := Pattern.EnumElementPattern elt
                  (enumElementPayloadSubpattern st.C elt 'a' []).1,
                assigned := resultVar,
                source := some ((enumElementPayloadSubpattern st.C elt 'a' []).2.1.foldl
                  (fun lastExpr payloadVar =>
                    mixInHashExpr_hashValue lastExpr (Expr.DeclRefExpr payloadVar))
                  (Expr.IntegerLiteralExpr (st.index % 2 ^ 32))) } : CaseStmt) :: newCases,
      ?_, by simp [hlen], ?_⟩
    · rw [List.foldl_cons, hcases, hcase, List.append_assoc]
      rfl
    · intro j hj
      cases j with
      | zero => exact ⟨st.C, by simp⟩
      | succ j =>
        obtain ⟨Cj, hCj⟩ := hget j (by simpa using hj)
        refine ⟨Cj, ?_⟩
        rw [List.getElem?_cons_succ, hCj, hindex]
        simp only [List.getElem_cons_succ, Nat.add_assoc, Nat.add_comm 1 j]

/-- C29: the hash expression that `deriveBodyHashable_enum_hashValue` builds for the
element with ordinal `i` is the fold of `mixInHashExpr_hashValue`, which yields
`<exprToHash>.hashValue &+ 31 &* <exprSoFar>`, over the payload variables of the element
in order, starting from the integer literal `i`.  In wrapping `w`-bit arithmetic such a
fold over `k` variables with the hash values `h 0`, ..., `h (k - 1)` has the value
`(i * 31 ^ k + sum over j of h j * 31 ^ (k - 1 - j)) mod 2 ^ w`, which is `i mod 2 ^ w`
when there is no payload. -/
theorem deriveBodyHashable_enum_hashValue_fold (C : ASTContext)
    (allElements : List EnumElementDecl) :
    (deriveBodyHashable_enum_hashValue C allElements).cases.length = allElements.length ∧
    (∀ (i : Nat) (hi : i < allElements.length), ∃ Ci : ASTContext,
      (deriveBodyHashable_enum_hashValue C allElements).cases[i]? = some
        { isDefault := false,
          pattern := Pattern.EnumElementPattern allElements[i]
            (enumElementPayloadSubpattern Ci allElements[i] 'a' []).1,
          assigned := (deriveBodyHashable_enum_hashValue C allElements).resultVar,
          source := some ((enumElementPayloadSubpattern Ci allElements[i] 'a' []).2.1.foldl
            (fun lastExpr payloadVar =>
              mixInHashExpr_hashValue lastExpr (Expr.DeclRefExpr payloadVar))
            (Expr.IntegerLiteralExpr (i % 2 ^ 32))) }) ∧
    (∀ i : Nat, i < 2 ^ 32 → Expr.IntegerLiteralExpr (i % 2 ^ 32) = Expr.IntegerLiteralExpr i) ∧
    (∀ exprSoFar exprToHash : Expr,
      mixInHashExpr_hashValue exprSoFar exprToHash
        = Expr.BinaryExpr "&+" (Expr.UnresolvedDotExpr exprToHash "hashValue")
            (Expr.BinaryExpr "&*" (Expr.IntegerLiteralExpr 31) exprSoFar)) ∧
    (∀ (w : Nat) (hashValue : VarDecl → Nat) (payloadVars : List VarDecl) (i : Nat),
      evalHash w hashValue
          (payloadVars.foldl
            (fun lastExpr payloadVar =>
              mixInHashExpr_hashValue lastExpr (Expr.DeclRefExpr payloadVar))
            (Expr.IntegerLiteralExpr i))
        = (i * 31 ^ payloadVars.length +
            ∑ j ∈ Finset.range payloadVars.length,
              ((payloadVars[j]?).map hashValue).getD 0
                * 31 ^ (payloadVars.length - 1 - j))
          % 2 ^ w) ∧
    (∀ (w : Nat) (hashValue : VarDecl → Nat) (i : Nat),
      evalHash w hashValue
          (([] : List VarDecl).foldl
            (fun lastExpr payloadVar =>
              mixInHashExpr_hashValue lastExpr (Expr.DeclRefExpr payloadVar))
            (Expr.IntegerLiteralExpr i))
        = i % 2 ^ w ∧ (i < 2 ^ w → i % 2 ^ w = i)) := by
  obtain ⟨newCases, hcases, hlen, hget⟩ := foldl_hashableCase
    { address := C.allocated, name := "result", type := "Int" } allElements
    { C := { allocated := C.allocated + 1 }, cases := [], index := 0 }
  have hbody : (deriveBodyHashable_enum_hashValue C allElements).cases = newCases := by
    simp only [deriveBodyHashable_enum_hashValue, ASTContext.newVarDecl, hcases,
      List.nil_append]
  refine ⟨by rw [hbody, hlen], ?_, ?_, fun _ _ => rfl, evalHash_foldl_mixIn, ?_⟩
  · intro i hi
    obtain ⟨Ci, hCi⟩ := hget i hi
    refine ⟨Ci, ?_⟩
    rw [hbody, hCi]
    simp only [Nat.zero_add]
    rfl
  · intro i hi
    rw [Nat.mod_eq_of_lt hi]
  · intro w hashValue i
    exact ⟨rfl, Nat.mod_eq_of_lt⟩

/-- Witness of C29: the hash expression of `B(Int)`, the element with ordinal 1 of the enum
`A, B(Int)`, has the value `1 * 31 + h` for a payload with the hash value `h = 7`, in
64-bit arithmetic. -/
theorem deriveBodyHashable_enum_hashValue_fold_witness :
    (deriveBodyHashable_enum_hashValue { allocated := 0 }
      [{ name := "A", argumentType := none },
       { name := "B", argumentType := some (ArgumentType.paren "Int") }]
      ).cases.map (fun c => c.source.map (evalHash 64 (fun _ => 7)))
      = [some 0, some 38] ∧
    evalHash 64 (fun _ => 7)
        ([({ address := 1, name := "a0", type := "Int" } : VarDecl)].foldl
          (fun lastExpr payloadVar =>
            mixInHashExpr_hashValue lastExpr (Expr.DeclRefExpr payloadVar))
          (Expr.IntegerLiteralExpr 1))
      = (1 * 31 ^ 1 + ∑ j ∈ Finset.range 1,
          (([({ address := 1, name := "a0", type := "Int" } : VarDecl)][j]?).map
            (fun _ => 7)).getD 0 * 31 ^ (1 - 1 - j)) % 2 ^ 64 :=
  ⟨by decide,
   (deriveBodyHashable_enum_hashValue_fold { allocated := 0 } []).2.2.2.2.1 64 (fun _ => 7)
     [{ address := 1, name := "a0", type := "Int" }] 1⟩

end HashExpressions

/-! ## Path remapping when several source prefixes match -/

section PathRemappingOrder

/-- A prefix of a string does not come after it in the lexicographic order. -/
theorem lex_le_of_isPrefix_chars (l1 l2 : List Char) (h : l1 <+: l2) : l1 ≤ l2 := by
  induction l1 generalizing l2 with
  | nil => exact List.nil_le
  | cons a l1 ih =>
    cases l2 with
    | nil => simp at h
    | cons b l2 =>
      obtain ⟨rfl, h2⟩ := List.cons_prefix_cons.mp h
      exact List.cons_le_cons a (ih l2 h2)

theorem mem_stdMapAssign (m : List (String × String)) (key value : String)
    (x : String × String) (h : x ∈ stdMapAssign m key value) : x = (key, value) ∨ x ∈ m := by
  induction m with
  | nil => simpa [stdMapAssign] using h
  | cons entry rest ih =>
    obtain ⟨k, v⟩ := entry
    by_cases hlt : key.data < k.data
    · simp only [stdMapAssign, hlt, if_true, List.mem_cons] at h
      simpa using h
    · by_cases hk : key = k
      · subst hk
        simp only [stdMapAssign, hlt, if_false, if_true, List.mem_cons] at h
        rcases h with h | h
        · exact Or.inl h
        · exact Or.inr (List.mem_cons_of_mem _ h)
      · simp only [stdMapAssign, hlt, if_false, hk, List.mem_cons] at h
        rcases h with h | h
        · exact Or.inr (by simp [h])
        · rcases ih h with h | h
          · exact Or.inl h
          · exact Or.inr (List.mem_cons_of_mem _ h)

/-- The keys after an assignment are the key assigned to and the keys held before. -/
theorem mem_keys_stdMapAssign (m : List (String × String)) (key value k : String) :
    k ∈ (stdMapAssign m key value).map Prod.fst ↔ k = key ∨ k ∈ m.map Prod.fst := by
  induction m with
  | nil => simp [stdMapAssign]
  | cons entry rest ih =>
    obtain ⟨k0, v⟩ := entry
    by_cases hlt : key.data < k0.data
    · simp [stdMapAssign, hlt]
    · by_cases hk : key = k0
      · subst hk
        simp [stdMapAssign]
      · simp only [stdMapAssign, hlt, if_false, hk, List.map_cons, List.mem_cons, ih]
        tauto

/-- An assignment keeps the entries in ascending order of their keys. -/
theorem sorted_stdMapAssign (m : List (String × String)) (key value : String)
    (h : m.Pairwise (fun a b => a.1.data < b.1.data)) :
    (stdMapAssign m key value).Pairwise (fun a b => a.1.data < b.1.data) := by
  induction m with
  | nil => simp [stdMapAssign]
  | cons entry rest ih =>
    obtain ⟨k, v⟩ := entry
    obtain ⟨hhead, hrest⟩ := List.pairwise_cons.mp h
    by_cases hlt : key.data < k.data
    · simp only [stdMapAssign, hlt, if_true]
      refine List.pairwise_cons.mpr ⟨?_, h⟩
      intro b hb
      rcases List.mem_cons.mp hb with rfl | hb
      · exact hlt
      · exact lt_trans hlt (hhead b hb)
    · by_cases hk : key = k
      · subst hk
        simp only [stdMapAssign, hlt, if_false, if_true]
        exact List.pairwise_cons.mpr ⟨hhead, hrest⟩
      · simp only [stdMapAssign, hlt, if_false, hk]
        refine List.pairwise_cons.mpr ⟨?_, ih hrest⟩
        intro b hb
        rcases mem_stdMapAssign rest key value b hb with rfl | hb
        · exact lt_of_le_of_ne (not_lt.mp hlt) (fun heq => hk (String.ext heq.symm))
        · exact hhead b hb

/-- The map after a sequence of `addMapping` calls is in ascending order of its keys, and
its keys are the keys held before and the source prefixes added. -/
theorem foldl_addMapping_sorted (adds acc : List (String × String))
    (h : acc.Pairwise (fun a b => a.1.data < b.1.data)) :
    (adds.foldl (fun r m => r.addMapping m.1 m.2)
        ({ PathPrefixMap := acc } : PathRemapper)).PathPrefixMap.Pairwise
      (fun a b => a.1.data < b.1.data) ∧
    ∀ k, k ∈ (adds.foldl (fun r m => r.addMapping m.1 m.2)
        ({ PathPrefixMap := acc } : PathRemapper)).PathPrefixMap.map Prod.fst
      ↔ k ∈ acc.map Prod.fst ∨ k ∈ adds.map Prod.fst := by
  induction adds generalizing acc with
  | nil => exact ⟨h, fun k => by simp⟩
  | cons m rest ih =>
    obtain ⟨hsorted, hkeys⟩ := ih (stdMapAssign acc m.1 m.2) (sorted_stdMapAssign acc m.1 m.2 h)
    refine ⟨hsorted, fun k => ?_⟩
    have := hkeys k
    simp only [List.foldl_cons, PathRemapper.addMapping] at this ⊢
    rw [this, mem_keys_stdMapAssign, List.map_cons, List.mem_cons]
    tauto

/-- On entries in ascending order of their keys, the loop applies the matching entry
with the smallest key. -/
theorem remapPathLoop_sorted (Path : String) (entries : List (String × String))
    (hsorted : entries.Pairwise (fun a b => a.1.data < b.1.data))
    (hmatch : ∃ entry ∈ entries, entry.1.data <+: Path.data) :
    ∃ entry ∈ entries, entry.1.data <+: Path.data ∧
      remapPathLoop Path entries = entry.2 ++ ⟨Path.data.drop entry.1.data.length⟩ ∧
      ∀ other ∈ entries, other.1.data <+: Path.data →
        other = entry ∨ entry.1.data < other.1.data := by
  induction entries with
  | nil => simp at hmatch
  | cons head rest ih =>
    obtain ⟨hhead, hrest⟩ := List.pairwise_cons.mp hsorted
    by_cases hstart : head.1.data <+: Path.data
    · refine ⟨head, List.mem_cons_self _ _, hstart, ?_, ?_⟩
      · simp only [remapPathLoop, (startswith_iff Path head.1).mpr hstart, if_true, substr]
        rfl
      · intro other hother _
        rcases List.mem_cons.mp hother with rfl | hother
        · exact Or.inl rfl
        · exact Or.inr (hhead other hother)
    · have hfalse : startswith Path head.1 = false := by
        rw [← Bool.not_eq_true, startswith_iff]
        exact hstart
      obtain ⟨found, hfound, hpre⟩ := hmatch
      have hfound2 : found ∈ rest := by
        rcases List.mem_cons.mp hfound with rfl | h
        · exact absurd hpre hstart
        · exact h
      obtain ⟨entry, hentry, hpre2, hout, hleast⟩ := ih hrest ⟨found, hfound2, hpre⟩
      refine ⟨entry, List.mem_cons_of_mem _ hentry, hpre2, ?_, ?_⟩
      · simp only [remapPathLoop, hfalse]
        exact hout
      · intro other hother hpre3
        rcases List.mem_cons.mp hother with rfl | hother
        · exact absurd hpre3 hstart
        · exact hleast other hother hpre3

/-- Of two prefixes of one path, the lexicographically smaller is the shorter, and a
prefix of the other. -/
theorem isPrefix_of_lt (l1 l2 path : List Char) (h1 : l1 <+: path) (h2 : l2 <+: path)
    (hlt : l1 < l2) : l1 <+: l2 ∧ l1.length < l2.length := by
  have hpre : l1 <+: l2 := by
    rcases List.prefix_or_prefix_of_prefix h1 h2 with h | h
    · exact h
    · exact absurd (lex_le_of_isPrefix_chars l2 l1 h) (not_le.mpr hlt)
  refine ⟨hpre, ?_⟩
  by_contra hlen
  have := List.IsPrefix.eq_of_length_le hpre (not_lt.mp hlen)
  rw [this] at hlt
  exact lt_irrefl _ hlt

/-- C30: after any sequence of `addMapping` calls the entries of the map are in ascending
order of their source prefixes, which are the source prefixes added.  When some of them
are prefixes of the path, `remapPath` applies the one that is lexicographically smallest
among them; it is a strict prefix of every other one, so it is the shortest.  Hence a
mapping whose source prefix is the empty string is applied to every path.  Mappings with
distinct source prefixes build the same map in whatever order they are added. -/
theorem remapPath_smallest_match (adds : List (String × String)) (Path : String) :
    (PathRemapper.ofMappings adds).PathPrefixMap.Pairwise
      (fun a b => a.1.data < b.1.data) ∧
    (∀ k, k ∈ (PathRemapper.ofMappings adds).PathPrefixMap.map Prod.fst
      ↔ k ∈ adds.map Prod.fst) ∧
    ((∃ entry ∈ (PathRemapper.ofMappings adds).PathPrefixMap, entry.1.data <+: Path.data) →
      ∃ entry ∈ (PathRemapper.ofMappings adds).PathPrefixMap,
        entry.1.data <+: Path.data ∧
        (PathRemapper.ofMappings adds).remapPath Path
          = entry.2 ++ ⟨Path.data.drop entry.1.data.length⟩ ∧
        ∀ other ∈ (PathRemapper.ofMappings adds).PathPrefixMap,
          other.1.data <+: Path.data → other ≠ entry →
            entry.1.data < other.1.data ∧ entry.1.data <+: other.1.data ∧
              entry.1.data.length < other.1.data.length) ∧
    (∀ ToPath, ("", ToPath) ∈ (PathRemapper.ofMappings adds).PathPrefixMap →
      (PathRemapper.ofMappings adds).remapPath Path = ToPath ++ Path) ∧
    (∀ adds2 : List (String × String), adds.Perm adds2 → (adds.map Prod.fst).Nodup →
      (PathRemapper.ofMappings adds2).PathPrefixMap
        = (PathRemapper.ofMappings adds).PathPrefixMap) := by
  have hsorted : ∀ l : List (String × String),
      (PathRemapper.ofMappings l).PathPrefixMap.Pairwise
        (fun a b => a.1.data < b.1.data) := fun l =>
    (foldl_addMapping_sorted l [] List.Pairwise.nil).1
  have hfirst := remapPathLoop_sorted Path (PathRemapper.ofMappings adds).PathPrefixMap
    (hsorted adds)
  refine ⟨hsorted adds, ?_, ?_, ?_, ?_⟩
  · intro k
    have := (foldl_addMapping_sorted adds [] List.Pairwise.nil).2 k
    simpa [PathRemapper.ofMappings] using this
  · intro hmatch
    obtain ⟨entry, hentry, hpre, hout, hleast⟩ := hfirst hmatch
    refine ⟨entry, hentry, hpre, hout, ?_⟩
    intro other hother hpre2 hne
    rcases hleast other hother hpre2 with h | h
    · exact absurd h hne
    · exact ⟨h, isPrefix_of_lt _ _ Path.data hpre hpre2 h⟩
  · intro ToPath hmem
    obtain ⟨entry, hentry, hpre, hout, hleast⟩ := hfirst ⟨("", ToPath), hmem, List.nil_prefix⟩
    rcases hleast ("", ToPath) hmem List.nil_prefix with h | h
    · rw [← h] at hout
      exact hout
    · exact absurd h (not_lt.mpr List.nil_le)
  · intro adds2 hperm hnodup
    have hnodup2 : (adds2.map Prod.fst).Nodup := (hperm.map Prod.fst).nodup_iff.mp hnodup
    have hp1 : (PathRemapper.ofMappings adds).PathPrefixMap.Perm adds := by
      simpa using foldl_addMapping_perm adds [] (by simpa using hnodup)
    have hp2 : (PathRemapper.ofMappings adds2).PathPrefixMap.Perm adds2 := by
      simpa using foldl_addMapping_perm adds2 [] (by simpa using hnodup2)
    have hanti : IsAntisymm (String × String) (fun a b => a.1.data < b.1.data) :=
      ⟨fun a b hab hba => absurd hba (lt_asymm hab)⟩
    exact List.eq_of_perm_of_sorted (hp2.trans (hperm.symm.trans hp1.symm)) (hsorted adds2)
      (hsorted adds)

/-- Witness of C30: with the mappings of `/a/b` and of `/a` added in either order, the
path `/a/b/c` is remapped with `/a`, the shorter one; with a mapping of the empty string
the path is prefixed. -/
theorem remapPath_smallest_match_witness :
    (PathRemapper.ofMappings [("/a/b", "/y"), ("/a", "/x")]).remapPath "/a/b/c" = "/x/b/c" ∧
    (PathRemapper.ofMappings [("/a", "/x"), ("/a/b", "/y")]).remapPath "/a/b/c" = "/x/b/c" ∧
    (PathRemapper.ofMappings [("/a", "/x"), ("", "/z")]).remapPath "/a/b/c" = "/z/a/b/c" ∧
    (PathRemapper.ofMappings [("/a", "/x"), ("/a/b", "/y")]).PathPrefixMap
      = (PathRemapper.ofMappings [("/a/b", "/y"), ("/a", "/x")]).PathPrefixMap :=
  ⟨by decide, by decide,
   (remapPath_smallest_match [("/a", "/x"), ("", "/z")] "/a/b/c").2.2.2.1 "/z" (by decide),
   (remapPath_smallest_match [("/a/b", "/y"), ("/a", "/x")] "/a/b/c").2.2.2.2
     [("/a", "/x"), ("/a/b", "/y")] (List.Perm.swap _ _ _) (by decide)⟩

end PathRemappingOrder

end Swift
